import Mathlib

/-!
Verification development for the SRM-RAG ingestion pipeline
(crawler `backend/crawler/crawl.py` and chunker `backend/processing/chunker.py`).

The Python sources are shallowly embedded below.  External collaborators
(the NLTK sentence/word tokenizers) are modelled as injected deterministic
functions, per the design notes of the specification: `sentTok` stands for
`nltk.sent_tokenize` and `tok s` for `len(nltk.word_tokenize(s))`.
Python strings are modelled by Lean `String` and string indices by `Nat`
code-point positions (the sources only use `find`, slicing and `in`).
-/

namespace SRMRAG

/-- Token count of a list of sentences: sum of the injected per-sentence
token counter, as computed by `sum(len(nltk.word_tokenize(s)) for s in ...)`. -/
def sumTok (tok : String → Nat) (ss : List String) : Nat :=
  (ss.map tok).sum

/-- A heading record `{"level": int, "text": str}` as produced by
`extract_headings` in `crawl.py`. -/
structure Heading where
  level : Nat
  text : String
deriving DecidableEq, Repr

/-- First index of `sub` as a sublist of `t` (Python `str.find` on the
remainder of a string), `none` when absent. -/
def subFindPos (t sub : List Char) : Option Nat :=
  match t with
  | [] => if sub = [] then some 0 else none
  | c :: t' =>
    if sub.isPrefixOf (c :: t') then some 0
    else (subFindPos t' sub).map (· + 1)

/-- Python `s.find(sub, start)`: the least position `p ≥ start` where `sub`
occurs in `s`, as an `Option` (Python returns `-1` for no match, and `-1`
whenever `start` exceeds the length). -/
def pyFind (s sub : String) (start : Nat) : Option Nat :=
  if s.length < start then none
  else (subFindPos (s.data.drop start) sub.data).map (· + start)

/-- Python slice `s[a:b]` for `0 ≤ a`, `0 ≤ b` (empty when `b ≤ a`). -/
def pySlice (s : String) (a b : Nat) : String :=
  String.mk ((s.data.drop a).take (b - a))

/-- Python `sub in s` substring test. -/
def pyContains (s sub : String) : Bool :=
  (subFindPos s.data sub.data).isSome

/-- The scan of `get_text_for_heading` over the headings after the current
one: the first heading of level less than or equal to `lvl` whose text is
found at or after `startPos` supplies the end position; an unlocatable
qualifying heading is skipped (the Python loop only breaks on `!= -1`);
if none qualifies and is found, the span runs to the end of the text. -/
def findSectionEnd (text : String) (startPos lvl : Nat) : List Heading → Nat
  | [] => text.length
  | h :: rest =>
    if h.level ≤ lvl then
      match pyFind text h.text startPos with
      | some p => p
      | none => findSectionEnd text startPos lvl rest
    else findSectionEnd text startPos lvl rest

/-- Embedding of `get_text_for_heading(text, headings, heading_index)`
(chunker.py lines 13-31). -/
def get_text_for_heading (text : String) (headings : List Heading) (i : Nat) : String :=
  match headings.drop i with
  | [] => ""
  | h :: rest =>
    match pyFind text h.text 0 with
    | none => ""
    | some startPos => pySlice text startPos (findSectionEnd text startPos h.level rest)

/-- The backwards overlap scan of `chunk_section` (lines 52-58), operating on
the reversed sentence list: add token counts from the end; stop (returning the
count so far) as soon as the running total reaches `ov`, otherwise count the
sentence and continue. -/
def overlapCountAux (tok : String → Nat) (ov : Nat) : List String → Nat → Nat → Nat
  | [], cnt, _ => cnt
  | s :: rest, cnt, acc =>
    if ov ≤ acc + tok s then cnt
    else overlapCountAux tok ov rest (cnt + 1) (acc + tok s)

/-- The value of `overlap_sentence_count` computed by `chunk_section` for a
closed chunk `cs`. -/
def overlapCount (tok : String → Nat) (ov : Nat) (cs : List String) : Nat :=
  overlapCountAux tok ov cs.reverse 0 0

/-- The seed of the next chunk: `cs[-cnt:]` when `cnt > 0`, else `[]`
(chunker.py lines 60-63). -/
def seedOf (tok : String → Nat) (ov : Nat) (cs : List String) : List String :=
  let cnt := overlapCount tok ov cs
  if 0 < cnt then cs.drop (cs.length - cnt) else []

/-- The sentence-accumulation loop of `chunk_section` (lines 41-71), kept at
the granularity of sentence lists: each emitted element is the list of
sentences of one chunk; `chunk_section` itself emits their `" "`-joins.
`cs` is `current_chunk_sentences`, `cur` is `current_chunk_tokens`. -/
def chunkLists (tok : String → Nat) (maxT ov : Nat) :
    List String → List String → Nat → List (List String) → List (List String)
  | [], cs, _, chunks => if cs = [] then chunks else chunks ++ [cs]
  | s :: rest, cs, cur, chunks =>
    if maxT < cur + tok s ∧ cs ≠ [] then
      let cs' := seedOf tok ov cs
      chunkLists tok maxT ov rest (cs' ++ [s]) (sumTok tok cs' + tok s) (chunks ++ [cs])
    else
      chunkLists tok maxT ov rest (cs ++ [s]) (cur + tok s) chunks

/-- Embedding of `chunk_section(text, max_chunk_tokens, overlap_tokens)`
(chunker.py lines 33-73), with the sentence tokenizer injected. -/
def chunk_section (sentTok : String → List String) (tok : String → Nat)
    (text : String) (maxT ov : Nat) : List String :=
  (chunkLists tok maxT ov (sentTok text) [] 0 []).map (String.intercalate " ")

/-- A produced chunk before the JSONL wrapping of `process_file`: its text and
its `section_path`. -/
structure Chunk0 where
  text : String
  section_path : List String
deriving DecidableEq, Repr

/-- A page record as read by `chunk_document` (`clean_text` and `headings`). -/
structure Doc where
  clean_text : String
  headings : List Heading

/-- One step of the heading stack of `chunk_document` (lines 92-94):
pop while the new heading's level is at most the top's level, then push.
The stack is kept top-first here; Python's list is its reverse. -/
def updateStack (st : List Heading) (h : Heading) : List Heading :=
  h :: st.dropWhile (fun t => h.level ≤ t.level)

/-- The heading loop of `chunk_document` (lines 90-107).  `i` is the index of
the first heading of `pending` within `headings`; `st` is the current stack
(top-first); `acc` the chunks produced so far. -/
def chunkDocLoop (sentTok : String → List String) (tok : String → Nat)
    (text : String) (headings : List Heading) :
    List Heading → Nat → List Heading → List Chunk0 → List Chunk0
  | [], _, _, acc => acc
  | h :: rest, i, st, acc =>
    let st' := updateStack st h
    let sec := get_text_for_heading text headings i
    let acc' :=
      if sec = "" then acc
      else acc ++ (chunk_section sentTok tok sec 400 100).map
        (fun t => ⟨t, (st'.map Heading.text).reverse⟩)
    chunkDocLoop sentTok tok text headings rest (i + 1) st' acc'

/-- Embedding of `chunk_document(doc)` (chunker.py lines 75-107); the section
chunker runs with its default budgets 400/100. -/
def chunk_document (sentTok : String → List String) (tok : String → Nat)
    (doc : Doc) : List Chunk0 :=
  if doc.headings = [] then
    (chunk_section sentTok tok doc.clean_text 400 100).map (fun t => ⟨t, []⟩)
  else chunkDocLoop sentTok tok doc.clean_text doc.headings doc.headings 0 [] []

/-- The stack state after processing the first `i + 1` headings. -/
def stackAt (headings : List Heading) (i : Nat) : List Heading :=
  (headings.take (i + 1)).foldl updateStack []

/-- The chunks contributed by the heading at index `i` of `doc.headings`:
none when its section text is empty, else one chunk per section chunk,
carrying the stack at `i` as `section_path`. -/
def chunksForHeading (sentTok : String → List String) (tok : String → Nat)
    (doc : Doc) (i : Nat) : List Chunk0 :=
  let sec := get_text_for_heading doc.clean_text doc.headings i
  if sec = "" then []
  else (chunk_section sentTok tok sec 400 100).map
    (fun t => ⟨t, ((stackAt doc.headings i).map Heading.text).reverse⟩)

/-- Non-accumulating form of the overlap scan: the number of trailing
sentences (of the reversed list) consumed strictly before the running total
reaches `ov`. -/
def takeCnt (tok : String → Nat) (ov : Nat) : List String → Nat → Nat
  | [], _ => 0
  | s :: rest, acc =>
    if ov ≤ acc + tok s then 0 else takeCnt tok ov rest (acc + tok s) + 1

lemma overlapCountAux_eq (tok : String → Nat) (ov : Nat) :
    ∀ (l : List String) (cnt acc : Nat),
      overlapCountAux tok ov l cnt acc = cnt + takeCnt tok ov l acc := by
  intro l
  induction l with
  | nil => intro cnt acc; simp [overlapCountAux, takeCnt]
  | cons s rest ih =>
    intro cnt acc
    simp only [overlapCountAux, takeCnt]
    by_cases h : ov ≤ acc + tok s
    · simp [h]
    · simp only [if_neg h, ih]
      omega

lemma takeCnt_le_length (tok : String → Nat) (ov : Nat) :
    ∀ (l : List String) (acc : Nat), takeCnt tok ov l acc ≤ l.length := by
  intro l
  induction l with
  | nil => intro acc; simp [takeCnt]
  | cons s rest ih =>
    intro acc
    simp only [takeCnt, List.length_cons]
    by_cases h : ov ≤ acc + tok s
    · simp [h]
    · simp only [if_neg h]
      exact Nat.succ_le_succ (ih _)

lemma takeCnt_sum_lt (tok : String → Nat) (ov : Nat) :
    ∀ (l : List String) (acc : Nat), 0 < takeCnt tok ov l acc →
      acc + sumTok tok (l.take (takeCnt tok ov l acc)) < ov := by
  intro l
  induction l with
  | nil => intro acc h; simp [takeCnt] at h
  | cons s rest ih =>
    intro acc _
    simp only [takeCnt]
    by_cases h : ov ≤ acc + tok s
    · simp only [if_pos h]
      simp [takeCnt, if_pos h] at *
    · simp only [if_neg h, List.take_succ_cons]
      by_cases h0 : 0 < takeCnt tok ov rest (acc + tok s)
      · have := ih (acc + tok s) h0
        simp only [sumTok, List.map_cons, List.sum_cons] at *
        omega
      · have hz : takeCnt tok ov rest (acc + tok s) = 0 := by omega
        rw [hz]
        simp only [List.take_zero, sumTok, List.map_cons, List.map_nil, List.sum_cons,
          List.sum_nil]
        omega

lemma takeCnt_max (tok : String → Nat) (ov : Nat) :
    ∀ (l : List String) (acc : Nat), takeCnt tok ov l acc < l.length →
      ov ≤ acc + sumTok tok (l.take (takeCnt tok ov l acc + 1)) := by
  intro l
  induction l with
  | nil => intro acc h; simp [takeCnt] at h
  | cons s rest ih =>
    intro acc hlt
    simp only [takeCnt] at hlt ⊢
    by_cases h : ov ≤ acc + tok s
    · simp only [if_pos h, Nat.zero_add, List.take_succ_cons, List.take_zero, sumTok,
        List.map_cons, List.map_nil, List.sum_cons, List.sum_nil]
      omega
    · simp only [if_neg h, List.take_succ_cons] at hlt ⊢
      have := ih (acc + tok s) (by simpa using Nat.lt_of_succ_lt_succ hlt)
      simp only [sumTok, List.map_cons, List.sum_cons] at *
      omega

lemma sumTok_reverse (tok : String → Nat) (l : List String) :
    sumTok tok l.reverse = sumTok tok l := by
  simp [sumTok, List.map_reverse, List.sum_reverse]

lemma sumTok_append (tok : String → Nat) (l₁ l₂ : List String) :
    sumTok tok (l₁ ++ l₂) = sumTok tok l₁ + sumTok tok l₂ := by
  simp [sumTok]

lemma overlapCount_le (tok : String → Nat) (ov : Nat) (cs : List String) :
    overlapCount tok ov cs ≤ cs.length := by
  have := takeCnt_le_length tok ov cs.reverse 0
  simpa [overlapCount, overlapCountAux_eq] using this

lemma seedOf_eq_drop (tok : String → Nat) (ov : Nat) (cs : List String) :
    seedOf tok ov cs = cs.drop (cs.length - overlapCount tok ov cs) := by
  by_cases h : 0 < overlapCount tok ov cs
  · simp [seedOf, h]
  · have hz : overlapCount tok ov cs = 0 := by omega
    simp [seedOf, hz]

lemma seedOf_length (tok : String → Nat) (ov : Nat) (cs : List String) :
    (seedOf tok ov cs).length = overlapCount tok ov cs := by
  rw [seedOf_eq_drop, List.length_drop]
  have := overlapCount_le tok ov cs
  omega

lemma take_reverse_sum (tok : String → Nat) (cs : List String) (k : Nat) :
    sumTok tok (cs.reverse.take k) = sumTok tok (cs.drop (cs.length - k)) := by
  rw [List.take_reverse, sumTok_reverse]

lemma sumTok_seedOf_lt (tok : String → Nat) (ov : Nat) (cs : List String)
    (h : seedOf tok ov cs ≠ []) : sumTok tok (seedOf tok ov cs) < ov := by
  have hk : 0 < overlapCount tok ov cs := by
    by_contra hz
    have h0 : overlapCount tok ov cs = 0 := by omega
    apply h
    rw [seedOf_eq_drop, h0, Nat.sub_zero, List.drop_length]
  have := takeCnt_sum_lt tok ov cs.reverse 0
    (by simpa [overlapCount, overlapCountAux_eq] using hk)
  rw [take_reverse_sum] at this
  rw [seedOf_eq_drop]
  have hoc : overlapCount tok ov cs = takeCnt tok ov cs.reverse 0 := by
    simp [overlapCount, overlapCountAux_eq]
  rw [hoc]
  omega

lemma seedOf_max (tok : String → Nat) (ov : Nat) (cs : List String)
    (h : overlapCount tok ov cs < cs.length) :
    ov ≤ sumTok tok (cs.drop (cs.length - (overlapCount tok ov cs + 1))) := by
  have hoc : overlapCount tok ov cs = takeCnt tok ov cs.reverse 0 := by
    simp [overlapCount, overlapCountAux_eq]
  have := takeCnt_max tok ov cs.reverse 0 (by rw [List.length_reverse]; omega)
  rw [take_reverse_sum] at this
  rw [hoc]
  omega

lemma sumTok_nil (tok : String → Nat) : sumTok tok [] = 0 := rfl

lemma sumTok_concat (tok : String → Nat) (l : List String) (s : String) :
    sumTok tok (l ++ [s]) = sumTok tok l + tok s := by
  simp [sumTok]

/-- Invariant of the accumulation loop: every chunk it will ever emit is
within budget, or a lone sentence, or an overlap seed plus the single
sentence that overflowed the budget. -/
lemma chunkLists_budget_inv (tok : String → Nat) (maxT ov : Nat) :
    ∀ (rest cs : List String) (cur : Nat) (chunks : List (List String)),
      cur = sumTok tok cs →
      (∀ c ∈ chunks, sumTok tok c ≤ maxT ∨ c.length = 1 ∨
        ∃ s, c.getLast? = some s ∧ sumTok tok c < ov + tok s) →
      (sumTok tok cs ≤ maxT ∨ cs.length = 1 ∨
        ∃ s, cs.getLast? = some s ∧ sumTok tok cs < ov + tok s) →
      ∀ c ∈ chunkLists tok maxT ov rest cs cur chunks,
        sumTok tok c ≤ maxT ∨ c.length = 1 ∨
        ∃ s, c.getLast? = some s ∧ sumTok tok c < ov + tok s := by
  intro rest
  induction rest with
  | nil =>
    intro cs cur chunks _ hchunks hcs c hc
    simp only [chunkLists] at hc
    by_cases h : cs = []
    · rw [if_pos h] at hc
      exact hchunks c hc
    · rw [if_neg h] at hc
      rcases List.mem_append.mp hc with h1 | h2
      · exact hchunks c h1
      · rw [List.mem_singleton.mp h2]
        exact hcs
  | cons s rest ih =>
    intro cs cur chunks hcur hchunks hcs c hc
    simp only [chunkLists] at hc
    by_cases hcond : maxT < cur + tok s ∧ cs ≠ []
    · rw [if_pos hcond] at hc
      refine ih (seedOf tok ov cs ++ [s]) _ (chunks ++ [cs])
        (by rw [sumTok_concat]) ?_ ?_ c hc
      · intro d hd
        rcases List.mem_append.mp hd with h1 | h2
        · exact hchunks d h1
        · rw [List.mem_singleton.mp h2]
          exact hcs
      · by_cases hseed : seedOf tok ov cs = []
        · right; left
          rw [hseed]
          rfl
        · right; right
          refine ⟨s, List.getLast?_concat _, ?_⟩
          have hlt := sumTok_seedOf_lt tok ov cs hseed
          rw [sumTok_concat]
          omega
    · rw [if_neg hcond] at hc
      refine ih (cs ++ [s]) _ chunks (by rw [sumTok_concat, hcur]) hchunks ?_ c hc
      rcases Decidable.not_and_iff_or_not.mp hcond with h1 | h2
      · left
        rw [sumTok_concat]
        omega
      · right; left
        have : cs = [] := Decidable.not_not.mp h2
        rw [this]
        rfl

/-- Claim C1 as amended.  For every injected token counter, every budget
`maxT`, overlap budget `ov` and sentence list, each chunk produced by the
sentence-accumulation loop of `chunk_section` (`chunkLists`; the emitted chunk
string is its space-join) has cumulative sentence-token count at most `maxT`,
except (a) a chunk that consists of a single sentence (an oversized sentence
is never split), and (b) a chunk that consists of the overlap seed plus the
one sentence whose arrival overflowed the budget — such a chunk is appended
without a budget re-check, and its count is below `ov` plus the token count
of its final sentence. -/
theorem chunk_budget_amended (tok : String → Nat) (maxT ov : Nat)
    (sents : List String) (c : List String)
    (hc : c ∈ chunkLists tok maxT ov sents [] 0 []) :
    sumTok tok c ≤ maxT ∨ c.length = 1 ∨
      ∃ s, c.getLast? = some s ∧ sumTok tok c < ov + tok s := by
  refine chunkLists_budget_inv tok maxT ov sents [] 0 [] rfl ?_ ?_ c hc
  · intro d hd
    exact absurd hd (List.not_mem_nil d)
  · left
    exact Nat.zero_le maxT

/-- Witness for `chunk_budget_amended` at a concrete input. -/
theorem chunk_budget_amended_witness :
    sumTok String.length ["ab"] ≤ 400 ∨ (["ab"] : List String).length = 1 ∨
      ∃ s, (["ab"] : List String).getLast? = some s ∧
        sumTok String.length ["ab"] < 100 + String.length s :=
  chunk_budget_amended String.length 400 100 ["ab"] ["ab"] (by decide)

/-- First sentence of the chunk-budget counterexample: 99 characters. -/
def cexA : String := String.mk (List.replicate 99 'a')

/-- Second sentence of the chunk-budget counterexample: 350 characters. -/
def cexB : String := String.mk (List.replicate 350 'b')

/-- Third sentence of the chunk-budget counterexample: 10 characters. -/
def cexC : String := String.mk (List.replicate 10 'c')

set_option maxRecDepth 4000 in
/-- Claim C1 as stated is false: with the default budgets 400/100 and the
per-character token counter, sentences of 99, 350 and 10 tokens produce the
chunks `[[A], [A, B], [C]]`; the middle chunk counts 449 tokens, exceeds the
budget 400, and has two sentences, so it is not a lone oversized sentence. -/
theorem chunk_budget_claim_cex :
    ¬ (∀ c ∈ chunkLists String.length 400 100 [cexA, cexB, cexC] [] 0 [],
        sumTok String.length c ≤ 400 ∨ c.length = 1) := by
  intro hall
  have h := hall [cexA, cexB] (by decide)
  rcases h with h | h
  · revert h; decide
  · revert h; decide

/-- Relation between a closed chunk and its successor: the successor begins
with the overlap seed computed from the closed chunk. -/
def seedRel (tok : String → Nat) (ov : Nat) (c1 c2 : List String) : Prop :=
  c2.take (seedOf tok ov c1).length = seedOf tok ov c1

/-- The chunks emitted by the accumulation loop are chained by `seedRel`:
each chunk after the first begins with the seed of its predecessor. -/
lemma chunkLists_chain (tok : String → Nat) (maxT ov : Nat) :
    ∀ (rest cs : List String) (cur : Nat) (chunks : List (List String)),
      chunks.Chain' (seedRel tok ov) →
      (∀ last, chunks.getLast? = some last →
        cs.take (seedOf tok ov last).length = seedOf tok ov last) →
      (chunkLists tok maxT ov rest cs cur chunks).Chain' (seedRel tok ov) := by
  intro rest
  induction rest with
  | nil =>
    intro cs cur chunks hchain hlast
    simp only [chunkLists]
    by_cases h : cs = []
    · rw [if_pos h]
      exact hchain
    · rw [if_neg h]
      refine List.chain'_append.mpr ⟨hchain, List.chain'_singleton cs, ?_⟩
      intro x hx y hy
      rw [List.head?] at hy
      cases hy
      exact hlast x (Option.mem_def.mp hx)
  | cons s rest ih =>
    intro cs cur chunks hchain hlast
    simp only [chunkLists]
    by_cases hcond : maxT < cur + tok s ∧ cs ≠ []
    · rw [if_pos hcond]
      refine ih (seedOf tok ov cs ++ [s]) _ (chunks ++ [cs]) ?_ ?_
      · refine List.chain'_append.mpr ⟨hchain, List.chain'_singleton cs, ?_⟩
        intro x hx y hy
        rw [List.head?] at hy
        cases hy
        exact hlast x (Option.mem_def.mp hx)
      · intro last hl
        rw [List.getLast?_concat] at hl
        cases hl
        exact List.take_left _ _
    · rw [if_neg hcond]
      refine ih (cs ++ [s]) _ chunks hchain ?_
      intro last hl
      have h := hlast last hl
      have hle : (seedOf tok ov last).length ≤ cs.length := by
        have := congrArg List.length h
        rw [List.length_take] at this
        omega
      rw [List.take_append_of_le_length hle]
      exact h

/-- Claim C2 as amended.  For any two consecutive chunks produced by the
sentence-accumulation loop of `chunk_section`, there is a `k` such that the
last `k` sentences of the earlier chunk reappear verbatim as the first `k`
sentences of the later chunk, where `k` counts the maximal trailing run whose
token total stays strictly below the overlap budget `ov` (so the shared run is
empty when the final sentence alone reaches `ov`, and the overlap total is
always strictly less than `ov` rather than at least `ov`); dropping one more
sentence boundary would reach the budget. -/
theorem chunk_overlap_amended (tok : String → Nat) (maxT ov : Nat)
    (sents : List String) (i : Nat) (c1 c2 : List String)
    (h1 : (chunkLists tok maxT ov sents [] 0 []).get? i = some c1)
    (h2 : (chunkLists tok maxT ov sents [] 0 []).get? (i + 1) = some c2) :
    ∃ k, k ≤ c1.length ∧ c2.take k = c1.drop (c1.length - k) ∧
      (k = 0 ∨ sumTok tok (c1.drop (c1.length - k)) < ov) ∧
      (k = c1.length ∨ ov ≤ sumTok tok (c1.drop (c1.length - (k + 1)))) := by
  have hch : (chunkLists tok maxT ov sents [] 0 []).Chain' (seedRel tok ov) := by
    refine chunkLists_chain tok maxT ov sents [] 0 [] List.chain'_nil ?_
    intro last hl
    simp at hl
  obtain ⟨hlt2, hget2⟩ := List.get?_eq_some.mp h2
  obtain ⟨hlt1, hget1⟩ := List.get?_eq_some.mp h1
  have hrel : seedRel tok ov c1 c2 := by
    have := List.chain'_iff_get.mp hch i (by omega)
    rw [List.get?_eq_get hlt1] at h1
    rw [List.get?_eq_get hlt2] at h2
    have e1 : (chunkLists tok maxT ov sents [] 0 []).get ⟨i, hlt1⟩ = c1 :=
      Option.some.inj h1
    have e2 : (chunkLists tok maxT ov sents [] 0 []).get ⟨i + 1, hlt2⟩ = c2 :=
      Option.some.inj h2
    rwa [e1, e2] at this
  refine ⟨overlapCount tok ov c1, overlapCount_le tok ov c1, ?_, ?_, ?_⟩
  · have := hrel
    rw [seedRel, seedOf_length, seedOf_eq_drop] at this
    exact this
  · by_cases hk : overlapCount tok ov c1 = 0
    · exact Or.inl hk
    · right
      have hne : seedOf tok ov c1 ≠ [] := by
        intro hnil
        have := seedOf_length tok ov c1
        rw [hnil] at this
        simp at this
        omega
      have := sumTok_seedOf_lt tok ov c1 hne
      rwa [seedOf_eq_drop] at this
  · by_cases hk : overlapCount tok ov c1 = c1.length
    · exact Or.inl hk
    · right
      refine seedOf_max tok ov c1 ?_
      have := overlapCount_le tok ov c1
      omega

set_option maxRecDepth 4000 in
/-- Witness for `chunk_overlap_amended` at the concrete sentences of the
counterexample input, whose first two chunks are `[A]` and `[A, B]`. -/
theorem chunk_overlap_amended_witness :
    ∃ k, k ≤ ([cexA] : List String).length ∧
      ([cexA, cexB] : List String).take k
        = [cexA].drop (([cexA] : List String).length - k) ∧
      (k = 0 ∨ sumTok String.length (([cexA] : List String).drop
        (([cexA] : List String).length - k)) < 100) ∧
      (k = ([cexA] : List String).length ∨
        100 ≤ sumTok String.length (([cexA] : List String).drop
          (([cexA] : List String).length - (k + 1)))) :=
  chunk_overlap_amended String.length 400 100 [cexA, cexB, cexC] 0 [cexA]
    [cexA, cexB] (by decide) (by decide)

set_option maxRecDepth 4000 in
/-- Claim C2 as stated is false: on the counterexample input the emitted
chunks are `[[A], [A, B], [C]]`, and for the consecutive pair
`([A, B], [C])` no nonempty trailing run of the earlier chunk reappears at
the head of the later chunk at all (the 350-token sentence `B` alone reaches
the 100-token overlap budget, so the seed is empty rather than at least the
last sentence), hence no shared run totals at least 100 tokens. -/
theorem chunk_overlap_claim_cex :
    chunkLists String.length 400 100 [cexA, cexB, cexC] [] 0 []
        = [[cexA], [cexA, cexB], [cexC]] ∧
    ¬ (∃ k, 1 ≤ k ∧ k ≤ ([cexA, cexB] : List String).length ∧
        ([cexC] : List String).take k
          = [cexA, cexB].drop (([cexA, cexB] : List String).length - k) ∧
        100 ≤ sumTok String.length (([cexC] : List String).take k)) := by
  constructor
  · decide
  · rintro ⟨k, hk1, hk2, heq, hsum⟩
    have hk2' : k ≤ 2 := by simpa using hk2
    interval_cases k
    · exact absurd heq (by decide)
    · exact absurd heq (by decide)

/-- Index-wise property transfer when one element is appended to two lists of
equal length. -/
lemma get?_snoc_cases {α β : Type} (P : α → β → Prop) (xs : List α) (ys : List β)
    (x : α) (y : β) (h : xs.length = ys.length)
    (hold : ∀ j a b, xs.get? j = some a → ys.get? j = some b → P a b)
    (hnew : P x y) :
    ∀ j a b, (xs ++ [x]).get? j = some a → (ys ++ [y]).get? j = some b → P a b := by
  intro j a b hj hb
  rcases Nat.lt_trichotomy j ys.length with hlt | heq | hgt
  · rw [List.get?_append (by omega)] at hj
    rw [List.get?_append hlt] at hb
    exact hold j a b hj hb
  · subst heq
    rw [← h, List.get?_concat_length] at hj
    rw [List.get?_concat_length] at hb
    cases hj
    cases hb
    exact hnew
  · have hge : (ys ++ [y]).length ≤ j := by
      rw [List.length_append]
      simpa using hgt
    rw [List.get?_eq_none.mpr hge] at hb
    exact Option.noConfusion hb

/-- The overlap seed of a chunk that is a slice of `sents` is itself a slice
of `sents`, starting where the seed's trailing run starts. -/
lemma seedOf_slice (tok : String → Nat) (ov : Nat) (sents : List String)
    (st m : Nat) (cs : List String) (hcs : cs = (sents.drop st).take m)
    (hlen : cs.length = m) :
    seedOf tok ov cs
      = (sents.drop (st + (m - overlapCount tok ov cs))).take
          (overlapCount tok ov cs) := by
  have hkle : overlapCount tok ov cs ≤ cs.length := overlapCount_le tok ov cs
  rw [seedOf_eq_drop]
  generalize hg : overlapCount tok ov cs = k at hkle ⊢
  rw [hlen]
  subst hcs
  rw [List.drop_take, List.drop_drop]
  have e : m - (m - k) = k := by omega
  rw [e]

/-- Ghost-indexed invariant of the accumulation loop: the current chunk is a
contiguous slice of the input ending at the read position, and every emitted
chunk is a contiguous slice; the start positions are non-decreasing. -/
lemma chunkLists_slices (tok : String → Nat) (maxT ov : Nat) (sents : List String) :
    ∀ (rest cs : List String) (cur : Nat) (chunks : List (List String))
      (pos st : Nat) (starts : List Nat),
      rest = sents.drop pos →
      cs = (sents.drop st).take (pos - st) →
      cs.length = pos - st →
      st ≤ pos →
      starts.length = chunks.length →
      (starts ++ [st]).Chain' (· ≤ ·) →
      (∀ j a c, starts.get? j = some a → chunks.get? j = some c →
        c = (sents.drop a).take c.length) →
      ∃ starts' : List Nat,
        starts'.length = (chunkLists tok maxT ov rest cs cur chunks).length ∧
        starts'.Chain' (· ≤ ·) ∧
        ∀ j a c, starts'.get? j = some a →
          (chunkLists tok maxT ov rest cs cur chunks).get? j = some c →
          c = (sents.drop a).take c.length := by
  intro rest
  induction rest with
  | nil =>
    intro cs cur chunks pos st starts _ hcs hlen hst hsl hchain hprev
    simp only [chunkLists]
    by_cases h : cs = []
    · rw [if_pos h]
      exact ⟨starts, hsl, (List.chain'_append.mp hchain).1, hprev⟩
    · rw [if_neg h]
      refine ⟨starts ++ [st], by simp [hsl], hchain, ?_⟩
      refine get?_snoc_cases _ starts chunks st cs hsl hprev ?_
      rw [hlen, hcs]
  | cons s rest' ih =>
    intro cs cur chunks pos st starts hrest hcs hlen hst hsl hchain hprev
    have hget : sents.get? pos = some s := by
      have h0 : (sents.drop pos).get? 0 = some s := by
        rw [← hrest]
        rfl
      rw [List.get?_drop] at h0
      simpa using h0
    have hrest' : rest' = sents.drop (pos + 1) := by
      have h1 : sents.drop (pos + 1) = (sents.drop pos).drop 1 := by
        rw [List.drop_drop]
      rw [h1, ← hrest]
      rfl
    have hposlt : pos < sents.length := (List.get?_eq_some.mp hget).1
    simp only [chunkLists]
    by_cases hcond : maxT < cur + tok s ∧ cs ≠ []
    · rw [if_pos hcond]
      have hkle : overlapCount tok ov cs ≤ cs.length := overlapCount_le tok ov cs
      have hseed := seedOf_slice tok ov sents st (pos - st) cs hcs hlen
      have hpos' : st + ((pos - st) - overlapCount tok ov cs)
          + overlapCount tok ov cs = pos := by omega
      have hcs'' : seedOf tok ov cs ++ [s]
          = (sents.drop (st + ((pos - st) - overlapCount tok ov cs))).take
              (overlapCount tok ov cs + 1) := by
        rw [List.take_succ, hseed]
        have e2 : (List.drop (st + ((pos - st) - overlapCount tok ov cs))
            sents)[overlapCount tok ov cs]? = some s := by
          rw [List.getElem?_drop, hpos']
          rw [← List.get?_eq_getElem?]
          exact hget
        rw [e2]
        rfl
      refine ih (seedOf tok ov cs ++ [s]) _ (chunks ++ [cs]) (pos + 1)
        (st + ((pos - st) - overlapCount tok ov cs)) (starts ++ [st])
        hrest' ?_ ?_ (by omega) (by simp [hsl]) ?_ ?_
      · rw [hcs'']
        have e3 : pos + 1 - (st + ((pos - st) - overlapCount tok ov cs))
            = overlapCount tok ov cs + 1 := by omega
        rw [e3]
      · rw [List.length_append, seedOf_length]
        simp only [List.length_cons, List.length_nil]
        omega
      · refine List.chain'_append.mpr ⟨hchain, List.chain'_singleton _, ?_⟩
        intro x hx y hy
        rw [List.getLast?_concat] at hx
        rw [List.head?] at hy
        cases Option.mem_def.mp hx
        cases hy
        omega
      · refine get?_snoc_cases _ starts chunks st cs hsl hprev ?_
        rw [hlen, hcs]
    · rw [if_neg hcond]
      refine ih (cs ++ [s]) _ chunks (pos + 1) st starts hrest' ?_ ?_ (by omega)
        hsl hchain hprev
      · have e : pos + 1 - st = (pos - st) + 1 := by omega
        rw [e, List.take_succ, ← hcs]
        have e2 : (List.drop st sents)[pos - st]? = some s := by
          rw [List.getElem?_drop]
          have e3 : st + (pos - st) = pos := by omega
          rw [e3, ← List.get?_eq_getElem?]
          exact hget
        rw [e2]
        rfl
      · rw [List.length_append]
        simp only [List.length_cons, List.length_nil]
        omega

/-- Claim C10.  Every chunk emitted by the section chunker is the space-join
of a contiguous run of the section's sentence sequence in document order:
there is a list of start indices, non-decreasing across successive chunks,
such that each chunk equals the slice of the sentence list beginning at its
start index; and the emitted strings are exactly the space-joins of these
runs, so no chunk contains a sentence fragment, a reordered sentence, or a
sentence from outside the section. -/
theorem chunk_runs_contiguous (sentTok : String → List String)
    (tok : String → Nat) (text : String) (maxT ov : Nat) :
    ∃ starts : List Nat,
      starts.length = (chunkLists tok maxT ov (sentTok text) [] 0 []).length ∧
      starts.Chain' (· ≤ ·) ∧
      (∀ j a c, starts.get? j = some a →
        (chunkLists tok maxT ov (sentTok text) [] 0 []).get? j = some c →
        c = ((sentTok text).drop a).take c.length) ∧
      chunk_section sentTok tok text maxT ov
        = (chunkLists tok maxT ov (sentTok text) [] 0 []).map
            (String.intercalate " ") := by
  obtain ⟨starts, h1, h2, h3⟩ := chunkLists_slices tok maxT ov (sentTok text)
    (sentTok text) [] 0 [] 0 0 [] rfl rfl rfl (Nat.le_refl 0) rfl
    (List.nil_append [0] ▸ List.chain'_singleton (0 : Nat))
    (by intro j a c hj hc; exact absurd hj (by simp))
  exact ⟨starts, h1, h2, h3, rfl⟩

/-- Pushing a heading keeps the stack strictly decreasing in level from the
top (the open-section stack is always a strict outline path). -/
lemma updateStack_pairwise (st : List Heading) (h : Heading)
    (hs : st.Pairwise (fun a b => b.level < a.level)) :
    (updateStack st h).Pairwise (fun a b => b.level < a.level) := by
  unfold updateStack
  refine List.pairwise_cons.mpr ⟨?_, hs.sublist (List.dropWhile_sublist _)⟩
  intro a ha
  induction st with
  | nil => simp [List.dropWhile] at ha
  | cons t rest ih =>
    rcases List.pairwise_cons.mp hs with ⟨hall, hrest⟩
    rw [List.dropWhile_cons] at ha
    by_cases hp : h.level ≤ t.level
    · rw [if_pos (by simpa using hp)] at ha
      exact ih hrest ha
    · rw [if_neg (by simpa using hp)] at ha
      rcases List.mem_cons.mp ha with rfl | hmem
      · omega
      · have := hall a hmem
        omega

/-- On a strictly level-decreasing stack, the pop-while loop of
`chunk_document` removes exactly the entries of level greater than or equal
to the new heading's level. -/
lemma updateStack_eq_filter (st : List Heading) (h : Heading)
    (hs : st.Pairwise (fun a b => b.level < a.level)) :
    updateStack st h = h :: st.filter (fun t => t.level < h.level) := by
  unfold updateStack
  congr 1
  induction st with
  | nil => rfl
  | cons t rest ih =>
    rcases List.pairwise_cons.mp hs with ⟨hall, hrest⟩
    rw [List.dropWhile_cons, List.filter_cons]
    by_cases hp : h.level ≤ t.level
    · rw [if_pos (by simpa using hp), if_neg (by simp; omega)]
      exact ih hrest
    · rw [if_neg (by simpa using hp), if_pos (by simp; omega)]
      congr 1
      refine (List.filter_eq_self.mpr ?_).symm
      intro a ha
      have := hall a ha
      simp
      omega

/-- The five-heading example of the specification: levels 1, 2, 2, 3, 1. -/
def hsExample : List Heading :=
  [⟨1, "H1"⟩, ⟨2, "H2"⟩, ⟨2, "H2"⟩, ⟨3, "H3"⟩, ⟨1, "H1"⟩]

/-- Test double for the injected sentence tokenizer: the whole text is one
sentence, empty text has none (a deterministic pure segmentation, as the
specification's design notes require of the injected dependency). -/
def sentWhole : String → List String := fun s => if s = "" then [] else [s]

/-- Test double for the injected token counter: one token per sentence. -/
def tokOne : String → Nat := fun _ => 1

/-- Concrete page for the heading-stack scenario: the five example headings
over a clean text that contains each heading text once per line. -/
def docH : Doc :=
  ⟨"H1 a\nH2 b\nH2 c\nH3 d\nH1 e", hsExample⟩

/-- Claim C3.  The heading tracker pops exactly the open-stack entries of
level greater than or equal to the new heading's level before pushing it
(shown against the pop-while loop for every strictly level-decreasing stack);
on the heading list `[H1, H2, H2, H3, H1]` the successive stack states are
`[H1]`, `[H1, H2]`, `[H1, H2]`, `[H1, H2, H3]`, `[H1]` (in Python's
bottom-first order), and the chunk produced under the third heading carries
`section_path = ["H1", "H2"]`. -/
theorem heading_stack_correct :
    (∀ (st : List Heading) (h : Heading),
        st.Pairwise (fun a b => b.level < a.level) →
        updateStack st h = h :: st.filter (fun t => t.level < h.level)) ∧
    ((List.scanl updateStack [] hsExample).drop 1).map List.reverse
      = [[⟨1, "H1"⟩],
         [⟨1, "H1"⟩, ⟨2, "H2"⟩],
         [⟨1, "H1"⟩, ⟨2, "H2"⟩],
         [⟨1, "H1"⟩, ⟨2, "H2"⟩, ⟨3, "H3"⟩],
         [⟨1, "H1"⟩]] ∧
    chunk_document sentWhole tokOne docH
      = [⟨"H2 b\nH2 c\nH3 d\n", ["H1", "H2"]⟩,
         ⟨"H3 d\n", ["H1", "H2", "H3"]⟩,
         ⟨"H1 a\nH2 b\nH2 c\nH3 d\nH1 e", ["H1"]⟩] ∧
    chunksForHeading sentWhole tokOne docH 2
      = [⟨"H2 b\nH2 c\nH3 d\n", ["H1", "H2"]⟩] := by
  refine ⟨updateStack_eq_filter, by decide, by decide, by decide⟩

/-- Witness applying the general pop characterization of
`heading_stack_correct` at a concrete strictly decreasing stack. -/
theorem heading_stack_correct_witness :
    updateStack [⟨3, "c"⟩, ⟨2, "b"⟩, ⟨1, "a"⟩] ⟨2, "d"⟩
      = ⟨2, "d"⟩ :: List.filter (fun t => t.level < 2)
          [⟨3, "c"⟩, ⟨2, "b"⟩, ⟨1, "a"⟩] :=
  heading_stack_correct.1 [⟨3, "c"⟩, ⟨2, "b"⟩, ⟨1, "a"⟩] ⟨2, "d"⟩ (by decide)

/-- The heading loop of `chunk_document` decomposes index-wise: starting at
index `i` with the matching stack, it appends, heading by heading, exactly
the chunks contributed by each later index. -/
lemma chunkDocLoop_eq (sentTok : String → List String) (tok : String → Nat)
    (text : String) (headings : List Heading) :
    ∀ (pending : List Heading) (i : Nat) (st : List Heading) (acc : List Chunk0),
      pending = headings.drop i →
      st = (headings.take i).foldl updateStack [] →
      chunkDocLoop sentTok tok text headings pending i st acc
        = acc ++ ((List.range' i pending.length).map
            (fun j => chunksForHeading sentTok tok ⟨text, headings⟩ j)).flatten := by
  intro pending
  induction pending with
  | nil =>
    intro i st acc _ _
    simp [chunkDocLoop]
  | cons h rest ih =>
    intro i st acc hpend hst
    have hget : headings.get? i = some h := by
      have h0 : (headings.drop i).get? 0 = some h := by
        rw [← hpend]
        rfl
      rw [List.get?_drop] at h0
      simpa using h0
    have hrest : rest = headings.drop (i + 1) := by
      have h1 : headings.drop (i + 1) = (headings.drop i).drop 1 := by
        rw [List.drop_drop]
      rw [h1, ← hpend]
      rfl
    have htake : headings.take (i + 1) = headings.take i ++ [h] := by
      rw [List.take_succ]
      rw [List.get?_eq_getElem?] at hget
      rw [hget]
      rfl
    have hst' : updateStack st h = stackAt headings i := by
      rw [stackAt, htake, List.foldl_concat, ← hst]
    simp only [chunkDocLoop]
    rw [ih (i + 1) (updateStack st h) _ hrest (by rw [hst']; rfl)]
    rw [List.length_cons, List.range'_succ, List.map_cons, List.flatten_cons,
      ← List.append_assoc]
    congr 1
    by_cases hsec : get_text_for_heading text headings i = ""
    · rw [if_pos hsec]
      have hF : chunksForHeading sentTok tok ⟨text, headings⟩ i = [] := by
        simp [chunksForHeading, hsec]
      rw [hF, List.append_nil]
    · rw [if_neg hsec]
      have hF : chunksForHeading sentTok tok ⟨text, headings⟩ i
          = (chunk_section sentTok tok (get_text_for_heading text headings i)
              400 100).map
            (fun t => ⟨t, ((updateStack st h).map Heading.text).reverse⟩) := by
        simp [chunksForHeading, hsec, hst']
      rw [hF]

/-- For a page with at least one heading, `chunk_document` is exactly the
concatenation over heading indices of each heading's contributed chunks. -/
lemma chunk_document_eq_flatten (sentTok : String → List String)
    (tok : String → Nat) (doc : Doc) (hne : doc.headings ≠ []) :
    chunk_document sentTok tok doc
      = ((List.range doc.headings.length).map
          (fun j => chunksForHeading sentTok tok doc j)).flatten := by
  obtain ⟨text, headings⟩ := doc
  simp only [chunk_document]
  rw [if_neg hne]
  rw [chunkDocLoop_eq sentTok tok text headings headings 0 [] [] rfl rfl]
  rw [List.range_eq_range']
  rfl

/-- Modelled on the specification's wording for the section span: the run of
`clean_text` from the heading's first occurrence to the start (first found
position at or after it) of the first later heading of level at most its own,
or to the end of the text when none is found; empty when the heading's own
text cannot be located. -/
def specSectionSpan (text : String) (headings : List Heading) (i : Nat) : String :=
  match headings.get? i with
  | none => ""
  | some h =>
    match pyFind text h.text 0 with
    | none => ""
    | some s =>
      let bounds := ((headings.drop (i + 1)).filter
        (fun g => g.level ≤ h.level)).filterMap (fun g => pyFind text g.text s)
      pySlice text s (bounds.head?.getD text.length)

/-- The break-on-first-find loop computes the declarative first-found bound. -/
lemma findSectionEnd_eq (text : String) (s lvl : Nat) :
    ∀ rest : List Heading,
      findSectionEnd text s lvl rest
        = (((rest.filter (fun g => g.level ≤ lvl)).filterMap
            (fun g => pyFind text g.text s)).head?).getD text.length := by
  intro rest
  induction rest with
  | nil => rfl
  | cons g rest ih =>
    simp only [findSectionEnd, List.filter_cons]
    by_cases hq : g.level ≤ lvl
    · rw [if_pos hq, if_pos (by simpa using hq), List.filterMap_cons]
      cases hfind : pyFind text g.text s with
      | none => exact ih
      | some p => rfl
    · rw [if_neg hq, if_neg (by simpa using hq)]
      exact ih

/-- Reduction of `get_text_for_heading` when the heading at index `i`
exists. -/
lemma get_text_for_heading_cons (text : String) (headings : List Heading)
    (i : Nat) (h : Heading) (rest : List Heading)
    (hd : headings.drop i = h :: rest) :
    get_text_for_heading text headings i
      = match pyFind text h.text 0 with
        | none => ""
        | some s => pySlice text s (findSectionEnd text s h.level rest) := by
  unfold get_text_for_heading
  rw [hd]

/-- Reduction of `specSectionSpan` when the heading at index `i` exists. -/
lemma specSectionSpan_some (text : String) (headings : List Heading) (i : Nat)
    (h : Heading) (hget : headings.get? i = some h) :
    specSectionSpan text headings i
      = match pyFind text h.text 0 with
        | none => ""
        | some s =>
          pySlice text s
            (((((headings.drop (i + 1)).filter
                (fun g => g.level ≤ h.level)).filterMap
              (fun g => pyFind text g.text s)).head?).getD text.length) := by
  unfold specSectionSpan
  rw [hget]

/-- The imperative span extractor agrees with the declarative span. -/
lemma get_text_eq_spec (text : String) (headings : List Heading) (i : Nat) :
    get_text_for_heading text headings i = specSectionSpan text headings i := by
  cases hd : headings.drop i with
  | nil =>
    have hnone : headings.get? i = none :=
      List.get?_eq_none.mpr (List.drop_eq_nil_iff_le.mp hd)
    unfold get_text_for_heading specSectionSpan
    rw [hd, hnone]
  | cons h rest =>
    have hget : headings.get? i = some h := by
      have h0 : (headings.drop i).get? 0 = some h := by
        rw [hd]
        rfl
      rw [List.get?_drop] at h0
      simpa using h0
    have hrest : rest = headings.drop (i + 1) := by
      have h1 : headings.drop (i + 1) = (headings.drop i).drop 1 := by
        rw [List.drop_drop]
      rw [h1, hd]
      rfl
    rw [get_text_for_heading_cons text headings i h rest hd,
      specSectionSpan_some text headings i h hget]
    cases hf : pyFind text h.text 0 with
    | none => rfl
    | some s =>
      simp only []
      rw [findSectionEnd_eq, hrest]

/-- Claim C6.  The section span for heading `i` is the run of `clean_text`
from that heading's first occurrence to the first later heading of level at
most its own that can be found at or after it (first-occurrence semantics;
end of text when none), and a heading whose own text cannot be located yields
the empty span and contributes no chunks; `chunk_document` is exactly the
concatenation of the per-heading contributions. -/
theorem section_span_correct :
    (∀ (text : String) (headings : List Heading) (i : Nat),
        get_text_for_heading text headings i = specSectionSpan text headings i) ∧
    (∀ (sentTok : String → List String) (tok : String → Nat) (doc : Doc),
        doc.headings ≠ [] →
        chunk_document sentTok tok doc
          = ((List.range doc.headings.length).map
              (fun j => chunksForHeading sentTok tok doc j)).flatten) ∧
    (∀ (sentTok : String → List String) (tok : String → Nat) (doc : Doc)
        (i : Nat) (h : Heading), doc.headings.get? i = some h →
        pyFind doc.clean_text h.text 0 = none →
        get_text_for_heading doc.clean_text doc.headings i = "" ∧
        chunksForHeading sentTok tok doc i = []) := by
  refine ⟨get_text_eq_spec, chunk_document_eq_flatten, ?_⟩
  intro sentTok tok doc i h hget hfind
  have hsec : get_text_for_heading doc.clean_text doc.headings i = "" := by
    have hdrop : doc.headings.drop i = h :: doc.headings.drop (i + 1) := by
      obtain ⟨hlt, hg⟩ := List.get?_eq_some.mp hget
      rw [List.drop_eq_getElem_cons hlt]
      have : doc.headings[i] = h := hg
      rw [this]
    rw [get_text_for_heading_cons doc.clean_text doc.headings i h
      (doc.headings.drop (i + 1)) hdrop, hfind]
  exact ⟨hsec, by simp [chunksForHeading, hsec]⟩

/-- Witness applying `section_span_correct` at a page whose only heading text
does not occur in the clean text. -/
theorem section_span_correct_witness :
    get_text_for_heading "abc" [⟨1, "zz"⟩] 0 = "" ∧
    chunksForHeading sentWhole tokOne ⟨"abc", [⟨1, "zz"⟩]⟩ 0 = [] :=
  section_span_correct.2.2 sentWhole tokOne ⟨"abc", [⟨1, "zz"⟩]⟩ 0 ⟨1, "zz"⟩
    (by decide) (by decide)

/-- The injected external effects of the crawl loop (`crawl.py`, `crawl`):
the robots policy loaded by `get_robot_policy` (`can_fetch` with the fixed
user agent `UniversityRAGCrawler/1.0`), whether `fetch_page` returns a
response for a URL, whether `parse_page` yields a page record, and the
outbound links `discover_links` returns for the page (already normalized by
`normalize_url` inside `discover_links`). -/
structure CrawlEnv where
  robots : Option (String → Bool)
  fetchOK : String → Bool
  parseOK : String → Bool
  links : String → List String

/-- Crawl state: the frontier `q`, the seen-set `seen_pages`, the URLs of the
page records appended to the output dataset (each written record's `url`
field is the dequeued URL), `pages_crawled`, and a ghost log of every URL
ever enqueued (the start URL, then each appended link, in order). -/
structure CrawlState where
  q : List String
  seen : List String
  out : List String
  crawled : Nat
  enqLog : List String

/-- The link loop of `crawl` (lines 201-204): each discovered link not in the
seen-set is appended to the queue and added to the seen-set. -/
def addLinks (links : List String) (st : CrawlState) : CrawlState :=
  links.foldl
    (fun s l =>
      if l ∈ s.seen then s
      else { s with q := s.q ++ [l], seen := l :: s.seen, enqLog := s.enqLog ++ [l] })
    st

/-- The robots gate of line 183:
`if robot and not robot.can_fetch(user_agent, url)` (crawl.py line 183). -/
def robotsBlocks (rp : Option (String → Bool)) (url : String) : Bool :=
  match rp with
  | none => false
  | some canFetch => !(canFetch url)

/-- The while loop of `crawl` (lines 180-206).  The fuel bounds the number of
observed iterations; every real execution of the Python loop performs some
finite number of them. -/
def crawlLoop (env : CrawlEnv) (maxPages : Nat) : Nat → CrawlState → CrawlState
  | 0, st => st
  | fuel + 1, st =>
    if st.q = [] ∨ maxPages ≤ st.crawled then st
    else
      match st.q with
      | [] => st
      | u :: rest =>
        let st1 : CrawlState := { st with q := rest }
        if robotsBlocks env.robots u then crawlLoop env maxPages fuel st1
        else if !env.fetchOK u then crawlLoop env maxPages fuel st1
        else if !env.parseOK u then crawlLoop env maxPages fuel st1
        else
          crawlLoop env maxPages fuel
            (addLinks (env.links u)
              { st1 with out := st1.out ++ [u], crawled := st1.crawled + 1 })

/-- Embedding of `crawl(start_url, ...)` (lines 158-209): the frontier starts
as `deque([start_url])`, the seen-set as `{start_url}`, with the start URL
as the first enqueue event. -/
def crawl (env : CrawlEnv) (maxPages : Nat) (start : String) (fuel : Nat) :
    CrawlState :=
  crawlLoop env maxPages fuel ⟨[start], [start], [], 0, [start]⟩

/-- The frontier invariant: the enqueue log has no duplicates, the seen-set
holds exactly the enqueued URLs, the written outputs together with the queue
have no duplicates, and both live inside the seen-set. -/
def CrawlInv (st : CrawlState) : Prop :=
  st.enqLog.Nodup ∧ (∀ u, u ∈ st.seen ↔ u ∈ st.enqLog) ∧
  (st.out ++ st.q).Nodup ∧ (∀ u, u ∈ st.out ++ st.q → u ∈ st.seen)

lemma addLinks_inv (links : List String) :
    ∀ st : CrawlState, CrawlInv st → CrawlInv (addLinks links st) := by
  induction links with
  | nil => intro st h; exact h
  | cons l ls ih =>
    intro st h
    show CrawlInv (List.foldl _ _ (l :: ls))
    rw [List.foldl_cons]
    by_cases hl : l ∈ st.seen
    · rw [if_pos hl]
      exact ih st h
    · rw [if_neg hl]
      refine ih _ ?_
      obtain ⟨h1, h2, h3, h4⟩ := h
      have hnotlog : l ∉ st.enqLog := fun hm => hl ((h2 l).mpr hm)
      have hnotoq : l ∉ st.out ++ st.q := fun hm => hl (h4 l hm)
      refine ⟨?_, ?_, ?_, ?_⟩
      · exact List.nodup_append.mpr
          ⟨h1, List.nodup_singleton l, List.disjoint_singleton.mpr hnotlog⟩
      · intro u
        rw [List.mem_cons, List.mem_append, List.mem_singleton, h2 u]
        tauto
      · have : st.out ++ (st.q ++ [l]) = (st.out ++ st.q) ++ [l] := by
          rw [List.append_assoc]
        simp only [this]
        exact List.nodup_append.mpr
          ⟨h3, List.nodup_singleton l, List.disjoint_singleton.mpr hnotoq⟩
      · intro u hu
        have : u ∈ (st.out ++ st.q) ++ [l] := by
          rw [List.append_assoc]
          exact hu
        rcases List.mem_append.mp this with hm | hm
        · exact List.mem_cons_of_mem l (h4 u hm)
        · rw [List.mem_singleton.mp hm]
          exact List.mem_cons_self l st.seen

lemma dequeue_inv (st : CrawlState) (u : String) (rest : List String)
    (hq : st.q = u :: rest) (h : CrawlInv st) :
    CrawlInv { st with q := rest } := by
  obtain ⟨h1, h2, h3, h4⟩ := h
  rw [hq] at h3 h4
  refine ⟨h1, h2, ?_, ?_⟩
  · refine List.Nodup.sublist ?_ h3
    exact List.Sublist.append_left (List.sublist_cons_self u rest) st.out
  · intro v hv
    refine h4 v ?_
    rcases List.mem_append.mp hv with hm | hm
    · exact List.mem_append.mpr (Or.inl hm)
    · exact List.mem_append.mpr (Or.inr (List.mem_cons_of_mem u hm))

lemma write_inv (st : CrawlState) (u : String) (rest : List String)
    (hq : st.q = u :: rest) (h : CrawlInv st) :
    CrawlInv { st with q := rest, out := st.out ++ [u], crawled := st.crawled + 1 } := by
  obtain ⟨h1, h2, h3, h4⟩ := h
  rw [hq] at h3 h4
  refine ⟨h1, h2, ?_, ?_⟩
  · have e : (st.out ++ [u]) ++ rest = st.out ++ u :: rest := by
      rw [List.append_assoc]
      rfl
    simpa [e] using h3
  · intro v hv
    refine h4 v ?_
    have e : (st.out ++ [u]) ++ rest = st.out ++ u :: rest := by
      rw [List.append_assoc]
      rfl
    rw [← e]
    exact hv

lemma crawlLoop_inv (env : CrawlEnv) (maxPages : Nat) :
    ∀ (fuel : Nat) (st : CrawlState), CrawlInv st →
      CrawlInv (crawlLoop env maxPages fuel st) := by
  intro fuel
  induction fuel with
  | zero => intro st h; exact h
  | succ n ih =>
    intro st h
    rw [crawlLoop]
    by_cases hstop : st.q = [] ∨ maxPages ≤ st.crawled
    · rw [if_pos hstop]
      exact h
    · rw [if_neg hstop]
      cases hq : st.q with
      | nil => exact h
      | cons u rest =>
        simp only []
        have hst1 := dequeue_inv st u rest hq h
        by_cases hr : robotsBlocks env.robots u = true
        · rw [if_pos hr]
          exact ih _ hst1
        · rw [if_neg hr]
          by_cases hf : (!env.fetchOK u) = true
          · rw [if_pos hf]
            exact ih _ hst1
          · rw [if_neg hf]
            by_cases hp : (!env.parseOK u) = true
            · rw [if_pos hp]
              exact ih _ hst1
            · rw [if_neg hp]
              refine ih _ (addLinks_inv (env.links u) _ ?_)
              exact write_inv st u rest hq h

/-- Claim C4.  For every environment (robots policy, fetch and parse
outcomes, discovered links), every page budget, start URL and number of
observed iterations, a URL is enqueued into the frontier at most once for
the lifetime of the run (the enqueue log has no duplicates), and
consequently no URL appears more than once among the page records written
to the output dataset. -/
theorem crawl_enqueue_once (env : CrawlEnv) (maxPages : Nat) (start : String)
    (fuel : Nat) :
    (crawl env maxPages start fuel).enqLog.Nodup ∧
    (crawl env maxPages start fuel).out.Nodup := by
  have hinv : CrawlInv (crawl env maxPages start fuel) := by
    refine crawlLoop_inv env maxPages fuel _ ?_
    refine ⟨List.nodup_singleton start, ?_, ?_, ?_⟩
    · intro u
      exact Iff.rfl
    · exact List.nodup_singleton start
    · intro u hu
      exact hu
  obtain ⟨h1, _, h3, _⟩ := hinv
  refine ⟨h1, ?_⟩
  exact List.Nodup.sublist (List.sublist_append_left _ _) h3

/-- Embedding of the robots-policy loader (crawl.py lines 91-101): the
outcome of reading the site's `robots.txt` is injected as an `Except`;
when it raises, the function logs the error and returns `None`. -/
def get_robot_policy (readResult : Except String (String → Bool)) :
    Option (String → Bool) :=
  match readResult with
  | .ok rp => some rp
  | .error _ => none

lemma crawlLoop_robots_none (fetchOK parseOK : String → Bool)
    (links : String → List String) (maxPages : Nat) :
    ∀ (fuel : Nat) (st : CrawlState),
      crawlLoop ⟨none, fetchOK, parseOK, links⟩ maxPages fuel st
        = crawlLoop ⟨some (fun _ => true), fetchOK, parseOK, links⟩ maxPages
            fuel st := by
  intro fuel
  induction fuel with
  | zero => intro st; rfl
  | succ n ih =>
    intro st
    rw [crawlLoop, crawlLoop]
    by_cases hstop : st.q = [] ∨ maxPages ≤ st.crawled
    · rw [if_pos hstop, if_pos hstop]
    · rw [if_neg hstop, if_neg hstop]
      cases hq : st.q with
      | nil => rfl
      | cons u rest =>
        simp only [robotsBlocks, Bool.not_true, if_false]
        by_cases hf : (!fetchOK u) = true
        · rw [if_pos hf, if_pos hf]
          exact ih _
        · rw [if_neg hf, if_neg hf]
          by_cases hp : (!parseOK u) = true
          · rw [if_pos hp, if_pos hp]
            exact ih _
          · rw [if_neg hp, if_neg hp]
            exact ih _

/-- Claim C7.  If fetching or parsing `robots.txt` raises an error,
`get_robot_policy` yields no policy (`None`); then the robots gate of the
crawl loop blocks no URL, and the whole crawl proceeds exactly as it would
under a policy whose `can_fetch` answers true for every URL. -/
theorem robots_fail_open (e : String) :
    get_robot_policy (Except.error e) = none ∧
    (∀ url, robotsBlocks (get_robot_policy (Except.error e)) url = false) ∧
    (∀ (fetchOK parseOK : String → Bool) (links : String → List String)
        (maxPages fuel : Nat) (st : CrawlState),
        crawlLoop ⟨get_robot_policy (Except.error e), fetchOK, parseOK, links⟩
            maxPages fuel st
          = crawlLoop ⟨some (fun _ => true), fetchOK, parseOK, links⟩ maxPages
              fuel st) := by
  refine ⟨rfl, fun url => rfl, ?_⟩
  intro fetchOK parseOK links maxPages fuel st
  exact crawlLoop_robots_none fetchOK parseOK links maxPages fuel st

/-- An image record as `process_file` reads it from the page JSON, reduced to
the two fields the associator consults; a missing or `None` field is modelled
by the empty string, which is equally falsy under the code's truthiness
tests. -/
structure ImageRec where
  url : String
  context_snippet : String
deriving DecidableEq, Repr

/-- The chunk-image association of `process_file` (chunker.py lines 126-131):
for each image, if its `context_snippet` is truthy and occurs in the chunk
text, and its `url` is truthy, the URL is appended. -/
def associate_images (images : List ImageRec) (chunkText : String) :
    List String :=
  images.foldl
    (fun acc img =>
      if img.context_snippet ≠ "" ∧ pyContains chunkText img.context_snippet then
        if img.url ≠ "" then acc ++ [img.url] else acc
      else acc)
    []

/-- Modelled on the claim's wording: the subset of image URLs whose
`context_snippet` is a non-empty literal substring of the chunk text, with no
normalization on either side. -/
def specAssocImages (images : List ImageRec) (chunkText : String) :
    List String :=
  (images.filter (fun img =>
    img.context_snippet ≠ "" ∧ pyContains chunkText img.context_snippet)).map
    ImageRec.url

lemma associate_images_foldl (chunkText : String) :
    ∀ (images : List ImageRec) (acc : List String),
      images.foldl
        (fun acc img =>
          if img.context_snippet ≠ "" ∧ pyContains chunkText img.context_snippet
          then if img.url ≠ "" then acc ++ [img.url] else acc
          else acc) acc
        = acc ++ (images.filter (fun img => img.url ≠ "" ∧
            img.context_snippet ≠ "" ∧
            pyContains chunkText img.context_snippet)).map ImageRec.url := by
  intro images
  induction images with
  | nil =>
    intro acc
    simp
  | cons img rest ih =>
    intro acc
    rw [List.foldl_cons, List.filter_cons]
    by_cases hs : img.context_snippet ≠ "" ∧ pyContains chunkText img.context_snippet
    · rw [if_pos hs]
      by_cases hu : img.url ≠ ""
      · have hpred : img.url ≠ "" ∧ img.context_snippet ≠ "" ∧
            pyContains chunkText img.context_snippet := ⟨hu, hs.1, hs.2⟩
        rw [if_pos hu, if_pos (by simpa using hpred), ih, List.map_cons,
          List.append_assoc]
        rfl
      · have hpred : ¬ (img.url ≠ "" ∧ img.context_snippet ≠ "" ∧
            pyContains chunkText img.context_snippet) := fun hc => hu hc.1
        rw [if_neg hu, if_neg (by simpa using hpred), ih]
    · rw [if_neg hs]
      have hpred : ¬ (img.url ≠ "" ∧ img.context_snippet ≠ "" ∧
          pyContains chunkText img.context_snippet) := fun hc => hs ⟨hc.2.1, hc.2.2⟩
      rw [if_neg (by simpa using hpred), ih]

/-- Claim C8 as amended.  For every chunk text and page image list, the
associator attaches exactly the URLs of those images whose `url` is non-empty
and whose `context_snippet` is a non-empty literal substring of the chunk
text, in image order with no normalization; being a per-chunk function of the
chunk text, an image whose snippet occurs in several chunks attaches to each
of them. -/
theorem assoc_images_amended (images : List ImageRec) (chunkText : String) :
    associate_images images chunkText
      = (images.filter (fun img => img.url ≠ "" ∧ img.context_snippet ≠ "" ∧
          pyContains chunkText img.context_snippet)).map ImageRec.url := by
  rw [associate_images, associate_images_foldl chunkText images []]
  rfl

/-- Claim C8 as stated is false at a concrete input: an image whose
`context_snippet` `"a"` occurs in the chunk text `"ab"` but whose `url` is
empty is attached by the claimed subset and not by the code, which also
requires a truthy `url`. -/
theorem assoc_images_claim_cex :
    associate_images [⟨"", "a"⟩] "ab" ≠ specAssocImages [⟨"", "a"⟩] "ab" := by
  decide

/-- Python's whitespace characters (`str.isspace`, the set `str.strip()`
removes). -/
def pyIsSpace (c : Char) : Bool :=
  c.toNat == 9 || c.toNat == 10 || c.toNat == 11 || c.toNat == 12 ||
  c.toNat == 13 || (decide (28 ≤ c.toNat) && decide (c.toNat ≤ 32)) ||
  c.toNat == 0x85 || c.toNat == 0xA0 || c.toNat == 0x1680 ||
  (decide (0x2000 ≤ c.toNat) && decide (c.toNat ≤ 0x200A)) ||
  c.toNat == 0x2028 || c.toNat == 0x2029 || c.toNat == 0x202F ||
  c.toNat == 0x205F || c.toNat == 0x3000

/-- Python `str.strip()` on a character list: drop whitespace from both
ends. -/
def pyStripList (l : List Char) : List Char :=
  ((l.dropWhile pyIsSpace).reverse.dropWhile pyIsSpace).reverse

/-- Python `str.strip()`. -/
def pyStrip (s : String) : String :=
  String.mk (pyStripList s.data)

/-- A node of the parsed HTML tree (`BeautifulSoup`): an element with a tag
name and children, or a text node (`NavigableString`). -/
inductive Node where
  | elem (tag : String) (children : List Node)
  | text (s : String)

/-- Element (tag) nodes; `find_previous_siblings` / `find_next_siblings`
with no filter return only these, never text nodes. -/
def isElem : Node → Bool
  | .elem _ _ => true
  | .text _ => false

/-- An `img` element. -/
def isImg : Node → Bool
  | .elem tag _ => tag == "img"
  | .text _ => false

mutual
/-- The descendant strings of a node in document order (`Tag._all_strings`). -/
def allStrings : Node → List String
  | .text s => [s]
  | .elem _ cs => allStringsList cs
def allStringsList : List Node → List String
  | [] => []
  | c :: rest => allStrings c ++ allStringsList rest
end

/-- `get_text(strip=True, separator=" ")`: each descendant string stripped,
empty ones skipped, the rest joined with the separator. -/
def get_text (n : Node) : String :=
  String.intercalate " " (((allStrings n).map pyStrip).filter (fun s => s ≠ ""))

/-- The `context_before` loop of `extract_images` (crawl.py lines 71-74):
over `find_previous_siblings(limit=2)` (the nearest two element siblings,
nearest first), prepend each sibling's capped text plus a space. -/
def contextBefore (prevSibs : List Node) : String :=
  ((prevSibs.filter isElem).take 2).foldl
    (fun acc sib => (get_text sib).take 256 ++ " " ++ acc) ""

/-- The `context_after` loop (crawl.py lines 76-79): over
`find_next_siblings(limit=2)`, append a space plus each sibling's capped
text. -/
def contextAfter (nextSibs : List Node) : String :=
  ((nextSibs.filter isElem).take 2).foldl
    (fun acc sib => acc ++ " " ++ (get_text sib).take 256) ""

/-- `context_snippet = (context_before + context_after).strip()` (line 81),
built from the given preceding (nearest-first) and following sibling lists. -/
def context_snippet (prevSibs nextSibs : List Node) : String :=
  pyStrip (contextBefore prevSibs ++ contextAfter nextSibs)

/-- The sibling context a node hands to its children: its own preceding
siblings (nearest first) and following siblings, i.e. the parent context of
each child. -/
structure SibCtx where
  prevSibs : List Node
  nextSibs : List Node

mutual
/-- The walk of `extract_images` restricted to its snippet output: for every
`img` under `main`/`article` scope (the CSS selection `main img, article
img`), in document order, the snippet built from the siblings of the image's
parent (`img.parent.find_previous_siblings` / `find_next_siblings`).
`pc` is the current node's own sibling context, passed down so each child
knows its parent's siblings. -/
def snippetsNode (pc : SibCtx) (sc : Bool) : Node → List String
  | .text _ => []
  | .elem tag cs =>
    snippetsKids pc (sc || tag == "main" || tag == "article") [] cs
def snippetsKids (pc : SibCtx) (sc : Bool) :
    List Node → List Node → List String
  | _, [] => []
  | doneRev, c :: rest =>
    (if sc && isImg c then [context_snippet pc.prevSibs pc.nextSibs] else [])
      ++ snippetsNode ⟨doneRev, rest⟩ sc c
      ++ snippetsKids pc sc (c :: doneRev) rest
end

/-- The `context_snippet` values produced by `extract_images` over a content
tree, in document order. -/
def extract_image_snippets (root : Node) : List String :=
  snippetsNode ⟨[], []⟩ false root

mutual
/-- Modelled on the claim's wording: the same walk, but with each image's
snippet built from the image element's own preceding and following
siblings. -/
def specSnippetsNode (sc : Bool) : Node → List String
  | .text _ => []
  | .elem tag cs =>
    specSnippetsKids (sc || tag == "main" || tag == "article") [] cs
def specSnippetsKids (sc : Bool) : List Node → List Node → List String
  | _, [] => []
  | doneRev, c :: rest =>
    (if sc && isImg c then [context_snippet doneRev rest] else [])
      ++ specSnippetsNode sc c
      ++ specSnippetsKids sc (c :: doneRev) rest
end

/-- The snippets the claim's wording prescribes for a content tree. -/
def spec_image_snippets (root : Node) : List String :=
  specSnippetsNode false root

mutual
/-- The parent sibling contexts of the in-scope images of a tree, in
document order. -/
def imgParentCtxNode (pc : SibCtx) (sc : Bool) : Node → List SibCtx
  | .text _ => []
  | .elem tag cs =>
    imgParentCtxKids pc (sc || tag == "main" || tag == "article") [] cs
def imgParentCtxKids (pc : SibCtx) (sc : Bool) :
    List Node → List Node → List SibCtx
  | _, [] => []
  | doneRev, c :: rest =>
    (if sc && isImg c then [pc] else [])
      ++ imgParentCtxNode ⟨doneRev, rest⟩ sc c
      ++ imgParentCtxKids pc sc (c :: doneRev) rest
end

lemma join_concat (l : List String) (s : String) :
    String.join (l ++ [s]) = String.join l ++ s := by
  simp [String.join, List.foldl_append]

lemma foldl_string_append_hoist :
    ∀ (l : List String) (a : String),
      l.foldl (· ++ ·) a = a ++ l.foldl (· ++ ·) "" := by
  intro l
  induction l with
  | nil => intro a; exact (String.append_empty a).symm
  | cons s l ih =>
    intro a
    rw [List.foldl_cons, List.foldl_cons, ih (a ++ s), ih ("" ++ s),
      String.empty_append, String.append_assoc]

lemma join_cons (s : String) (l : List String) :
    String.join (s :: l) = s ++ String.join l := by
  show List.foldl (· ++ ·) ("" ++ s) l = s ++ List.foldl (· ++ ·) "" l
  rw [String.empty_append, foldl_string_append_hoist]

lemma contextBefore_join_aux :
    ∀ (xs : List Node) (acc : String),
      xs.foldl (fun acc sib => (get_text sib).take 256 ++ " " ++ acc) acc
        = String.join (xs.reverse.map
            (fun sib => (get_text sib).take 256 ++ " ")) ++ acc := by
  intro xs
  induction xs with
  | nil =>
    intro acc
    exact (String.empty_append acc).symm
  | cons x xs ih =>
    intro acc
    rw [List.foldl_cons, ih, List.reverse_cons, List.map_append]
    simp only [List.map_cons, List.map_nil]
    rw [join_concat]
    simp only [← String.append_assoc]

lemma contextAfter_join_aux :
    ∀ (xs : List Node) (acc : String),
      xs.foldl (fun acc sib => acc ++ " " ++ (get_text sib).take 256) acc
        = acc ++ String.join (xs.map
            (fun sib => " " ++ (get_text sib).take 256)) := by
  intro xs
  induction xs with
  | nil =>
    intro acc
    exact (String.append_empty acc).symm
  | cons x xs ih =>
    intro acc
    rw [List.foldl_cons, ih, List.map_cons, join_cons]
    simp only [← String.append_assoc]

lemma snippetsKids_eq_map :
    ∀ (k : Nat) (cs : List Node), sizeOf cs ≤ k →
      ∀ (pc : SibCtx) (sc : Bool) (doneRev : List Node),
        snippetsKids pc sc doneRev cs
          = (imgParentCtxKids pc sc doneRev cs).map
              (fun q => context_snippet q.prevSibs q.nextSibs) := by
  intro k
  induction k with
  | zero =>
    intro cs hcs
    exfalso
    have : 0 < sizeOf cs := by
      cases cs <;> simp
    omega
  | succ n ih =>
    intro cs hcs pc sc doneRev
    cases cs with
    | nil => simp [snippetsKids, imgParentCtxKids]
    | cons c rest =>
      rw [snippetsKids, imgParentCtxKids, List.map_append, List.map_append]
      have hsz : sizeOf (c :: rest) = 1 + sizeOf c + sizeOf rest := by simp
      congr 1
      · congr 1
        · by_cases h : (sc && isImg c) = true
          · rw [if_pos h, if_pos h]
            rfl
          · rw [if_neg h, if_neg h]
            rfl
        · cases c with
          | text s => simp [snippetsNode, imgParentCtxNode]
          | elem tag cs' =>
            rw [snippetsNode, imgParentCtxNode]
            refine ih cs' ?_ _ _ _
            have h1 : sizeOf (Node.elem tag cs') = 1 + sizeOf tag + sizeOf cs' := by
              simp
            omega
      · have hszc : 0 < sizeOf c := by
          cases c <;> simp
        refine ih rest ?_ _ _ _
        omega

/-- Claim C9 as amended, positive part.  The snippet walk of
`extract_images` emits, for each in-scope image in document order, the
snippet computed from the image's parent's sibling lists; and that snippet is
the concatenation of the capped (256-character) visible texts of up to 2
preceding and up to 2 following element siblings, preceding siblings first in
document order (the nearest-first list is reversed), each preceding
contribution followed by a space and each following contribution preceded by
one, the whole stripped. -/
theorem context_snippet_amended :
    (∀ (root : Node),
        extract_image_snippets root
          = (imgParentCtxNode ⟨[], []⟩ false root).map
              (fun q => context_snippet q.prevSibs q.nextSibs)) ∧
    (∀ (pPrev pNext : List Node),
        context_snippet pPrev pNext
          = pyStrip (String.join ((((pPrev.filter isElem).take 2).reverse).map
                (fun sib => (get_text sib).take 256 ++ " "))
              ++ String.join (((pNext.filter isElem).take 2).map
                (fun sib => " " ++ (get_text sib).take 256)))) := by
  constructor
  · intro root
    cases root with
    | text s => simp [extract_image_snippets, snippetsNode, imgParentCtxNode]
    | elem tag cs =>
      rw [extract_image_snippets, snippetsNode, imgParentCtxNode]
      exact snippetsKids_eq_map (sizeOf cs) cs (Nat.le_refl _) ⟨[], []⟩ _ []
  · intro pPrev pNext
    rw [context_snippet, contextBefore, contextAfter,
      contextBefore_join_aux, contextAfter_join_aux,
      String.append_empty, String.empty_append]

/-- The content tree of the C9 counterexample: under `main`, a paragraph
with a span, an image, and a second span, followed by a sibling div. -/
def cexTree : Node :=
  Node.elem "main"
    [Node.elem "p"
      [Node.elem "span" [Node.text "A"],
       Node.elem "img" [],
       Node.elem "span" [Node.text "B"]],
     Node.elem "div" [Node.text "C"]]

set_option maxRecDepth 8000 in
/-- Claim C9 as stated is false at a concrete tree: the code takes the
siblings of the image's parent (`img.parent.find_previous_siblings`), so the
image between two spans inside a paragraph gets the snippet `"C"` from the
paragraph's following sibling, not the snippet `"A  B"` that its own sibling
spans would give. -/
theorem context_snippet_claim_cex :
    extract_image_snippets cexTree = ["C"] ∧
    spec_image_snippets cexTree = ["A  B"] ∧
    extract_image_snippets cexTree ≠ spec_image_snippets cexTree := by
  refine ⟨by decide, by decide, by decide⟩

/-- ASCII lowering of one character, the character-wise model of Python
`str.lower()` (the model covers ASCII; URLs are ASCII in practice). -/
def lowerChar (c : Char) : Char :=
  if 65 ≤ c.toNat ∧ c.toNat ≤ 90 then Char.ofNat (c.toNat + 32) else c

/-- The WHATWG C0-control-or-space class that `urlsplit` strips from the
left of its input (code points up to and including the space). -/
def isC0OrSpace (c : Char) : Bool :=
  decide (c.toNat ≤ 32)

/-- The unsafe bytes `urlsplit` removes everywhere: tab, CR, LF. -/
def unsafeByte (c : Char) : Bool :=
  c.toNat == 9 || c.toNat == 13 || c.toNat == 10

/-- The input sanitation of `urlsplit`: left-strip C0 controls and spaces,
then remove every tab, CR and LF. -/
def urlsplitClean (l : List Char) : List Char :=
  (l.dropWhile isC0OrSpace).filter (fun c => !(unsafeByte c))

/-- `urllib.parse.scheme_chars`: ASCII letters, digits, `+`, `-`, `.`. -/
def schemeChar (c : Char) : Bool :=
  c.isAlpha || c.isDigit || c == '+' || c == '-' || c == '.'

/-- The scheme-recognition condition of `urlsplit`: the URL has a colon at
some positive position `i`, its first character is an ASCII letter, and all
of `url[:i]` (the longest colon-free prefix) lies in `scheme_chars`. -/
def goodScheme (u : List Char) : Prop :=
  u.contains ':' = true ∧ u.takeWhile (fun c => !(c == ':')) ≠ [] ∧
  (∀ c, (u.takeWhile (fun c => !(c == ':'))).head? = some c → c.isAlpha) ∧
  (u.takeWhile (fun c => !(c == ':'))).all schemeChar = true

instance (u : List Char) : Decidable (goodScheme u) := by
  unfold goodScheme
  infer_instance

/-- The scheme split of `urlsplit`: on success the scheme is `url[:i]`
lowered and the remainder is `url[i+1:]`. -/
def splitScheme (u : List Char) : List Char × List Char :=
  if goodScheme u then
    ((u.takeWhile (fun c => !(c == ':'))).map lowerChar,
     (u.dropWhile (fun c => !(c == ':'))).drop 1)
  else ([], u)

/-- The netloc delimiters of `_splitnetloc`: `/`, `?`, `#`. -/
def delim3 (c : Char) : Bool :=
  c == '/' || c == '?' || c == '#'

/-- The netloc split of `urlsplit`: when the remainder starts with `//`,
the netloc runs to the first of `/?#`; a netloc with an unmatched square
bracket raises `ValueError` (`none`); the further host validations
(`_check_bracketed_host`, `_checknetloc`) are injected as `hostCheck`. -/
def splitNetloc (hostCheck : List Char → Bool) (u : List Char) :
    Option (List Char × List Char) :=
  match u with
  | '/' :: '/' :: rest =>
    let netloc := rest.takeWhile (fun c => !(delim3 c))
    if (netloc.contains '[' != netloc.contains ']') || !(hostCheck netloc) then
      none
    else
      some (netloc, rest.dropWhile (fun c => !(delim3 c)))
  | _ => some ([], u)

/-- Split at the first occurrence of a separator character:
`url.split(sep, 1)` preceded by a membership test, as `urlsplit` does for
`#` and `?`; without the separator the second part stays empty. -/
def splitSep (sep : Char) (u : List Char) : List Char × List Char :=
  if u.contains sep then
    (u.takeWhile (fun c => !(c == sep)), (u.dropWhile (fun c => !(c == sep))).drop 1)
  else (u, [])

/-- `uses_params` of `urllib.parse` (Python 3.11). -/
def usesParams : List String :=
  ["", "ftp", "hdl", "prospero", "http", "imap", "https", "shttp", "rtsp",
   "rtsps", "rtspu", "sip", "sips", "mms", "sftp", "tel"]

/-- `uses_netloc` of `urllib.parse` (Python 3.11). -/
def usesNetloc : List String :=
  ["", "ftp", "http", "gopher", "nntp", "telnet", "imap", "wais", "file",
   "mms", "https", "shttp", "snews", "prospero", "rtsp", "rtsps", "rtspu",
   "rsync", "svn", "svn+ssh", "sftp", "nfs", "git", "git+ssh", "ws", "wss"]

/-- The segment of `u` after its last `/` (all of `u` when there is no
slash); `_splitparams` searches for `;` only there. -/
def afterLastSlash (u : List Char) : List Char :=
  (u.reverse.takeWhile (fun c => !(c == '/'))).reverse

/-- `_splitparams(url)`: with a slash, look for `;` only after the last
slash; the Python `else` branch is reached only when a `;` exists, so the
no-`;` answer of that branch is irrelevant and modelled as no split. -/
def pySplitParams (u : List Char) : List Char × List Char :=
  if u.contains '/' then
    let a := afterLastSlash u
    if a.contains ';' then
      (u.take (u.length - a.length) ++ a.takeWhile (fun c => !(c == ';')),
       (a.dropWhile (fun c => !(c == ';'))).drop 1)
    else (u, [])
  else
    (u.takeWhile (fun c => !(c == ';')), (u.dropWhile (fun c => !(c == ';'))).drop 1)

/-- The params split of `urlparse`: only for a scheme in `uses_params` and
only when the pre-query part holds a `;`. -/
def splitParams (scheme u : List Char) : List Char × List Char :=
  if String.mk scheme ∈ usesParams ∧ u.contains ';' = true then pySplitParams u
  else (u, [])

/-- The six components of `urlparse`. -/
structure UrlParts where
  scheme : List Char
  netloc : List Char
  path : List Char
  params : List Char
  query : List Char
  fragment : List Char

/-- `urlparse(url)` (Python 3.11 `urllib.parse`), on sanitized input;
`none` models a raised `ValueError`. -/
def urlparseList (hostCheck : List Char → Bool) (u : List Char) :
    Option UrlParts :=
  let u1 := urlsplitClean u
  let sr := splitScheme u1
  match splitNetloc hostCheck sr.2 with
  | none => none
  | some nr =>
    let fr := splitSep '#' nr.2
    let qr := splitSep '?' fr.1
    let pp := splitParams sr.1 qr.1
    some ⟨sr.1, nr.1, pp.1, pp.2, qr.2, fr.2⟩

/-- `url + ';' + params` when params are present (`urlunparse`). -/
def rejoinParams (a b : List Char) : List Char :=
  a ++ (if b = [] then [] else ';' :: b)

/-- `urlunparse` = params rejoin + `urlunsplit` (Python 3.11): `//` plus the
netloc are emitted when the netloc is non-empty, or when the scheme is a
`uses_netloc` scheme and the path part does not already start with `//`. -/
def urlunparseList (p : UrlParts) : List Char :=
  let url0 := rejoinParams p.path p.params
  let url1 :=
    if p.netloc ≠ [] ∨
        (p.scheme ≠ [] ∧ String.mk p.scheme ∈ usesNetloc ∧
          url0.take 2 ≠ ['/', '/']) then
      '/' :: '/' :: p.netloc
        ++ (if url0 ≠ [] ∧ url0.head? ≠ some '/' then '/' :: url0 else url0)
    else url0
  let url2 := if p.scheme ≠ [] then p.scheme ++ ':' :: url1 else url1
  let url3 := if p.query ≠ [] then url2 ++ '?' :: p.query else url2
  if p.fragment ≠ [] then url3 ++ '#' :: p.fragment else url3

/-- `p.split('&')` with Python semantics (the empty string yields one empty
group). -/
def splitAmp : List Char → List (List Char)
  | [] => [[]]
  | c :: rest =>
    if c = '&' then [] :: splitAmp rest
    else
      match splitAmp rest with
      | [] => [[c]]
      | g :: gs => (c :: g) :: gs

/-- The tracking-parameter prefixes removed by `normalize_url`. -/
def trackingPrefixes : List (List Char) :=
  ["utm_".data, "gclid".data, "fbclid".data]

/-- A query parameter survives when it starts with none of the tracking
prefixes. -/
def keepParam (p : List Char) : Bool :=
  !(trackingPrefixes.any (fun pre => pre.isPrefixOf p))

/-- `'&'.join(groups)`. -/
def joinAmp : List (List Char) → List Char
  | [] => []
  | [g] => g
  | g :: gs => g ++ '&' :: joinAmp gs

/-- The query rewrite of `normalize_url`:
`'&'.join(p for p in query.split('&') if not p.startswith((...)))`. -/
def cleanQuery (q : List Char) : List Char :=
  joinAmp ((splitAmp q).filter keepParam)

/-- Embedding of `normalize_url` (crawl.py lines 29-37): lower-case, strip,
`urlparse`, drop tracking parameters and the fragment, `geturl`.  The host
validations that `urlsplit` may raise from are injected as `hostCheck`
(`none` models a raised `ValueError`). -/
def normalize_url (hostCheck : List Char → Bool) (s : String) : Option String :=
  let u := pyStripList (s.data.map lowerChar)
  match urlparseList hostCheck u with
  | none => none
  | some p =>
    some (String.mk (urlunparseList
      { p with query := cleanQuery p.query, fragment := [] }))

lemma toNat_ofNat_small (n : Nat) (h : n < 55296) : (Char.ofNat n).toNat = n := by
  have hv : Nat.isValidChar n := Or.inl h
  simp only [Char.ofNat, dif_pos hv, Char.ofNatAux, Char.toNat]
  simp [UInt32.toNat]

lemma lowerChar_toNat_upper (c : Char) (h : 65 ≤ c.toNat ∧ c.toNat ≤ 90) :
    (lowerChar c).toNat = c.toNat + 32 := by
  unfold lowerChar
  rw [if_pos h, toNat_ofNat_small]
  omega

lemma lowerChar_eq_self (c : Char) (h : ¬(65 ≤ c.toNat ∧ c.toNat ≤ 90)) :
    lowerChar c = c := by
  unfold lowerChar
  rw [if_neg h]

lemma lowerChar_idem (c : Char) : lowerChar (lowerChar c) = lowerChar c := by
  by_cases h : 65 ≤ c.toNat ∧ c.toNat ≤ 90
  · have h1 := lowerChar_toNat_upper c h
    apply lowerChar_eq_self
    omega
  · rw [lowerChar_eq_self c h, lowerChar_eq_self c h]

lemma isAlpha_iff_toNat (c : Char) :
    c.isAlpha = true ↔ (65 ≤ c.toNat ∧ c.toNat ≤ 90) ∨ (97 ≤ c.toNat ∧ c.toNat ≤ 122) := by
  simp only [Char.isAlpha, Char.isUpper, Char.isLower, Bool.or_eq_true,
    Bool.and_eq_true, decide_eq_true_eq, Char.le_def, UInt32.le_def, Fin.le_def,
    Char.toNat, UInt32.toNat]
  exact Iff.rfl

lemma isDigit_iff_toNat (c : Char) :
    c.isDigit = true ↔ 48 ≤ c.toNat ∧ c.toNat ≤ 57 := by
  simp only [Char.isDigit, Bool.and_eq_true, decide_eq_true_eq, Char.le_def,
    UInt32.le_def, Fin.le_def, Char.toNat, UInt32.toNat]
  exact Iff.rfl

lemma char_eq_iff_toNat (c d : Char) : c = d ↔ c.toNat = d.toNat := by
  constructor
  · intro h; rw [h]
  · intro h
    exact Char.ext (UInt32.ext h)

lemma lowerChar_alpha (c : Char) (h : c.isAlpha = true) :
    (lowerChar c).isAlpha = true := by
  rw [isAlpha_iff_toNat] at h ⊢
  rcases h with h | h
  · rw [lowerChar_toNat_upper c h]; omega
  · rw [lowerChar_eq_self c (by omega)]; omega

lemma lowerChar_schemeChar (c : Char) (h : schemeChar c = true) :
    schemeChar (lowerChar c) = true := by
  unfold schemeChar at h
  simp only [Bool.or_eq_true, beq_iff_eq] at h
  rcases h with (((ha | hd) | hp) | hm) | hdot
  · unfold schemeChar
    simp only [Bool.or_eq_true]
    exact Or.inl (Or.inl (Or.inl (Or.inl (lowerChar_alpha c ha))))
  · rw [isDigit_iff_toNat] at hd
    rw [lowerChar_eq_self c (by omega)]
    unfold schemeChar
    simp only [Bool.or_eq_true]
    exact Or.inl (Or.inl (Or.inl (Or.inr (by rw [isDigit_iff_toNat]; omega))))
  · subst hp; decide
  · subst hm; decide
  · subst hdot; decide

lemma lowerChar_unsafe (c : Char) (h : unsafeByte c = false) :
    unsafeByte (lowerChar c) = false := by
  by_cases hc : 65 ≤ c.toNat ∧ c.toNat ≤ 90
  · have h1 := lowerChar_toNat_upper c hc
    unfold unsafeByte
    simp only [Bool.or_eq_false_iff, beq_eq_false_iff_ne, ne_eq]
    omega
  · rw [lowerChar_eq_self c hc]; exact h

lemma schemeChar_colon : schemeChar ':' = false := by decide

lemma schemeChar_not_special (c : Char) (h : schemeChar c = true) :
    c ≠ ':' ∧ c ≠ '/' ∧ c ≠ '?' ∧ c ≠ '#' ∧ delim3 c = false := by
  unfold schemeChar at h
  simp only [Bool.or_eq_true, beq_iff_eq] at h
  have hn : (65 ≤ c.toNat ∧ c.toNat ≤ 90) ∨ (97 ≤ c.toNat ∧ c.toNat ≤ 122) ∨
      (48 ≤ c.toNat ∧ c.toNat ≤ 57) ∨ c.toNat = 43 ∨ c.toNat = 45 ∨ c.toNat = 46 := by
    rcases h with (((ha | hd) | hp) | hm) | hdot
    · rw [isAlpha_iff_toNat] at ha; tauto
    · rw [isDigit_iff_toNat] at hd; tauto
    · subst hp; right; right; right; left; rfl
    · subst hm; right; right; right; right; left; rfl
    · subst hdot; right; right; right; right; right; rfl
  refine ⟨?_, ?_, ?_, ?_, ?_⟩
  · intro he; rw [char_eq_iff_toNat] at he; revert he; show ¬(c.toNat = 58); omega
  · intro he; rw [char_eq_iff_toNat] at he; revert he; show ¬(c.toNat = 47); omega
  · intro he; rw [char_eq_iff_toNat] at he; revert he; show ¬(c.toNat = 63); omega
  · intro he; rw [char_eq_iff_toNat] at he; revert he; show ¬(c.toNat = 35); omega
  · unfold delim3
    simp only [Bool.or_eq_false_iff, beq_eq_false_iff_ne, ne_eq, char_eq_iff_toNat]
    refine ⟨⟨?_, ?_⟩, ?_⟩
    · show ¬(c.toNat = 47); omega
    · show ¬(c.toNat = 63); omega
    · show ¬(c.toNat = 35); omega

lemma contains_iff_mem (l : List Char) (c : Char) :
    l.contains c = true ↔ c ∈ l := by
  simp [List.contains, List.elem_iff]

lemma takeWhile_all_append (p : Char → Bool) (l1 l2 : List Char)
    (h : ∀ x ∈ l1, p x = true) :
    (l1 ++ l2).takeWhile p = l1 ++ l2.takeWhile p := by
  induction l1 with
  | nil => simp
  | cons a l ih =>
    have ha : p a = true := h a (List.mem_cons_self a l)
    simp only [List.cons_append, List.takeWhile_cons, ha, if_true]
    rw [ih (fun x hx => h x (List.mem_cons_of_mem a hx))]

lemma dropWhile_all_append (p : Char → Bool) (l1 l2 : List Char)
    (h : ∀ x ∈ l1, p x = true) :
    (l1 ++ l2).dropWhile p = l2.dropWhile p := by
  induction l1 with
  | nil => simp
  | cons a l ih =>
    have ha : p a = true := h a (List.mem_cons_self a l)
    simp only [List.cons_append, List.dropWhile_cons, ha, if_true]
    rw [ih (fun x hx => h x (List.mem_cons_of_mem a hx))]

lemma takeWhile_cons_neg (p : Char → Bool) (a : Char) (l : List Char)
    (h : p a = false) : (a :: l).takeWhile p = [] := by
  simp [List.takeWhile_cons, h]

lemma dropWhile_cons_neg (p : Char → Bool) (a : Char) (l : List Char)
    (h : p a = false) : (a :: l).dropWhile p = a :: l := by
  simp [List.dropWhile_cons, h]

lemma dropWhile_head_false (p : Char → Bool) (l : List Char) (c : Char)
    (r : List Char) (h : l.dropWhile p = c :: r) : p c = false := by
  induction l with
  | nil => simp at h
  | cons a t ih =>
    by_cases hp : p a = true
    · rw [List.dropWhile_cons, if_pos hp] at h
      exact ih h
    · rw [List.dropWhile_cons, if_neg hp] at h
      cases h
      exact eq_false_of_ne_true hp

lemma mem_takeWhile_mem (p : Char → Bool) (l : List Char) (c : Char)
    (h : c ∈ l.takeWhile p) : c ∈ l :=
  (List.takeWhile_sublist p).subset h

lemma mem_dropWhile_mem (p : Char → Bool) (l : List Char) (c : Char)
    (h : c ∈ l.dropWhile p) : c ∈ l :=
  (List.dropWhile_sublist p).subset h

lemma mem_takeWhile_sat (p : Char → Bool) (l : List Char) (c : Char)
    (h : c ∈ l.takeWhile p) : p c = true := by
  induction l with
  | nil => simp at h
  | cons a t ih =>
    by_cases hp : p a = true
    · rw [List.takeWhile_cons, if_pos hp] at h
      rcases List.mem_cons.mp h with h | h
      · rwa [h]
      · exact ih h
    · rw [List.takeWhile_cons, if_neg hp] at h
      simp at h

lemma all_schemeChar_colon_free (l : List Char) (h : l.all schemeChar = true) :
    ∀ x ∈ l, (!(x == ':')) = true := by
  intro x hx
  have := (schemeChar_not_special x (by
    rw [List.all_eq_true] at h
    exact h x hx)).1
  simp [this]

lemma splitScheme_neg (u : List Char) (h : ¬goodScheme u) :
    splitScheme u = ([], u) := by
  unfold splitScheme
  rw [if_neg h]

lemma splitScheme_pos (s r : List Char) (hs : s ≠ [])
    (hhead : ∀ c, s.head? = some c → c.isAlpha = true)
    (hall : s.all schemeChar = true) :
    splitScheme (s ++ ':' :: r) = (s.map lowerChar, r) := by
  have hsat := all_schemeChar_colon_free s hall
  have htw : (s ++ ':' :: r).takeWhile (fun c => !(c == ':')) = s := by
    rw [takeWhile_all_append _ _ _ hsat, takeWhile_cons_neg]
    · simp
    · simp
  have hdw : (s ++ ':' :: r).dropWhile (fun c => !(c == ':')) = ':' :: r := by
    rw [dropWhile_all_append _ _ _ hsat, dropWhile_cons_neg]
    simp
  have hg : goodScheme (s ++ ':' :: r) := by
    refine ⟨?_, ?_, ?_, ?_⟩
    · rw [contains_iff_mem]
      exact List.mem_append.mpr (Or.inr (List.mem_cons_self _ _))
    · rw [htw]; exact hs
    · rw [htw]; exact hhead
    · rw [htw]; exact hall
  unfold splitScheme
  rw [if_pos hg, htw, hdw]
  simp

lemma splitScheme_inv (u s r : List Char) (h : splitScheme u = (s, r)) :
    (s = [] ∧ r = u ∧ ¬goodScheme u) ∨
    (∃ pre, u = pre ++ ':' :: r ∧ s = pre.map lowerChar ∧ pre ≠ [] ∧
      (∀ c, pre.head? = some c → c.isAlpha = true) ∧ pre.all schemeChar = true) := by
  unfold splitScheme at h
  by_cases hg : goodScheme u
  · rw [if_pos hg] at h
    right
    obtain ⟨hc, hne, hh, hall⟩ := hg
    refine ⟨u.takeWhile (fun c => !(c == ':')), ?_, ?_, hne, hh, hall⟩
    · have hdw : u.dropWhile (fun c => !(c == ':')) = ':' :: r := by
        rcases hd : u.dropWhile (fun c => !(c == ':')) with _ | ⟨d, ds⟩
        · exfalso
          rw [contains_iff_mem] at hc
          have hu : u.takeWhile (fun c => !(c == ':')) = u := by
            have := List.takeWhile_append_dropWhile (p := fun c => !(c == ':')) (l := u)
            rw [hd, List.append_nil] at this
            exact this
          have := mem_takeWhile_sat _ u ':' (by rw [hu]; exact hc)
          simp at this
        · have hd' : d = ':' := by
            have := dropWhile_head_false _ u d ds hd
            simp at this
            exact this
          have hr : r = ds := by
            have := congrArg Prod.snd h
            simp at this
            rw [hd] at this
            simpa using this.symm
          rw [hd', hr]
      conv_lhs => rw [← List.takeWhile_append_dropWhile (p := fun c => !(c == ':')) (l := u)]
      rw [hdw]
    · have := congrArg Prod.fst h
      simpa using this.symm
  · rw [if_neg hg] at h
    left
    cases h
    exact ⟨rfl, rfl, hg⟩

lemma notGood_head (u : List Char)
    (h : ∀ c, u.head? = some c → c.isAlpha = false) : ¬goodScheme u := by
  rintro ⟨hc, hne, hh, hall⟩
  rcases u with _ | ⟨c, t⟩
  · exact hne rfl
  · by_cases hcol : (!(c == ':')) = true
    · rw [List.takeWhile_cons, if_pos hcol] at hh
      have := hh c rfl
      rw [h c rfl] at this
      exact Bool.false_ne_true this
    · rw [List.takeWhile_cons, if_neg hcol] at hne
      exact hne rfl

lemma notGood_extend (A t w : List Char) (h : ¬goodScheme (A ++ t))
    (hw : w = [] ∨ w.head? = some ';' ∨ w.head? = some '?') :
    ¬goodScheme (A ++ w) := by
  rintro ⟨hc, hne, hh, hall⟩
  set pre := (A ++ w).takeWhile (fun c => !(c == ':')) with hpre
  have hdw : (A ++ w).dropWhile (fun c => !(c == ':')) = ':' ::
      ((A ++ w).dropWhile (fun c => !(c == ':'))).tail := by
    rcases hd : (A ++ w).dropWhile (fun c => !(c == ':')) with _ | ⟨d, ds⟩
    · exfalso
      rw [contains_iff_mem] at hc
      have hu : (A ++ w).takeWhile (fun c => !(c == ':')) = A ++ w := by
        have := List.takeWhile_append_dropWhile (p := fun c => !(c == ':')) (l := A ++ w)
        rw [hd, List.append_nil] at this
        exact this
      have := mem_takeWhile_sat _ (A ++ w) ':' (by rw [hu]; exact hc)
      simp at this
    · have hd' : d = ':' := by
        have := dropWhile_head_false _ (A ++ w) d ds hd
        simp at this
        exact this
      rw [hd']
      rfl
  have hsplit : A ++ w = pre ++ ':' ::
      ((A ++ w).dropWhile (fun c => !(c == ':'))).tail := by
    conv_lhs => rw [← List.takeWhile_append_dropWhile (p := fun c => !(c == ':'))
      (l := A ++ w)]
    rw [← hdw, hpre]
  rcases List.append_eq_append_iff.mp hsplit with ⟨m, hm1, hm2⟩ | ⟨m, hm1, hm2⟩
  · -- pre = A ++ m : the colon sits inside w, impossible given w's head
    rcases hw with hw | hw | hw
    · subst hw
      simp only [List.nil_eq, List.append_eq_nil] at hm2
      exact (List.cons_ne_nil _ _) hm2.2
    · rcases m with _ | ⟨c, ms⟩
      · rw [List.nil_append] at hm2
        rw [hm2] at hw
        simp at hw
      · rw [List.cons_append] at hm2
        rw [hm2] at hw
        simp only [List.head?_cons, Option.some.injEq] at hw
        have hcpre : c ∈ pre := by
          rw [hm1]
          exact List.mem_append.mpr (Or.inr (List.mem_cons_self _ _))
        rw [hw] at hcpre
        rw [List.all_eq_true] at hall
        have := hall ';' hcpre
        simp [schemeChar] at this
    · rcases m with _ | ⟨c, ms⟩
      · rw [List.nil_append] at hm2
        rw [hm2] at hw
        simp at hw
      · rw [List.cons_append] at hm2
        rw [hm2] at hw
        simp only [List.head?_cons, Option.some.injEq] at hw
        have hcpre : c ∈ pre := by
          rw [hm1]
          exact List.mem_append.mpr (Or.inr (List.mem_cons_self _ _))
        rw [hw] at hcpre
        rw [List.all_eq_true] at hall
        have := hall '?' hcpre
        simp [schemeChar] at this
  · -- A = pre ++ m with m starting at the colon (or the colon in w exactly at A's end)
    rcases m with _ | ⟨c, ms⟩
    · rw [List.append_nil] at hm1
      rw [List.nil_append] at hm2
      rcases hw with hw | hw | hw
      · subst hw
        exact (List.cons_ne_nil _ _) hm2
      · rw [← hm2] at hw
        simp at hw
      · rw [← hm2] at hw
        simp at hw
    · have hc' : c = ':' := by
        have := congrArg List.head? hm2
        simpa using this.symm
      have hsat : ∀ x ∈ pre, (!(x == ':')) = true :=
        fun x hx => mem_takeWhile_sat _ (A ++ w) x (hpre ▸ hx)
      have htw : (A ++ t).takeWhile (fun c => !(c == ':')) = pre := by
        have hneg : (':' :: (ms ++ t)).takeWhile (fun c => !(c == ':')) = [] :=
          takeWhile_cons_neg _ _ _ (by simp)
        rw [hm1, hc', List.append_assoc, List.cons_append,
          takeWhile_all_append _ _ _ hsat, hneg, List.append_nil]
      apply h
      refine ⟨?_, ?_, ?_, ?_⟩
      · rw [contains_iff_mem, hm1, hc']
        exact List.mem_append.mpr (Or.inl (List.mem_append.mpr
          (Or.inr (List.mem_cons_self _ _))))
      · rw [htw]; exact hne
      · rw [htw]; exact hh
      · rw [htw]; exact hall

lemma takeWhile_nodelim_append (N w : List Char) (hN : ∀ c ∈ N, delim3 c = false)
    (hw : w = [] ∨ ∃ c, w.head? = some c ∧ delim3 c = true) :
    (N ++ w).takeWhile (fun c => !(delim3 c)) = N ∧
    (N ++ w).dropWhile (fun c => !(delim3 c)) = w := by
  have hsat : ∀ x ∈ N, (!(delim3 x)) = true := by
    intro x hx; rw [hN x hx]; rfl
  have hwtw : w.takeWhile (fun c => !(delim3 c)) = [] ∧
      w.dropWhile (fun c => !(delim3 c)) = w := by
    rcases hw with hw | ⟨c, hc1, hc2⟩
    · subst hw; exact ⟨rfl, rfl⟩
    · rcases w with _ | ⟨d, ds⟩
      · simp at hc1
      · simp only [List.head?_cons, Option.some.injEq] at hc1
        subst hc1
        constructor
        · exact takeWhile_cons_neg _ _ _ (by rw [hc2]; rfl)
        · exact dropWhile_cons_neg _ _ _ (by rw [hc2]; rfl)
  constructor
  · rw [takeWhile_all_append _ _ _ hsat, hwtw.1, List.append_nil]
  · rw [dropWhile_all_append _ _ _ hsat, hwtw.2]

lemma splitNetloc_no_slashes (hc : List Char → Bool) (u : List Char)
    (h : u.take 2 ≠ ['/', '/']) : splitNetloc hc u = some ([], u) := by
  unfold splitNetloc
  split
  · exact absurd rfl h
  · rfl

lemma splitNetloc_pos (hc : List Char → Bool) (N w : List Char)
    (hN : ∀ c ∈ N, delim3 c = false)
    (hw : w = [] ∨ ∃ c, w.head? = some c ∧ delim3 c = true)
    (hbr : (N.contains '[' != N.contains ']') = false) (hhc : hc N = true) :
    splitNetloc hc ('/' :: '/' :: (N ++ w)) = some (N, w) := by
  obtain ⟨h1, h2⟩ := takeWhile_nodelim_append N w hN hw
  unfold splitNetloc
  simp only [h1, h2, hbr, hhc]
  rfl

lemma splitNetloc_pos_fail (hc : List Char → Bool) (N w : List Char)
    (hN : ∀ c ∈ N, delim3 c = false)
    (hw : w = [] ∨ ∃ c, w.head? = some c ∧ delim3 c = true)
    (hfail : (N.contains '[' != N.contains ']') = true ∨ hc N = false) :
    splitNetloc hc ('/' :: '/' :: (N ++ w)) = none := by
  obtain ⟨h1, h2⟩ := takeWhile_nodelim_append N w hN hw
  unfold splitNetloc
  simp only [h1, h2]
  rcases hfail with hf | hf
  · rw [if_pos]
    rw [hf]
    simp
  · rw [if_pos]
    rw [hf]
    simp

lemma splitNetloc_inv (hc : List Char → Bool) (u n r : List Char)
    (h : splitNetloc hc u = some (n, r)) :
    (u.take 2 ≠ ['/', '/'] ∧ n = [] ∧ r = u) ∨
    (∃ rest, u = '/' :: '/' :: rest ∧
      n = rest.takeWhile (fun c => !(delim3 c)) ∧
      r = rest.dropWhile (fun c => !(delim3 c)) ∧
      (n.contains '[' != n.contains ']') = false ∧ hc n = true) := by
  unfold splitNetloc at h
  split at h
  · rename_i rest
    right
    refine ⟨rest, rfl, ?_⟩
    simp only [] at h
    split at h
    · exact absurd h (by simp)
    · rename_i hcond
      simp only [Bool.or_eq_true, Bool.not_eq_true'] at hcond
      push_neg at hcond
      injection h with h'
      injection h' with h1 h2
      refine ⟨h1.symm, h2.symm, ?_, ?_⟩
      · rw [h1] at hcond
        simpa using hcond.1
      · rw [h1] at hcond
        simpa using hcond.2
  · injection h with h'
    injection h' with h1 h2
    rename_i hne
    refine Or.inl ⟨?_, h1.symm, h2.symm⟩
    intro htake
    rcases u with _ | ⟨a, _ | ⟨b, t⟩⟩
    · simp at htake
    · simp at htake
    · simp only [List.take_succ_cons, List.take_zero] at htake
      have ha : a = '/' := by
        have := congrArg (fun l => l.head?) htake
        simpa using this
      have hb : b = '/' := by
        have := congrArg (fun l => l.tail.head?) htake
        simpa using this
      subst ha; subst hb
      exact hne t rfl

lemma splitSep_not_mem (sep : Char) (u : List Char) (h : sep ∉ u) :
    splitSep sep u = (u, []) := by
  unfold splitSep
  rw [if_neg]
  intro hc
  exact h ((contains_iff_mem u sep).mp hc)

lemma splitSep_pos (sep : Char) (a b : List Char) (ha : ∀ c ∈ a, c ≠ sep) :
    splitSep sep (a ++ sep :: b) = (a, b) := by
  have hsat : ∀ x ∈ a, (!(x == sep)) = true := by
    intro x hx
    simpa using ha x hx
  unfold splitSep
  rw [if_pos]
  · rw [takeWhile_all_append _ _ _ hsat, dropWhile_all_append _ _ _ hsat,
      takeWhile_cons_neg _ _ _ (by simp), dropWhile_cons_neg _ _ _ (by simp),
      List.append_nil]
    rfl
  · rw [contains_iff_mem]
    exact List.mem_append.mpr (Or.inr (List.mem_cons_self _ _))

lemma splitSep_inv (sep : Char) (u a b : List Char)
    (h : splitSep sep u = (a, b)) :
    (a = u ∧ b = [] ∧ sep ∉ u) ∨ (u = a ++ sep :: b ∧ sep ∉ a) := by
  unfold splitSep at h
  by_cases hc : u.contains sep = true
  · rw [if_pos hc] at h
    right
    injection h with h1 h2
    have hna : sep ∉ a := by
      intro hmem
      rw [← h1] at hmem
      have := mem_takeWhile_sat _ u sep hmem
      simp at this
    refine ⟨?_, hna⟩
    have hdw : u.dropWhile (fun c => !(c == sep)) = sep :: b := by
      rcases hd : u.dropWhile (fun c => !(c == sep)) with _ | ⟨d, ds⟩
      · exfalso
        rw [contains_iff_mem] at hc
        have hu : u.takeWhile (fun c => !(c == sep)) = u := by
          have := List.takeWhile_append_dropWhile (p := fun c => !(c == sep)) (l := u)
          rw [hd, List.append_nil] at this
          exact this
        have := mem_takeWhile_sat _ u sep (by rw [hu]; exact hc)
        simp at this
      · have hd' : d = sep := by
          have := dropWhile_head_false _ u d ds hd
          simpa using this
        have hb : b = ds := by
          rw [hd] at h2
          simpa using h2.symm
        rw [hd', hb]
    conv_lhs => rw [← List.takeWhile_append_dropWhile (p := fun c => !(c == sep))
      (l := u)]
    rw [hdw, h1]
  · rw [if_neg hc] at h
    left
    injection h with h1 h2
    refine ⟨h1.symm, h2.symm, ?_⟩
    intro hmem
    exact hc ((contains_iff_mem u sep).mpr hmem)

lemma als_no_slash (u : List Char) (h : '/' ∉ u) : afterLastSlash u = u := by
  unfold afterLastSlash
  rw [List.takeWhile_eq_self_iff.mpr, List.reverse_reverse]
  intro x hx
  simp only [Bool.not_eq_true']
  rw [beq_eq_false_iff_ne]
  intro he
  subst he
  exact h (List.mem_reverse.mp hx)

lemma als_append (x y : List Char) (h : '/' ∉ y) :
    afterLastSlash (x ++ '/' :: y) = y := by
  unfold afterLastSlash
  have hsat : ∀ c ∈ y.reverse, (!(c == '/')) = true := by
    intro c hc
    simp only [Bool.not_eq_true']
    rw [beq_eq_false_iff_ne]
    intro he
    subst he
    exact h (List.mem_reverse.mp hc)
  rw [List.reverse_append, List.reverse_cons, List.append_assoc,
    takeWhile_all_append _ _ _ hsat, List.singleton_append,
    takeWhile_cons_neg _ _ _ (by simp), List.append_nil, List.reverse_reverse]

lemma mem_als (u : List Char) (c : Char) (h : c ∈ afterLastSlash u) : c ∈ u := by
  unfold afterLastSlash at h
  rw [List.mem_reverse] at h
  exact List.mem_reverse.mp (mem_takeWhile_mem _ _ _ h)

lemma als_decomp (u : List Char) (h : '/' ∈ u) :
    ∃ b₀, u = b₀ ++ '/' :: afterLastSlash u ∧ '/' ∉ afterLastSlash u := by
  have hns : '/' ∉ afterLastSlash u := by
    intro hmem
    unfold afterLastSlash at hmem
    rw [List.mem_reverse] at hmem
    have := mem_takeWhile_sat _ _ _ hmem
    simp at this
  refine ⟨((u.reverse.dropWhile (fun c => !(c == '/'))).tail).reverse, ?_, hns⟩
  have hdw : u.reverse.dropWhile (fun c => !(c == '/')) = '/' ::
      (u.reverse.dropWhile (fun c => !(c == '/'))).tail := by
    rcases hd : u.reverse.dropWhile (fun c => !(c == '/')) with _ | ⟨d, ds⟩
    · exfalso
      have hu : u.reverse.takeWhile (fun c => !(c == '/')) = u.reverse := by
        have := List.takeWhile_append_dropWhile (p := fun c => !(c == '/'))
          (l := u.reverse)
        rw [hd, List.append_nil] at this
        exact this
      have := mem_takeWhile_sat _ u.reverse '/' (by rw [hu]; exact List.mem_reverse.mpr h)
      simp at this
    · have hd' : d = '/' := by
        have := dropWhile_head_false _ u.reverse d ds hd
        simpa using this
      rw [hd']
      rfl
  have := List.takeWhile_append_dropWhile (p := fun c => !(c == '/')) (l := u.reverse)
  rw [hdw] at this
  have h2 := congrArg List.reverse this
  rw [List.reverse_append, List.reverse_cons, List.reverse_reverse] at h2
  unfold afterLastSlash
  conv_lhs => rw [← h2]
  rw [List.append_assoc, List.singleton_append]

lemma pySplitParams_semi (P X b : List Char) (hX1 : '/' ∉ X) (hX2 : ';' ∉ X)
    (hb : '/' ∉ b) :
    pySplitParams (P ++ '/' :: (X ++ ';' :: b)) = (P ++ '/' :: X, b) := by
  have hy : '/' ∉ X ++ ';' :: b := by
    intro hmem
    rcases List.mem_append.mp hmem with hm | hm
    · exact hX1 hm
    · rcases List.mem_cons.mp hm with hm | hm
      · simp at hm
      · exact hb hm
  have hals : afterLastSlash (P ++ '/' :: (X ++ ';' :: b)) = X ++ ';' :: b :=
    als_append _ _ hy
  have hsat : ∀ x ∈ X, (!(x == ';')) = true := by
    intro x hx
    simp only [Bool.not_eq_true']
    rw [beq_eq_false_iff_ne]
    intro he; subst he; exact hX2 hx
  unfold pySplitParams
  rw [if_pos, hals, if_pos]
  · have htw : (X ++ ';' :: b).takeWhile (fun c => !(c == ';')) = X := by
      rw [takeWhile_all_append _ _ _ hsat, takeWhile_cons_neg _ _ _ (by simp),
        List.append_nil]
    have hdw : (X ++ ';' :: b).dropWhile (fun c => !(c == ';')) = ';' :: b := by
      rw [dropWhile_all_append _ _ _ hsat, dropWhile_cons_neg _ _ _ (by simp)]
    rw [htw, hdw]
    have hlen : (P ++ '/' :: (X ++ ';' :: b)).length - (X ++ ';' :: b).length =
        (P ++ ['/']).length := by
      simp
      omega
    have htake : (P ++ '/' :: (X ++ ';' :: b)).take ((P ++ ['/']).length) =
        P ++ ['/'] := by
      have : P ++ '/' :: (X ++ ';' :: b) = (P ++ ['/']) ++ (X ++ ';' :: b) := by
        rw [List.append_assoc, List.singleton_append]
      rw [this, List.take_left]
    rw [hlen, htake]
    simp [List.append_assoc]
  · rw [contains_iff_mem]
    exact List.mem_append.mpr (Or.inr (List.mem_cons_self _ _))
  · rw [contains_iff_mem]
    exact List.mem_append.mpr (Or.inr (List.mem_cons_self _ _))

lemma pySplitParams_nosemi_slash (P X : List Char) (hX1 : '/' ∉ X)
    (hX2 : ';' ∉ X) :
    pySplitParams (P ++ '/' :: X) = (P ++ '/' :: X, []) := by
  have hals : afterLastSlash (P ++ '/' :: X) = X := als_append _ _ hX1
  unfold pySplitParams
  rw [if_pos, hals, if_neg]
  · intro hc
    exact hX2 ((contains_iff_mem X ';').mp hc)
  · rw [contains_iff_mem]
    exact List.mem_append.mpr (Or.inr (List.mem_cons_self _ _))

lemma pySplitParams_noslash (X b : List Char) (hX1 : '/' ∉ X) (hX2 : ';' ∉ X)
    (hb : '/' ∉ b) :
    pySplitParams (X ++ ';' :: b) = (X, b) := by
  have hsat : ∀ x ∈ X, (!(x == ';')) = true := by
    intro x hx
    simp only [Bool.not_eq_true']
    rw [beq_eq_false_iff_ne]
    intro he; subst he; exact hX2 hx
  unfold pySplitParams
  rw [if_neg]
  · rw [takeWhile_all_append _ _ _ hsat, takeWhile_cons_neg _ _ _ (by simp),
      dropWhile_all_append _ _ _ hsat, dropWhile_cons_neg _ _ _ (by simp),
      List.append_nil]
    rfl
  · intro hc
    rcases List.mem_append.mp ((contains_iff_mem _ '/').mp hc) with hm | hm
    · exact hX1 hm
    · rcases List.mem_cons.mp hm with hm | hm
      · simp at hm
      · exact hb hm

lemma split_at_first (c : Char) (u : List Char) (h : c ∈ u) :
    ∃ T D, u = T ++ c :: D ∧ c ∉ T := by
  refine ⟨u.takeWhile (fun x => !(x == c)), (u.dropWhile (fun x => !(x == c))).tail,
    ?_, ?_⟩
  · have hdw : u.dropWhile (fun x => !(x == c)) = c ::
        (u.dropWhile (fun x => !(x == c))).tail := by
      rcases hd : u.dropWhile (fun x => !(x == c)) with _ | ⟨d, ds⟩
      · exfalso
        have hu : u.takeWhile (fun x => !(x == c)) = u := by
          have := List.takeWhile_append_dropWhile (p := fun x => !(x == c)) (l := u)
          rw [hd, List.append_nil] at this
          exact this
        have := mem_takeWhile_sat _ u c (by rw [hu]; exact h)
        simp at this
      · have hd' : d = c := by
          have := dropWhile_head_false _ u d ds hd
          simpa using this
        rw [hd']
        rfl
    conv_lhs => rw [← List.takeWhile_append_dropWhile (p := fun x => !(x == c))
      (l := u)]
    rw [hdw]
    rfl
  · intro hmem
    have := mem_takeWhile_sat _ u c hmem
    simp at this

lemma append_singleton_eq (x y m : List Char) (c : Char) (h : x ++ [c] = y ++ m)
    (hm : m ≠ []) : ∃ m', m = m' ++ [c] ∧ x = y ++ m' := by
  have hm2 : m.dropLast ++ [m.getLast hm] = m := List.dropLast_append_getLast hm
  rw [← hm2, ← List.append_assoc] at h
  have hlen : [c].length = [m.getLast hm].length := rfl
  obtain ⟨h1, h2⟩ := List.append_inj' h hlen
  have hc : m.getLast hm = c := by
    have := congrArg List.head? h2
    simpa using this.symm
  refine ⟨m.dropLast, ?_, h1⟩
  conv_lhs => rw [← hm2]
  rw [hc]

/-- The invariant `splitParams` guarantees between the returned path and
params: for a `uses_params` scheme, the params hold no `/` and the path has
no `;` after its last `/`; otherwise the params are empty. -/
def ppInv (S a b : List Char) : Prop :=
  if String.mk S ∈ usesParams then
    '/' ∉ b ∧ ∀ c ∈ afterLastSlash a, c ≠ ';'
  else b = []

lemma splitParams_inv (S u a b : List Char) (h : splitParams S u = (a, b)) :
    ppInv S a b ∧ (u = rejoinParams a b ∨ (b = [] ∧ u = a ++ [';'])) := by
  unfold splitParams at h
  by_cases hco : String.mk S ∈ usesParams ∧ u.contains ';' = true
  · rw [if_pos hco] at h
    by_cases hsl : '/' ∈ u
    · obtain ⟨b₀, hdec, hnsl⟩ := als_decomp u hsl
      by_cases hsem : ';' ∈ afterLastSlash u
      · obtain ⟨T, D, hTD, hnT⟩ := split_at_first ';' _ hsem
        have hTsub : ∀ x ∈ T, x ∈ afterLastSlash u := by
          intro x hx
          rw [hTD]
          exact List.mem_append.mpr (Or.inl hx)
        have hDsub : ∀ x ∈ D, x ∈ afterLastSlash u := by
          intro x hx
          rw [hTD]
          exact List.mem_append.mpr (Or.inr (List.mem_cons_of_mem _ hx))
        have hT1 : '/' ∉ T := fun hx => hnsl (hTsub _ hx)
        have hD1 : '/' ∉ D := fun hx => hnsl (hDsub _ hx)
        rw [hdec, hTD] at h
        rw [pySplitParams_semi b₀ T D hT1 hnT hD1] at h
        injection h with h1 h2
        subst h1; subst h2
        refine ⟨?_, ?_⟩
        · unfold ppInv
          rw [if_pos hco.1]
          refine ⟨hD1, ?_⟩
          rw [als_append _ _ hT1]
          exact fun c hc he => hnT (he ▸ hc)
        · rcases D with _ | ⟨d, ds⟩
          · right
            refine ⟨rfl, ?_⟩
            rw [hdec, hTD]
            simp [List.append_assoc]
          · left
            unfold rejoinParams
            rw [if_neg (List.cons_ne_nil d ds), hdec, hTD]
            simp [List.append_assoc]
      · rw [hdec] at h
        rw [pySplitParams_nosemi_slash b₀ _ hnsl
          (fun hx => hsem hx)] at h
        injection h with h1 h2
        subst h1; subst h2
        refine ⟨?_, Or.inl ?_⟩
        · unfold ppInv
          rw [if_pos hco.1]
          refine ⟨by simp, ?_⟩
          intro c hc he
          rw [als_append _ _ hnsl] at hc
          exact hsem (he ▸ hc)
        · unfold rejoinParams
          rw [if_pos rfl, List.append_nil]
          exact hdec
    · have hsem : ';' ∈ u := (contains_iff_mem u ';').mp hco.2
      obtain ⟨T, D, hTD, hnT⟩ := split_at_first ';' u hsem
      have hT1 : '/' ∉ T := fun hx => hsl (hTD ▸ List.mem_append.mpr (Or.inl hx))
      have hD1 : '/' ∉ D := fun hx => hsl (hTD ▸ List.mem_append.mpr
        (Or.inr (List.mem_cons_of_mem _ hx)))
      rw [hTD, pySplitParams_noslash T D hT1 hnT hD1] at h
      injection h with h1 h2
      subst h1; subst h2
      refine ⟨?_, ?_⟩
      · unfold ppInv
        rw [if_pos hco.1]
        refine ⟨hD1, ?_⟩
        rw [als_no_slash _ hT1]
        exact fun c hc he => hnT (he ▸ hc)
      · rcases D with _ | ⟨d, ds⟩
        · right
          exact ⟨rfl, hTD⟩
        · left
          unfold rejoinParams
          rw [if_neg (List.cons_ne_nil d ds)]
          exact hTD
  · rw [if_neg hco] at h
    injection h with h1 h2
    subst h1; subst h2
    refine ⟨?_, Or.inl ?_⟩
    · unfold ppInv
      split
      · rename_i hmem
        have hnc : u.contains ';' ≠ true := fun hc => hco ⟨hmem, hc⟩
        refine ⟨by simp, ?_⟩
        intro c hc he
        subst he
        exact hnc ((contains_iff_mem u ';').mpr (mem_als _ _ hc))
      · rfl
    · unfold rejoinParams
      rw [if_pos rfl, List.append_nil]

lemma rejoinParams_nil (a : List Char) : rejoinParams a [] = a := by
  unfold rejoinParams
  rw [if_pos rfl, List.append_nil]

lemma rejoinParams_cons (a b : List Char) (hb : b ≠ []) :
    rejoinParams a b = a ++ ';' :: b := by
  unfold rejoinParams
  rw [if_neg hb]

lemma splitParams_build (S a b : List Char) (h : ppInv S a b) :
    splitParams S (rejoinParams a b) = (a, b) := by
  unfold ppInv at h
  by_cases hmem : String.mk S ∈ usesParams
  · rw [if_pos hmem] at h
    obtain ⟨hb, hns⟩ := h
    rcases b with _ | ⟨d, ds⟩
    · rw [rejoinParams_nil]
      unfold splitParams
      by_cases hsemi : ';' ∈ a
      · rw [if_pos ⟨hmem, (contains_iff_mem a ';').mpr hsemi⟩]
        have hsl : '/' ∈ a := by
          by_contra hns2
          exact hns ';' (by rw [als_no_slash _ hns2]; exact hsemi) rfl
        obtain ⟨b₀, hdec, hnsl⟩ := als_decomp a hsl
        have hnsemi : ';' ∉ afterLastSlash a := fun hx => hns ';' hx rfl
        conv_lhs => rw [hdec]
        rw [pySplitParams_nosemi_slash b₀ _ hnsl hnsemi, ← hdec]
      · rw [if_neg (fun hco => hsemi ((contains_iff_mem a ';').mp hco.2))]
    · have hbne : (d :: ds) ≠ [] := List.cons_ne_nil d ds
      rw [rejoinParams_cons a _ hbne]
      unfold splitParams
      rw [if_pos ⟨hmem, (contains_iff_mem _ ';').mpr
        (List.mem_append.mpr (Or.inr (List.mem_cons_self _ _)))⟩]
      by_cases hsl : '/' ∈ a
      · obtain ⟨b₀, hdec, hnsl⟩ := als_decomp a hsl
        have hnsT : ';' ∉ afterLastSlash a := fun hx => hns ';' hx rfl
        have heq : a ++ ';' :: (d :: ds) =
            b₀ ++ '/' :: (afterLastSlash a ++ ';' :: (d :: ds)) := by
          conv_lhs => rw [hdec]
          simp [List.append_assoc]
        rw [heq, pySplitParams_semi b₀ _ _ hnsl hnsT hb, ← hdec]
      · have hnsa : ';' ∉ a := fun hx =>
          hns ';' ((als_no_slash a hsl).symm ▸ hx) rfl
        rw [pySplitParams_noslash a _ hsl hnsa hb]
  · rw [if_neg hmem] at h
    subst h
    rw [rejoinParams_nil]
    unfold splitParams
    rw [if_neg (fun hco => hmem hco.1)]

lemma splitParams_build_slash (S a b : List Char) (h : ppInv S a b) :
    splitParams S ('/' :: rejoinParams a b) = ('/' :: a, b) := by
  unfold ppInv at h
  by_cases hmem : String.mk S ∈ usesParams
  · rw [if_pos hmem] at h
    obtain ⟨hb, hns⟩ := h
    rcases b with _ | ⟨d, ds⟩
    · rw [rejoinParams_nil]
      unfold splitParams
      by_cases hsemi : ';' ∈ a
      · rw [if_pos ⟨hmem, (contains_iff_mem _ ';').mpr
          (List.mem_cons_of_mem _ hsemi)⟩]
        have hsl : '/' ∈ a := by
          by_contra hns2
          exact hns ';' (by rw [als_no_slash _ hns2]; exact hsemi) rfl
        obtain ⟨b₀, hdec, hnsl⟩ := als_decomp a hsl
        have hnsemi : ';' ∉ afterLastSlash a := fun hx => hns ';' hx rfl
        have heq : '/' :: a = ('/' :: b₀) ++ '/' :: afterLastSlash a := by
          conv_lhs => rw [hdec]
          rfl
        rw [heq, pySplitParams_nosemi_slash _ _ hnsl hnsemi, ← heq]
      · rw [if_neg (fun hco => hsemi ?_)]
        have := (contains_iff_mem _ ';').mp hco.2
        rcases List.mem_cons.mp this with hh | hh
        · simp at hh
        · exact hh
    · have hbne : (d :: ds) ≠ [] := List.cons_ne_nil d ds
      rw [rejoinParams_cons a _ hbne]
      unfold splitParams
      rw [if_pos ⟨hmem, (contains_iff_mem _ ';').mpr
        (List.mem_cons_of_mem _ (List.mem_append.mpr
          (Or.inr (List.mem_cons_self _ _))))⟩]
      by_cases hsl : '/' ∈ a
      · obtain ⟨b₀, hdec, hnsl⟩ := als_decomp a hsl
        have hnsT : ';' ∉ afterLastSlash a := fun hx => hns ';' hx rfl
        have heq : '/' :: (a ++ ';' :: (d :: ds)) =
            ('/' :: b₀) ++ '/' :: (afterLastSlash a ++ ';' :: (d :: ds)) := by
          conv_lhs => rw [hdec]
          simp [List.append_assoc]
        rw [heq, pySplitParams_semi _ _ _ hnsl hnsT hb]
        have heq2 : ('/' :: b₀) ++ '/' :: afterLastSlash a = '/' :: a := by
          conv_rhs => rw [hdec]
          rfl
        rw [heq2]
      · have hnsa : ';' ∉ a := fun hx =>
          hns ';' ((als_no_slash a hsl).symm ▸ hx) rfl
        have heq : '/' :: (a ++ ';' :: (d :: ds)) =
            [] ++ '/' :: (a ++ ';' :: (d :: ds)) := rfl
        rw [heq, pySplitParams_semi [] _ _ hsl hnsa hb]
        rfl
  · rw [if_neg hmem] at h
    subst h
    rw [rejoinParams_nil]
    unfold splitParams
    rw [if_neg (fun hco => hmem hco.1)]

lemma splitParams_suffix (S a b pre w : List Char) (h : ppInv S a b)
    (hu : rejoinParams a b = pre ++ w)
    (hw : w = [] ∨ w.head? = some '/') :
    rejoinParams (splitParams S w).1 (splitParams S w).2 = w := by
  unfold ppInv at h
  by_cases hmem : String.mk S ∈ usesParams
  swap
  · unfold splitParams
    rw [if_neg (fun hco => hmem hco.1)]
    exact rejoinParams_nil w
  rw [if_pos hmem] at h
  obtain ⟨hb, hns⟩ := h
  rcases hw with hw | hw
  · subst hw
    unfold splitParams
    rw [if_neg (by rintro ⟨-, hc⟩; simp [List.contains] at hc)]
    exact rejoinParams_nil []
  by_cases hsemi : ';' ∈ w
  swap
  · unfold splitParams
    rw [if_neg (fun hco => hsemi ((contains_iff_mem _ ';').mp hco.2))]
    exact rejoinParams_nil w
  rcases w with _ | ⟨c, w'⟩
  · simp at hw
  simp only [List.head?_cons, Option.some.injEq] at hw
  subst hw
  unfold splitParams
  rw [if_pos ⟨hmem, (contains_iff_mem _ ';').mpr hsemi⟩]
  rcases b with _ | ⟨d, ds⟩
  · -- no params: w is a suffix of the path a starting at a slash
    rw [rejoinParams_nil] at hu
    have hsl : '/' ∈ a := by
      rw [hu]
      exact List.mem_append.mpr (Or.inr (List.mem_cons_self _ _))
    obtain ⟨b₀, hdec, hnsl⟩ := als_decomp a hsl
    have hnsemi : ';' ∉ afterLastSlash a := fun hx => hns ';' hx rfl
    have hsplit : (b₀ ++ ['/']) ++ afterLastSlash a = pre ++ '/' :: w' := by
      rw [List.append_assoc, List.singleton_append, ← hdec, hu]
    rcases List.append_eq_append_iff.mp hsplit with ⟨m, hm1, hm2⟩ | ⟨m, hm1, hm2⟩
    · exfalso
      apply hnsl
      rw [hm2]
      exact List.mem_append.mpr (Or.inr (List.mem_cons_self _ _))
    · rcases m with _ | ⟨e, es⟩
      · exfalso
        rw [List.nil_append] at hm2
        apply hnsl
        rw [← hm2]
        exact List.mem_cons_self _ _
      · obtain ⟨m', hm3, hm4⟩ := append_singleton_eq b₀ pre (e :: es) '/' hm1
          (List.cons_ne_nil _ _)
        have hwform : '/' :: w' = m' ++ '/' :: afterLastSlash a := by
          rw [hm2, hm3, List.append_assoc, List.singleton_append]
        rw [hwform, pySplitParams_nosemi_slash m' _ hnsl hnsemi, ← hwform]
        exact rejoinParams_nil _
  · -- params present: w covers the whole ';'-suffix
    have hbne : (d :: ds) ≠ [] := List.cons_ne_nil d ds
    rw [rejoinParams_cons a _ hbne] at hu
    rcases List.append_eq_append_iff.mp hu with ⟨m, hm1, hm2⟩ | ⟨m, hm1, hm2⟩
    · -- ';' :: b = m ++ w : the slash head of w would sit inside the params
      exfalso
      rcases m with _ | ⟨e, es⟩
      · rw [List.nil_append] at hm2
        have := congrArg List.head? hm2
        simp at this
      · rw [List.cons_append] at hm2
        have hds : ds ++ [] = ds := List.append_nil ds
        have : d :: ds = es ++ '/' :: w' := by
          have := congrArg List.tail hm2
          simpa using this
        apply hb
        rw [this]
        exact List.mem_append.mpr (Or.inr (List.mem_cons_self _ _))
    · -- a = pre ++ m and '/' :: w' = m ++ ';' :: b
      rcases m with _ | ⟨e, es⟩
      · rw [List.nil_append] at hm2
        have := congrArg List.head? hm2
        simp at this
      · have he : e = '/' := by
          have := congrArg List.head? hm2
          simpa using this.symm
        subst he
        rw [List.cons_append] at hm2
        have hw' : w' = es ++ ';' :: (d :: ds) := by
          have := congrArg List.tail hm2
          simpa using this
        by_cases hsl2 : '/' ∈ es
        · -- the last slash of the path lies inside es
          have hsl : '/' ∈ a := by
            rw [hm1]
            exact List.mem_append.mpr (Or.inr (List.mem_cons_self _ _))
          obtain ⟨b₀, hdec, hnsl⟩ := als_decomp a hsl
          have hnsT : ';' ∉ afterLastSlash a := fun hx => hns ';' hx rfl
          have hsplit2 : (b₀ ++ ['/']) ++ afterLastSlash a =
              (pre ++ ['/']) ++ es := by
            rw [List.append_assoc, List.singleton_append, ← hdec, hm1,
              List.append_assoc, List.singleton_append]
          rcases List.append_eq_append_iff.mp hsplit2 with
            ⟨k, hk1, hk2⟩ | ⟨k, hk1, hk2⟩
          · exfalso
            apply hnsl
            rw [hk2]
            exact List.mem_append.mpr (Or.inr hsl2)
          · rcases k with _ | ⟨f, fs⟩
            · exfalso
              rw [List.nil_append] at hk2
              rw [hk2] at hsl2
              exact hnsl hsl2
            · obtain ⟨k', hk3, hk4⟩ := append_singleton_eq b₀ (pre ++ ['/'])
                (f :: fs) '/' hk1 (List.cons_ne_nil _ _)
              have hes : es = k' ++ '/' :: afterLastSlash a := by
                rw [hk2, hk3, List.append_assoc, List.singleton_append]
              have hwform : '/' :: w' = ('/' :: k') ++ '/' ::
                  (afterLastSlash a ++ ';' :: (d :: ds)) := by
                rw [hw', hes]
                simp [List.append_assoc]
              rw [hwform, pySplitParams_semi _ _ _ hnsl hnsT hb,
                rejoinParams_cons _ _ hbne]
              simp [List.append_assoc]
        · -- no slash in es: es is exactly the after-slash segment of the path
          have hals : afterLastSlash a = es := by
            rw [hm1]
            exact als_append pre es hsl2
          have hnses : ';' ∉ es := fun hx => hns ';' (hals ▸ hx) rfl
          have hwform : '/' :: w' = [] ++ '/' :: (es ++ ';' :: (d :: ds)) := by
            rw [hw']
            rfl
          rw [hwform, pySplitParams_semi [] _ _ hsl2 hnses hb,
            rejoinParams_cons _ _ hbne]
          simp [List.append_assoc]

lemma splitAmp_ne_nil (u : List Char) : splitAmp u ≠ [] := by
  induction u with
  | nil => simp [splitAmp]
  | cons c rest ih =>
    unfold splitAmp
    by_cases hc : c = '&'
    · rw [if_pos hc]
      simp
    · rw [if_neg hc]
      rcases h : splitAmp rest with _ | ⟨g, gs⟩
      · simp
      · simp

lemma mem_splitAmp_no_amp (u : List Char) :
    ∀ g ∈ splitAmp u, '&' ∉ g := by
  induction u with
  | nil =>
    intro g hg
    simp [splitAmp] at hg
    subst hg
    simp
  | cons c rest ih =>
    intro g hg
    unfold splitAmp at hg
    by_cases hc : c = '&'
    · rw [if_pos hc] at hg
      rcases List.mem_cons.mp hg with hg | hg
      · subst hg; simp
      · exact ih g hg
    · rw [if_neg hc] at hg
      rcases h : splitAmp rest with _ | ⟨g0, gs⟩
      · exact absurd h (splitAmp_ne_nil rest)
      · rw [h] at hg
        rcases List.mem_cons.mp hg with hg | hg
        · subst hg
          intro hmem
          rcases List.mem_cons.mp hmem with hm | hm
          · exact hc hm.symm
          · exact ih g0 (h ▸ List.mem_cons_self _ _) hm
        · exact ih g (h ▸ List.mem_cons_of_mem _ hg)

lemma mem_of_mem_splitAmp (u : List Char) (g : List Char) (c : Char)
    (hg : g ∈ splitAmp u) (hc : c ∈ g) : c ∈ u := by
  induction u generalizing g with
  | nil =>
    simp [splitAmp] at hg
    subst hg
    simp at hc
  | cons d rest ih =>
    unfold splitAmp at hg
    by_cases hd : d = '&'
    · rw [if_pos hd] at hg
      rcases List.mem_cons.mp hg with hg | hg
      · subst hg; simp at hc
      · exact List.mem_cons_of_mem _ (ih g hg hc)
    · rw [if_neg hd] at hg
      rcases h : splitAmp rest with _ | ⟨g0, gs⟩
      · exact absurd h (splitAmp_ne_nil rest)
      · rw [h] at hg
        rcases List.mem_cons.mp hg with hg | hg
        · subst hg
          rcases List.mem_cons.mp hc with hm | hm
          · exact hm ▸ List.mem_cons_self _ _
          · exact List.mem_cons_of_mem _ (ih g0 (h ▸ List.mem_cons_self _ _) hm)
        · exact List.mem_cons_of_mem _ (ih g (h ▸ List.mem_cons_of_mem _ hg) hc)

lemma splitAmp_no_amp (u : List Char) (h : '&' ∉ u) : splitAmp u = [u] := by
  induction u with
  | nil => rfl
  | cons c rest ih =>
    have hcne : ¬(c = '&') := fun hc => by
      subst hc
      exact h (List.mem_cons_self _ _)
    have ihr := ih (fun hm => h (List.mem_cons_of_mem _ hm))
    simp only [splitAmp, if_neg hcne, ihr]

lemma splitAmp_append_amp (g rest : List Char) (h : '&' ∉ g) :
    splitAmp (g ++ '&' :: rest) = g :: splitAmp rest := by
  induction g with
  | nil =>
    rw [List.nil_append]
    simp [splitAmp]
  | cons c g' ih =>
    rw [List.cons_append]
    have hcne : ¬(c = '&') := fun hc => by
      subst hc
      exact h (List.mem_cons_self _ _)
    have ihr := ih (fun hm => h (List.mem_cons_of_mem _ hm))
    simp only [splitAmp, if_neg hcne, ihr]

lemma mem_joinAmp (gs : List (List Char)) (c : Char) (h : c ∈ joinAmp gs) :
    c = '&' ∨ ∃ g ∈ gs, c ∈ g := by
  induction gs with
  | nil => simp [joinAmp] at h
  | cons g gs' ih =>
    rcases gs' with _ | ⟨g2, gs''⟩
    · right
      exact ⟨g, List.mem_cons_self _ _, h⟩
    · unfold joinAmp at h
      rcases List.mem_append.mp h with hm | hm
      · right
        exact ⟨g, List.mem_cons_self _ _, hm⟩
      · rcases List.mem_cons.mp hm with hm | hm
        · exact Or.inl hm
        · rcases ih hm with hm2 | ⟨g3, hg3, hc3⟩
          · exact Or.inl hm2
          · exact Or.inr ⟨g3, List.mem_cons_of_mem _ hg3, hc3⟩

lemma splitAmp_joinAmp (gs : List (List Char)) (h : ∀ g ∈ gs, '&' ∉ g)
    (hne : gs ≠ []) : splitAmp (joinAmp gs) = gs := by
  induction gs with
  | nil => exact absurd rfl hne
  | cons g gs' ih =>
    rcases gs' with _ | ⟨g2, gs''⟩
    · exact splitAmp_no_amp g (h g (List.mem_cons_self _ _))
    · show splitAmp (g ++ '&' :: joinAmp (g2 :: gs'')) = _
      rw [splitAmp_append_amp g _ (h g (List.mem_cons_self _ _))]
      rw [ih (fun g' hg' => h g' (List.mem_cons_of_mem _ hg')) (List.cons_ne_nil _ _)]

lemma cleanQuery_idem (q : List Char) : cleanQuery (cleanQuery q) = cleanQuery q := by
  rcases hG : (splitAmp q).filter keepParam with _ | ⟨g, gs⟩
  · unfold cleanQuery
    rw [hG]
    rfl
  · have hGmem : ∀ g' ∈ (splitAmp q).filter keepParam, '&' ∉ g' := by
      intro g' hg'
      exact mem_splitAmp_no_amp q g' (List.mem_of_mem_filter hg')
    have hGkeep : ∀ g' ∈ (splitAmp q).filter keepParam, keepParam g' = true := by
      intro g' hg'
      exact List.of_mem_filter hg'
    show cleanQuery (joinAmp ((splitAmp q).filter keepParam)) = _
    unfold cleanQuery
    rw [splitAmp_joinAmp _ hGmem (by rw [hG]; exact List.cons_ne_nil _ _)]
    congr 1
    exact List.filter_eq_self.mpr hGkeep

lemma mem_cleanQuery (q : List Char) (c : Char) (h : c ∈ cleanQuery q) :
    c = '&' ∨ c ∈ q := by
  unfold cleanQuery at h
  rcases mem_joinAmp _ c h with hm | ⟨g, hg, hc⟩
  · exact Or.inl hm
  · exact Or.inr (mem_of_mem_splitAmp q g c (List.mem_of_mem_filter hg) hc)

lemma head?_append_left (a b : List Char) (ha : a ≠ []) :
    (a ++ b).head? = a.head? := by
  rcases a with _ | ⟨c, t⟩
  · exact absurd rfl ha
  · rfl

lemma head?_mem (l : List Char) (c : Char) (h : l.head? = some c) : c ∈ l := by
  rcases l with _ | ⟨d, t⟩
  · simp at h
  · simp only [List.head?_cons, Option.some.injEq] at h
    exact h ▸ List.mem_cons_self _ _

lemma mem_pyStripList (l : List Char) (c : Char) (h : c ∈ pyStripList l) :
    c ∈ l := by
  unfold pyStripList at h
  rw [List.mem_reverse] at h
  have h2 := mem_dropWhile_mem _ _ _ h
  rw [List.mem_reverse] at h2
  exact mem_dropWhile_mem _ _ _ h2

lemma mem_urlsplitClean (l : List Char) (c : Char) (h : c ∈ urlsplitClean l) :
    c ∈ l ∧ unsafeByte c = false := by
  unfold urlsplitClean at h
  rw [List.mem_filter] at h
  exact ⟨mem_dropWhile_mem _ _ _ h.1, by simpa using h.2⟩

lemma urlsplitClean_head (l : List Char) (c : Char) (r : List Char)
    (h : urlsplitClean l = c :: r) : isC0OrSpace c = false := by
  unfold urlsplitClean at h
  rcases hd : l.dropWhile isC0OrSpace with _ | ⟨d, ds⟩
  · rw [hd] at h; simp at h
  · have hdC0 : isC0OrSpace d = false := dropWhile_head_false _ _ _ _ hd
    have hdsafe : (!(unsafeByte d)) = true := by
      unfold isC0OrSpace at hdC0
      unfold unsafeByte
      simp only [decide_eq_false_iff_not, not_le] at hdC0
      simp only [Bool.not_eq_true', Bool.or_eq_false_iff, beq_eq_false_iff_ne, ne_eq]
      omega
    rw [hd, List.filter_cons] at h
    simp only [hdsafe, if_true, List.cons.injEq] at h
    exact h.1 ▸ hdC0

lemma urlsplitClean_fix (l : List Char)
    (hsafe : ∀ c ∈ l, unsafeByte c = false)
    (hhead : l = [] ∨ ∃ c r, l = c :: r ∧ isC0OrSpace c = false) :
    urlsplitClean l = l := by
  unfold urlsplitClean
  have hfil : l.filter (fun c => !(unsafeByte c)) = l :=
    List.filter_eq_self.mpr (fun a ha => by simp [hsafe a ha])
  rcases hhead with hl | ⟨c, r, hl, hcx⟩
  · subst hl; rfl
  · subst hl
    rw [dropWhile_cons_neg _ _ _ hcx]
    exact hfil

lemma urlparseList_facts (hc : List Char → Bool) (u : List Char) (p : UrlParts)
    (hlow : ∀ c ∈ u, lowerChar c = c)
    (h : urlparseList hc u = some p) :
    (p.scheme = [] ∨ ((∃ c, p.scheme.head? = some c ∧ c.isAlpha = true) ∧
      p.scheme.all schemeChar = true)) ∧
    p.scheme.map lowerChar = p.scheme ∧
    (∀ c ∈ p.netloc, delim3 c = false) ∧
    (p.netloc ≠ [] → ((p.netloc.contains '[' != p.netloc.contains ']') = false ∧
      hc p.netloc = true)) ∧
    (∀ c ∈ p.path, c ≠ '#' ∧ c ≠ '?') ∧
    (∀ c ∈ p.params, c ≠ '#' ∧ c ≠ '?') ∧
    (∀ c ∈ p.query, c ≠ '#') ∧
    ppInv p.scheme p.path p.params ∧
    (∀ c, (c ∈ p.scheme ∨ c ∈ p.netloc ∨ c ∈ p.path ∨ c ∈ p.params ∨
      c ∈ p.query) → lowerChar c = c ∧ unsafeByte c = false) ∧
    (p.scheme = [] → ¬goodScheme (urlsplitClean u)) ∧
    (p.scheme = [] → p.netloc = [] →
      (p.path = [] ∨ p.path.head? = some '/' ∨
        ∃ t, urlsplitClean u = p.path ++ t)) := by
  unfold urlparseList at h
  simp only [] at h
  rcases hss : splitScheme (urlsplitClean u) with ⟨sch, r1⟩
  rw [hss] at h
  simp only [] at h
  rcases hsn : splitNetloc hc r1 with _ | ⟨nl, r2⟩
  · rw [hsn] at h
    simp at h
  rw [hsn] at h
  simp only [] at h
  rcases hfr : splitSep '#' r2 with ⟨bodyF, frag⟩
  rw [hfr] at h
  simp only [] at h
  rcases hqr : splitSep '?' bodyF with ⟨bodyQ, qry⟩
  rw [hqr] at h
  simp only [] at h
  rcases hpp : splitParams sch bodyQ with ⟨pth, prm⟩
  rw [hpp] at h
  simp only [Option.some.injEq] at h
  subst h
  simp only []
  have HSS := splitScheme_inv _ _ _ hss
  have HSN := splitNetloc_inv hc _ _ _ hsn
  have HF := splitSep_inv '#' _ _ _ hfr
  have HQ := splitSep_inv '?' _ _ _ hqr
  have HP := splitParams_inv sch _ _ _ hpp
  -- membership chains
  have hr1sub : ∀ c ∈ r1, c ∈ urlsplitClean u := by
    rcases HSS with ⟨-, hr, -⟩ | ⟨pre, hu1, -, -, -, -⟩
    · intro c hcm; rw [← hr]; exact hcm
    · intro c hcm
      rw [hu1]
      exact List.mem_append.mpr (Or.inr (List.mem_cons_of_mem _ hcm))
  have hnlsub : ∀ c ∈ nl, c ∈ r1 := by
    rcases HSN with ⟨-, hn, -⟩ | ⟨rest, hr1eq, hnl, -, -, -⟩
    · intro c hcm; rw [hn] at hcm; simp at hcm
    · intro c hcm
      rw [hr1eq]
      exact List.mem_cons_of_mem _ (List.mem_cons_of_mem _
        (mem_takeWhile_mem _ _ _ (hnl ▸ hcm)))
  have hr2sub : ∀ c ∈ r2, c ∈ r1 := by
    rcases HSN with ⟨-, -, hr⟩ | ⟨rest, hr1eq, -, hr2, -, -⟩
    · intro c hcm; rw [hr] at hcm; exact hcm
    · intro c hcm
      rw [hr1eq]
      exact List.mem_cons_of_mem _ (List.mem_cons_of_mem _
        (mem_dropWhile_mem _ _ _ (hr2 ▸ hcm)))
  have hbFsub : ∀ c ∈ bodyF, c ∈ r2 := by
    rcases HF with ⟨hb, -, -⟩ | ⟨hr2eq, -⟩
    · intro c hcm; rw [← hb]; exact hcm
    · intro c hcm
      rw [hr2eq]
      exact List.mem_append.mpr (Or.inl hcm)
  have hbFhash : '#' ∉ bodyF := by
    rcases HF with ⟨hb, -, hni⟩ | ⟨-, hni⟩
    · rw [hb]; exact hni
    · exact hni
  have hbQsub : ∀ c ∈ bodyQ, c ∈ bodyF := by
    rcases HQ with ⟨hb, -, -⟩ | ⟨hbFeq, -⟩
    · intro c hcm; rw [← hb]; exact hcm
    · intro c hcm
      rw [hbFeq]
      exact List.mem_append.mpr (Or.inl hcm)
  have hbQq : '?' ∉ bodyQ := by
    rcases HQ with ⟨hb, -, hni⟩ | ⟨-, hni⟩
    · rw [hb]; exact hni
    · exact hni
  have hqrysub : ∀ c ∈ qry, c ∈ bodyF := by
    rcases HQ with ⟨-, hq, -⟩ | ⟨hbFeq, -⟩
    · intro c hcm; rw [hq] at hcm; simp at hcm
    · intro c hcm
      rw [hbFeq]
      exact List.mem_append.mpr (Or.inr (List.mem_cons_of_mem _ hcm))
  have hbQshape : ∃ t, bodyQ = pth ++ t := by
    rcases HP.2 with hsh | ⟨-, hsh⟩
    · rcases hprm : prm with _ | ⟨d, ds⟩
      · rw [hprm] at hsh
        rw [rejoinParams_nil] at hsh
        exact ⟨[], by rw [List.append_nil]; exact hsh⟩
      · rw [hprm] at hsh
        rw [rejoinParams_cons _ _ (List.cons_ne_nil d ds)] at hsh
        exact ⟨';' :: d :: ds, hsh⟩
    · exact ⟨[';'], hsh⟩
  have hpthsub : ∀ c ∈ pth, c ∈ bodyQ := by
    obtain ⟨t, ht⟩ := hbQshape
    intro c hcm
    rw [ht]
    exact List.mem_append.mpr (Or.inl hcm)
  have hprmsub : ∀ c ∈ prm, c ∈ bodyQ := by
    rcases HP.2 with hsh | ⟨hpe, -⟩
    · intro c hcm
      rcases hprm : prm with _ | ⟨d, ds⟩
      · rw [hprm] at hcm; simp at hcm
      · rw [hprm] at hsh
        rw [rejoinParams_cons _ _ (List.cons_ne_nil d ds)] at hsh
        rw [hsh]
        exact List.mem_append.mpr (Or.inr (List.mem_cons_of_mem _ (hprm ▸ hcm)))
    · intro c hcm
      rw [hpe] at hcm
      simp at hcm
  -- scheme facts
  have hschfact : sch = [] ∨ ((∃ c, sch.head? = some c ∧ c.isAlpha = true) ∧
      sch.all schemeChar = true) := by
    rcases HSS with ⟨hs, -, -⟩ | ⟨pre, -, hmap, hne, hhead, hall⟩
    · exact Or.inl hs
    · right
      constructor
      · rcases hp : pre with _ | ⟨c0, cs⟩
        · exact absurd hp hne
        · refine ⟨lowerChar c0, ?_, ?_⟩
          · rw [hmap, hp]; rfl
          · exact lowerChar_alpha c0 (hhead c0 (by rw [hp]; rfl))
      · rw [hmap, List.all_eq_true]
        intro x hx
        rw [List.mem_map] at hx
        obtain ⟨y, hy, hxy⟩ := hx
        rw [← hxy]
        exact lowerChar_schemeChar y (by
          rw [List.all_eq_true] at hall
          exact hall y hy)
  have hschmap : sch.map lowerChar = sch := by
    rcases HSS with ⟨hs, -, -⟩ | ⟨pre, -, hmap, -, -, -⟩
    · rw [hs]; rfl
    · rw [hmap, List.map_map]
      apply List.map_congr_left
      intro a _
      exact lowerChar_idem a
  refine ⟨hschfact, hschmap, ?_, ?_, ?_, ?_, ?_, HP.1, ?_, ?_, ?_⟩
  · -- netloc has no delimiters
    intro c hcm
    rcases HSN with ⟨-, hn, -⟩ | ⟨rest, -, hnl, -, -, -⟩
    · rw [hn] at hcm; simp at hcm
    · have := mem_takeWhile_sat _ rest c (hnl ▸ hcm)
      simpa using this
  · -- netloc checks passed
    intro hne
    rcases HSN with ⟨-, hn, -⟩ | ⟨rest, -, -, -, hbr, hhc⟩
    · exact absurd hn hne
    · exact ⟨hbr, hhc⟩
  · intro c hcm
    constructor
    · intro he; subst he; exact hbFhash (hbQsub _ (hpthsub _ hcm))
    · intro he; subst he; exact hbQq (hpthsub _ hcm)
  · intro c hcm
    constructor
    · intro he; subst he; exact hbFhash (hbQsub _ (hprmsub _ hcm))
    · intro he; subst he; exact hbQq (hprmsub _ hcm)
  · intro c hcm
    intro he; subst he; exact hbFhash (hqrysub _ hcm)
  · -- all kept characters are lowered and safe
    intro c hcm
    have hclean : ∀ d ∈ urlsplitClean u, lowerChar d = d ∧ unsafeByte d = false := by
      intro d hd
      obtain ⟨hdu, hdsafe⟩ := mem_urlsplitClean u d hd
      exact ⟨hlow d hdu, hdsafe⟩
    rcases hcm with hcm | hcm | hcm | hcm | hcm
    · rcases HSS with ⟨hs, -, -⟩ | ⟨pre, hu1, hmap, -, -, -⟩
      · rw [hs] at hcm; simp at hcm
      · rw [hmap, List.mem_map] at hcm
        obtain ⟨y, hy, hxy⟩ := hcm
        have hyc : y ∈ urlsplitClean u := by
          rw [hu1]
          exact List.mem_append.mpr (Or.inl hy)
        obtain ⟨hy1, hy2⟩ := hclean y hyc
        rw [← hxy]
        exact ⟨lowerChar_idem y, lowerChar_unsafe y hy2⟩
    · exact hclean c (hr1sub c (hnlsub c hcm))
    · exact hclean c (hr1sub c (hr2sub c (hbFsub c (hbQsub c (hpthsub c hcm)))))
    · exact hclean c (hr1sub c (hr2sub c (hbFsub c (hbQsub c (hprmsub c hcm)))))
    · exact hclean c (hr1sub c (hr2sub c (hbFsub c (hqrysub c hcm))))
  · -- no scheme means the cleaned input has no scheme shape
    intro hs
    rcases HSS with ⟨-, -, hng⟩ | ⟨pre, -, hmap, hne, -, -⟩
    · exact hng
    · exfalso
      apply hne
      rw [hs] at hmap
      exact List.map_eq_nil.mp hmap.symm
  · -- the path starts the cleaned input, or starts with a slash, or is empty
    intro hs hn
    have hr1u : r1 = urlsplitClean u := by
      rcases HSS with ⟨-, hr, -⟩ | ⟨pre, -, hmap, hne, -, -⟩
      · exact hr
      · exfalso
        apply hne
        rw [hs] at hmap
        exact List.map_eq_nil.mp hmap.symm
    rcases HSN with ⟨-, -, hr⟩ | ⟨rest, hr1eq, hnl, hr2, -, -⟩
    · -- no authority: everything is a prefix chain of the cleaned input
      right; right
      obtain ⟨t3, ht3⟩ := hbQshape
      have ht2 : ∃ t, bodyF = bodyQ ++ t := by
        rcases HQ with ⟨hb, -, -⟩ | ⟨hbFeq, -⟩
        · exact ⟨[], by rw [List.append_nil, hb]⟩
        · exact ⟨'?' :: qry, hbFeq⟩
      have ht1 : ∃ t, r2 = bodyF ++ t := by
        rcases HF with ⟨hb, -, -⟩ | ⟨hr2eq, -⟩
        · exact ⟨[], by rw [List.append_nil, hb]⟩
        · exact ⟨'#' :: frag, hr2eq⟩
      obtain ⟨t2, ht2⟩ := ht2
      obtain ⟨t1, ht1⟩ := ht1
      refine ⟨t3 ++ t2 ++ t1, ?_⟩
      rw [← hr1u, ← hr, ht1, ht2, ht3]
      simp [List.append_assoc]
    · -- authority branch with empty netloc: the remainder starts with a delimiter
      have hr2head : r2 = [] ∨ ∃ c, r2.head? = some c ∧ delim3 c = true := by
        rcases hr2d : r2 with _ | ⟨d, ds⟩
        · exact Or.inl rfl
        · right
          refine ⟨d, rfl, ?_⟩
          have := dropWhile_head_false _ rest d ds (by rw [← hr2]; exact hr2d)
          simpa using this
      have hbFhead : bodyF = [] ∨ ∃ c, bodyF.head? = some c ∧ delim3 c = true := by
        rcases HF with ⟨hb, -, -⟩ | ⟨hr2eq, -⟩
        · rw [hb]; exact hr2head
        · rcases hbf : bodyF with _ | ⟨d, ds⟩
          · exact Or.inl rfl
          · right
            refine ⟨d, rfl, ?_⟩
            rcases hr2head with h0 | ⟨c0, hc0, hd0⟩
            · rw [h0] at hr2eq
              exact absurd hr2eq.symm (by simp [hbf])
            · rw [hr2eq, head?_append_left _ _ (by rw [hbf]; simp), hbf] at hc0
              simp only [List.head?_cons, Option.some.injEq] at hc0
              rw [hc0]
              exact hd0
      have hbQhead : bodyQ = [] ∨ ∃ c, bodyQ.head? = some c ∧ delim3 c = true := by
        rcases HQ with ⟨hb, -, -⟩ | ⟨hbFeq, -⟩
        · rw [hb]; exact hbFhead
        · rcases hbq : bodyQ with _ | ⟨d, ds⟩
          · exact Or.inl rfl
          · right
            refine ⟨d, rfl, ?_⟩
            rcases hbFhead with h0 | ⟨c0, hc0, hd0⟩
            · rw [h0] at hbFeq
              exact absurd hbFeq.symm (by simp [hbq])
            · rw [hbFeq, head?_append_left _ _ (by rw [hbq]; simp), hbq] at hc0
              simp only [List.head?_cons, Option.some.injEq] at hc0
              rw [hc0]
              exact hd0
      rcases hpt : pth with _ | ⟨d, ds⟩
      · exact Or.inl rfl
      · right; left
        obtain ⟨t3, ht3⟩ := hbQshape
        rcases hbQhead with h0 | ⟨c0, hc0, hd0⟩
        · rw [h0] at ht3
          exact absurd ht3.symm (by simp [hpt])
        · rw [ht3, head?_append_left _ _ (by rw [hpt]; simp), hpt] at hc0
          simp only [List.head?_cons, Option.some.injEq] at hc0
          have hdelim : delim3 d = true := hc0 ▸ hd0
          have hdno : d ≠ '#' ∧ d ≠ '?' := by
            have hdmem : d ∈ pth := by
              rw [hpt]
              exact List.mem_cons_self _ _
            constructor
            · intro he
              rw [he] at hdmem
              exact hbFhash (hbQsub _ (hpthsub _ hdmem))
            · intro he
              rw [he] at hdmem
              exact hbQq (hpthsub _ hdmem)
          have hd47 : d = '/' := by
            unfold delim3 at hdelim
            simp only [Bool.or_eq_true, beq_iff_eq] at hdelim
            rcases hdelim with (h1 | h1) | h1
            · exact h1
            · exact absurd h1 hdno.2
            · exact absurd h1 hdno.1
          rw [hd47]
          rfl

/-- The `url[:1] != '/'` fix-up of `urlunsplit`. -/
def slashFix (url0 : List Char) : List Char :=
  if url0 ≠ [] ∧ url0.head? ≠ some '/' then '/' :: url0 else url0

/-- The netloc-emission condition of `urlunsplit`. -/
def unparseCond (p : UrlParts) : Prop :=
  p.netloc ≠ [] ∨ (p.scheme ≠ [] ∧ String.mk p.scheme ∈ usesNetloc ∧
    (rejoinParams p.path p.params).take 2 ≠ ['/', '/'])

instance (p : UrlParts) : Decidable (unparseCond p) := by
  unfold unparseCond
  infer_instance

/-- The netloc-and-path part of the reassembled URL. -/
def urlBody (p : UrlParts) : List Char :=
  if unparseCond p then
    '/' :: '/' :: (p.netloc ++ slashFix (rejoinParams p.path p.params))
  else rejoinParams p.path p.params

set_option maxHeartbeats 1000000 in
lemma urlunparseList_eq (p : UrlParts) (hfrag : p.fragment = []) :
    urlunparseList p =
      (if p.scheme = [] then urlBody p else p.scheme ++ ':' :: urlBody p) ++
      (if p.query = [] then [] else '?' :: p.query) := by
  unfold urlunparseList urlBody unparseCond slashFix
  simp only []
  by_cases h4 : p.query = [] <;> by_cases h2 : p.scheme = [] <;>
    simp [h4, h2, hfrag, List.append_nil]

lemma mem_rejoinParams (a b : List Char) (c : Char) (h : c ∈ rejoinParams a b) :
    c ∈ a ∨ c = ';' ∨ c ∈ b := by
  unfold rejoinParams at h
  by_cases hb : b = []
  · rw [if_pos hb, List.append_nil] at h
    exact Or.inl h
  · rw [if_neg hb] at h
    rcases List.mem_append.mp h with h | h
    · exact Or.inl h
    · rcases List.mem_cons.mp h with h | h
      · exact Or.inr (Or.inl h)
      · exact Or.inr (Or.inr h)

lemma mem_slashFix (u : List Char) (c : Char) (h : c ∈ slashFix u) :
    c ∈ u ∨ c = '/' := by
  unfold slashFix at h
  by_cases hcnd : u ≠ [] ∧ u.head? ≠ some '/'
  · rw [if_pos hcnd] at h
    rcases List.mem_cons.mp h with h | h
    · exact Or.inr h
    · exact Or.inl h
  · rw [if_neg hcnd] at h
    exact Or.inl h

lemma mem_urlBody (p : UrlParts) (c : Char) (h : c ∈ urlBody p) :
    c ∈ p.netloc ∨ c ∈ p.path ∨ c ∈ p.params ∨ c = '/' ∨ c = ';' := by
  unfold urlBody at h
  by_cases hcond : unparseCond p
  · rw [if_pos hcond] at h
    rcases List.mem_cons.mp h with h | h
    · exact Or.inr (Or.inr (Or.inr (Or.inl h)))
    rcases List.mem_cons.mp h with h | h
    · exact Or.inr (Or.inr (Or.inr (Or.inl h)))
    rcases List.mem_append.mp h with h | h
    · exact Or.inl h
    rcases mem_slashFix _ _ h with h | h
    · rcases mem_rejoinParams _ _ _ h with h | h | h
      · exact Or.inr (Or.inl h)
      · exact Or.inr (Or.inr (Or.inr (Or.inr h)))
      · exact Or.inr (Or.inr (Or.inl h))
    · exact Or.inr (Or.inr (Or.inr (Or.inl h)))
  · rw [if_neg hcond] at h
    rcases mem_rejoinParams _ _ _ h with h | h | h
    · exact Or.inr (Or.inl h)
    · exact Or.inr (Or.inr (Or.inr (Or.inr h)))
    · exact Or.inr (Or.inr (Or.inl h))

lemma mem_urlunparseList (p : UrlParts) (hfrag : p.fragment = []) (c : Char)
    (h : c ∈ urlunparseList p) :
    c ∈ p.scheme ∨ c ∈ p.netloc ∨ c ∈ p.path ∨ c ∈ p.params ∨ c ∈ p.query ∨
    c = '/' ∨ c = ':' ∨ c = ';' ∨ c = '?' := by
  rw [urlunparseList_eq p hfrag] at h
  have hbody : c ∈ urlBody p →
      c ∈ p.scheme ∨ c ∈ p.netloc ∨ c ∈ p.path ∨ c ∈ p.params ∨ c ∈ p.query ∨
      c = '/' ∨ c = ':' ∨ c = ';' ∨ c = '?' := by
    intro hb
    rcases mem_urlBody p c hb with h0 | h0 | h0 | h0 | h0
    · exact Or.inr (Or.inl h0)
    · exact Or.inr (Or.inr (Or.inl h0))
    · exact Or.inr (Or.inr (Or.inr (Or.inl h0)))
    · exact Or.inr (Or.inr (Or.inr (Or.inr (Or.inr (Or.inl h0)))))
    · exact Or.inr (Or.inr (Or.inr (Or.inr (Or.inr (Or.inr (Or.inr (Or.inl h0)))))))
  rcases List.mem_append.mp h with h | h
  · by_cases hs : p.scheme = []
    · rw [if_pos hs] at h
      exact hbody h
    · rw [if_neg hs] at h
      rcases List.mem_append.mp h with h | h
      · exact Or.inl h
      rcases List.mem_cons.mp h with h | h
      · exact Or.inr (Or.inr (Or.inr (Or.inr (Or.inr (Or.inr (Or.inl h))))))
      · exact hbody h
  · by_cases hq : p.query = []
    · rw [if_pos hq] at h
      simp at h
    · rw [if_neg hq] at h
      rcases List.mem_cons.mp h with h | h
      · exact Or.inr (Or.inr (Or.inr (Or.inr (Or.inr (Or.inr (Or.inr (Or.inr h)))))))
      · exact Or.inr (Or.inr (Or.inr (Or.inr (Or.inl h))))

lemma urlparseList_build (hc : List Char → Bool)
    (u sch r1 nl r2 bodyQ qry pth prm : List Char)
    (hclean : urlsplitClean u = u)
    (hss : splitScheme u = (sch, r1))
    (hsn : splitNetloc hc r1 = some (nl, r2))
    (hfr : splitSep '#' r2 = (r2, []))
    (hqr : splitSep '?' r2 = (bodyQ, qry))
    (hpp : splitParams sch bodyQ = (pth, prm)) :
    urlparseList hc u = some ⟨sch, nl, pth, prm, qry, []⟩ := by
  unfold urlparseList
  simp only []
  rw [hclean, hss]
  simp only []
  rw [hsn]
  simp only []
  rw [hfr]
  simp only []
  rw [hqr]
  simp only []
  rw [hpp]

lemma urlparseList_buildFail (hc : List Char → Bool) (u sch r1 : List Char)
    (hclean : urlsplitClean u = u)
    (hss : splitScheme u = (sch, r1))
    (hsn : splitNetloc hc r1 = none) :
    urlparseList hc u = none := by
  unfold urlparseList
  simp only []
  rw [hclean, hss]
  simp only []
  rw [hsn]

lemma map_id_of_fix (f : Char → Char) (l : List Char) (h : ∀ c ∈ l, f c = c) :
    l.map f = l := by
  induction l with
  | nil => rfl
  | cons c t ih =>
    rw [List.map_cons, h c (List.mem_cons_self _ _),
      ih (fun x hx => h x (List.mem_cons_of_mem _ hx))]

lemma slashFix_cases (u : List Char) :
    (u = [] ∧ slashFix u = []) ∨
    (u.head? = some '/' ∧ slashFix u = u) ∨
    (u ≠ [] ∧ u.head? ≠ some '/' ∧ slashFix u = '/' :: u) := by
  unfold slashFix
  by_cases h : u ≠ [] ∧ u.head? ≠ some '/'
  · rw [if_pos h]
    exact Or.inr (Or.inr ⟨h.1, h.2, rfl⟩)
  · rw [if_neg h]
    push_neg at h
    by_cases hu : u = []
    · exact Or.inl ⟨hu, hu ▸ rfl⟩
    · exact Or.inr (Or.inl ⟨h hu, rfl⟩)

lemma rejoinParams_cons_head (c : Char) (a b : List Char) :
    rejoinParams (c :: a) b = c :: rejoinParams a b := rfl

lemma reparse_cond_true (hc : List Char → Bool) (p : UrlParts)
    (hfrag : p.fragment = [])
    (hS : p.scheme = [] ∨ ((∃ c, p.scheme.head? = some c ∧ c.isAlpha = true) ∧
      p.scheme.all schemeChar = true))
    (hSlow : p.scheme.map lowerChar = p.scheme)
    (hN : ∀ c ∈ p.netloc, delim3 c = false)
    (hA : ∀ c ∈ p.path, c ≠ '#' ∧ c ≠ '?')
    (hB : ∀ c ∈ p.params, c ≠ '#' ∧ c ≠ '?')
    (hQ : ∀ c ∈ p.query, c ≠ '#')
    (hpp : ppInv p.scheme p.path p.params)
    (hclean : urlsplitClean (urlunparseList p) = urlunparseList p)
    (hcond : unparseCond p) :
    urlparseList hc (urlunparseList p) = none ∨
      ∃ p₂ : UrlParts, urlparseList hc (urlunparseList p) = some p₂ ∧
        p₂.query = p.query ∧
        urlunparseList { p₂ with query := p.query, fragment := [] } =
          urlunparseList p := by
  have hveq := urlunparseList_eq p hfrag
  set U0 := rejoinParams p.path p.params with hU0
  set SF := slashFix U0 with hSF
  have hbody : urlBody p = '/' :: '/' :: (p.netloc ++ SF) := by
    unfold urlBody
    rw [if_pos hcond]
  -- characters of U0 and SF
  have hU0mem : ∀ c ∈ U0, c ≠ '#' ∧ c ≠ '?' := by
    intro c hcm
    rcases mem_rejoinParams _ _ _ hcm with h0 | h0 | h0
    · exact hA c h0
    · subst h0; exact ⟨by decide, by decide⟩
    · exact hB c h0
  have hSFmem : ∀ c ∈ SF, c ≠ '#' ∧ c ≠ '?' := by
    intro c hcm
    rcases mem_slashFix _ _ hcm with h0 | h0
    · exact hU0mem c h0
    · subst h0; exact ⟨by decide, by decide⟩
  set Qt := (if p.query = [] then [] else '?' :: p.query) with hQt
  have hQtmem : ∀ c ∈ Qt, c ≠ '#' := by
    intro c hcm
    rw [hQt] at hcm
    by_cases hq : p.query = []
    · rw [if_pos hq] at hcm; simp at hcm
    · rw [if_neg hq] at hcm
      rcases List.mem_cons.mp hcm with h0 | h0
      · subst h0; decide
      · exact hQ c h0
  set W := SF ++ Qt with hW
  have hWhash : '#' ∉ W := by
    intro hcm
    rcases List.mem_append.mp hcm with h0 | h0
    · exact (hSFmem _ h0).1 rfl
    · exact hQtmem _ h0 rfl
  have hWshape : W = [] ∨ ∃ c, W.head? = some c ∧ delim3 c = true := by
    rcases slashFix_cases U0 with ⟨h0, hfix⟩ | ⟨h0, hfix⟩ | ⟨h0, h1, hfix⟩
    · rw [hW, ← hSF] at *
      rw [hSF, hfix, List.nil_append]
      by_cases hq : p.query = []
      · rw [hQt, if_pos hq]
        exact Or.inl rfl
      · rw [hQt, if_neg hq]
        exact Or.inr ⟨'?', rfl, by decide⟩
    · right
      have hSFh : SF.head? = some '/' := by rw [hSF, hfix]; exact h0
      refine ⟨'/', ?_, by decide⟩
      rw [hW, head?_append_left _ _ ?_, hSFh]
      intro hnil
      rw [hnil] at hSFh
      simp at hSFh
    · right
      have hSFh : SF.head? = some '/' := by rw [hSF, hfix]; rfl
      refine ⟨'/', ?_, by decide⟩
      rw [hW, head?_append_left _ _ ?_, hSFh]
      intro hnil
      rw [hnil] at hSFh
      simp at hSFh
  -- the reassembled URL
  have hvform : urlunparseList p =
      (if p.scheme = [] then ('/' :: '/' :: (p.netloc ++ SF))
        else p.scheme ++ ':' :: ('/' :: '/' :: (p.netloc ++ SF))) ++ Qt := by
    rw [hveq, hbody]
  -- stage 1 : scheme split
  have hstage1 : splitScheme (urlunparseList p) =
      (p.scheme, '/' :: '/' :: (p.netloc ++ W)) := by
    by_cases hs : p.scheme = []
    · rw [hvform, if_pos hs, hs]
      have : ('/' :: '/' :: (p.netloc ++ SF)) ++ Qt =
          '/' :: '/' :: (p.netloc ++ W) := by
        rw [hW]
        simp [List.append_assoc]
      rw [this]
      apply splitScheme_neg
      apply notGood_head
      intro c hcd
      simp only [List.head?_cons, Option.some.injEq] at hcd
      subst hcd
      decide
    · rcases hS with hS | ⟨⟨c0, hc0, hc0a⟩, hall⟩
      · exact absurd hS hs
      have : urlunparseList p =
          p.scheme ++ ':' :: ('/' :: '/' :: (p.netloc ++ W)) := by
        rw [hvform, if_neg hs, hW]
        simp [List.append_assoc]
      rw [this, splitScheme_pos _ _ hs ?_ hall, hSlow]
      intro c hcd
      rw [hcd] at hc0
      injection hc0 with hc0
      rw [← hc0] at hc0a
      exact hc0a
  -- stage 2 : netloc split
  by_cases hok : (p.netloc.contains '[' != p.netloc.contains ']') = false ∧
      hc p.netloc = true
  swap
  · left
    apply urlparseList_buildFail hc _ p.scheme _ hclean hstage1
    apply splitNetloc_pos_fail hc _ _ hN hWshape
    by_cases hbr : (p.netloc.contains '[' != p.netloc.contains ']') = true
    · exact Or.inl hbr
    · right
      simp only [Bool.not_eq_true] at hbr
      rcases hhcv : hc p.netloc with _ | _
      · rfl
      · exact absurd ⟨hbr, hhcv⟩ hok
  have hstage2 : splitNetloc hc ('/' :: '/' :: (p.netloc ++ W)) =
      some (p.netloc, W) :=
    splitNetloc_pos hc _ _ hN hWshape hok.1 hok.2
  -- stage 3 : no fragment
  have hstage3 : splitSep '#' W = (W, []) := splitSep_not_mem '#' W hWhash
  -- stage 4 : query split
  have hSFq : '?' ∉ SF := fun hm => (hSFmem _ hm).2 rfl
  have hstage4 : splitSep '?' W = (SF, p.query) := by
    by_cases hq : p.query = []
    · rw [hW, hQt, if_pos hq, List.append_nil, hq]
      exact splitSep_not_mem '?' SF hSFq
    · rw [hW, hQt, if_neg hq]
      exact splitSep_pos '?' SF p.query (fun c hm he => (hSFmem c hm).2 he)
  -- stage 5 : params split, three shapes of the fixed path
  rcases slashFix_cases U0 with ⟨h0, hfix⟩ | ⟨h0, hfix⟩ | ⟨h0, h1, hfix⟩
  · -- empty path part
    have hSFnil : SF = [] := by rw [hSF, hfix]
    have hstage5 : splitParams p.scheme SF = ([], []) := by
      rw [hSFnil]
      unfold splitParams
      rw [if_neg]
      rintro ⟨-, hcn⟩
      simp [List.contains] at hcn
    right
    refine ⟨⟨p.scheme, p.netloc, [], [], p.query, []⟩, ?_, rfl, ?_⟩
    · exact urlparseList_build hc _ _ _ _ _ _ _ _ _ hclean hstage1 hstage2
        hstage3 hstage4 hstage5
    · rw [urlunparseList_eq _ rfl, hvform]
      have hcond2 : unparseCond ⟨p.scheme, p.netloc, [], [], p.query, []⟩ := by
        unfold unparseCond
        rcases hcond with hcond | ⟨hs, hmem, -⟩
        · exact Or.inl hcond
        · right
          exact ⟨hs, hmem, by simp [rejoinParams_nil]⟩
      have hbody2 : urlBody ⟨p.scheme, p.netloc, [], [], p.query, []⟩ =
          '/' :: '/' :: (p.netloc ++ SF) := by
        unfold urlBody
        rw [if_pos hcond2]
        simp only []
        rw [rejoinParams_nil]
        unfold slashFix
        rw [if_neg (by simp)]
        rw [hSFnil]
      rw [hbody2]
  · -- path part already starts with a slash
    have hSFU0 : SF = U0 := by rw [hSF, hfix]
    have hstage5 : splitParams p.scheme SF = (p.path, p.params) := by
      rw [hSFU0, hU0]
      exact splitParams_build _ _ _ hpp
    right
    refine ⟨⟨p.scheme, p.netloc, p.path, p.params, p.query, []⟩, ?_, rfl, ?_⟩
    · exact urlparseList_build hc _ _ _ _ _ _ _ _ _ hclean hstage1 hstage2
        hstage3 hstage4 hstage5
    · rw [urlunparseList_eq _ rfl, hvform]
      have hcond2 : unparseCond ⟨p.scheme, p.netloc, p.path, p.params,
          p.query, []⟩ := by
        unfold unparseCond
        rcases hcond with hcond | ⟨hs, hmem, ht⟩
        · exact Or.inl hcond
        · exact Or.inr ⟨hs, hmem, ht⟩
      have hbody2 : urlBody ⟨p.scheme, p.netloc, p.path, p.params, p.query, []⟩ =
          '/' :: '/' :: (p.netloc ++ SF) := by
        unfold urlBody
        rw [if_pos hcond2]
      rw [hbody2]
  · -- path part gains a leading slash
    have hSFU0 : SF = '/' :: U0 := by rw [hSF, hfix]
    have hstage5 : splitParams p.scheme SF = ('/' :: p.path, p.params) := by
      rw [hSFU0, hU0]
      exact splitParams_build_slash _ _ _ hpp
    right
    refine ⟨⟨p.scheme, p.netloc, '/' :: p.path, p.params, p.query, []⟩, ?_,
      rfl, ?_⟩
    · exact urlparseList_build hc _ _ _ _ _ _ _ _ _ hclean hstage1 hstage2
        hstage3 hstage4 hstage5
    · rw [urlunparseList_eq _ rfl, hvform]
      have hrj : rejoinParams ('/' :: p.path) p.params = '/' :: U0 := by
        rw [rejoinParams_cons_head, ← hU0]
      have hcond2 : unparseCond ⟨p.scheme, p.netloc, '/' :: p.path, p.params,
          p.query, []⟩ := by
        unfold unparseCond
        rcases hcond with hcond | ⟨hs, hmem, -⟩
        · exact Or.inl hcond
        · right
          refine ⟨hs, hmem, ?_⟩
          simp only []
          rw [hrj]
          rcases hU0c : U0 with _ | ⟨d, ds⟩
          · exact absurd hU0c h0
          · intro htk
            simp only [List.take_succ_cons, List.take_zero] at htk
            apply h1
            have := congrArg (fun l => l.tail.head?) htk
            simp at this
            rw [hU0c]
            rw [List.head?_cons, this]
      have hbody2 : urlBody ⟨p.scheme, p.netloc, '/' :: p.path, p.params,
          p.query, []⟩ = '/' :: '/' :: (p.netloc ++ SF) := by
        unfold urlBody
        rw [if_pos hcond2]
        simp only []
        rw [hrj]
        unfold slashFix
        rw [if_neg (by simp)]
        rw [hSFU0]
      rw [hbody2]

lemma qtail_shape (q : List Char) :
    (if q = [] then ([] : List Char) else '?' :: q) = [] ∨
    ((if q = [] then ([] : List Char) else '?' :: q)).head? = some '?' := by
  by_cases hq : q = []
  · rw [if_pos hq]; exact Or.inl rfl
  · rw [if_neg hq]; exact Or.inr rfl

lemma reparse_cond_false_noslash (hc : List Char → Bool) (p : UrlParts)
    (hfrag : p.fragment = [])
    (hS : p.scheme = [] ∨ ((∃ c, p.scheme.head? = some c ∧ c.isAlpha = true) ∧
      p.scheme.all schemeChar = true))
    (hSlow : p.scheme.map lowerChar = p.scheme)
    (hA : ∀ c ∈ p.path, c ≠ '#' ∧ c ≠ '?')
    (hB : ∀ c ∈ p.params, c ≠ '#' ∧ c ≠ '?')
    (hQ : ∀ c ∈ p.query, c ≠ '#')
    (hpp : ppInv p.scheme p.path p.params)
    (hclean : urlsplitClean (urlunparseList p) = urlunparseList p)
    (hn : p.netloc = [])
    (hsm : p.scheme = [] ∨ String.mk p.scheme ∉ usesNetloc)
    (htake : (rejoinParams p.path p.params).take 2 ≠ ['/', '/'])
    (hnogood : p.scheme = [] → (p.path = [] ∨ p.path.head? = some '/' ∨
      ∃ t, ¬goodScheme (p.path ++ t))) :
    urlparseList hc (urlunparseList p) = none ∨
      ∃ p₂ : UrlParts, urlparseList hc (urlunparseList p) = some p₂ ∧
        p₂.query = p.query ∧
        urlunparseList { p₂ with query := p.query, fragment := [] } =
          urlunparseList p := by
  have hveq := urlunparseList_eq p hfrag
  set U0 := rejoinParams p.path p.params with hU0
  have hncond : ¬unparseCond p := by
    rintro (hcond | ⟨hs, hmem, ht⟩)
    · exact hcond hn
    · rcases hsm with h0 | h0
      · exact hs h0
      · exact h0 hmem
  have hbody : urlBody p = U0 := by
    unfold urlBody
    rw [if_neg hncond]
  set Qt := (if p.query = [] then [] else '?' :: p.query) with hQt
  have hvform : urlunparseList p =
      (if p.scheme = [] then U0 else p.scheme ++ ':' :: U0) ++ Qt := by
    rw [hveq, hbody]
  have hU0mem : ∀ c ∈ U0, c ≠ '#' ∧ c ≠ '?' := by
    intro c hcm
    rcases mem_rejoinParams _ _ _ hcm with h0 | h0 | h0
    · exact hA c h0
    · subst h0; exact ⟨by decide, by decide⟩
    · exact hB c h0
  have hQtmem : ∀ c ∈ Qt, c ≠ '#' := by
    intro c hcm
    rw [hQt] at hcm
    by_cases hq : p.query = []
    · rw [if_pos hq] at hcm; simp at hcm
    · rw [if_neg hq] at hcm
      rcases List.mem_cons.mp hcm with h0 | h0
      · subst h0; decide
      · exact hQ c h0
  -- stage 1
  have hstage1 : splitScheme (urlunparseList p) = (p.scheme, U0 ++ Qt) := by
    by_cases hs : p.scheme = []
    · rw [hvform, if_pos hs, hs]
      apply splitScheme_neg
      -- decompose U0 into path and the params/query tail
      have hw : ∃ w, U0 ++ Qt = p.path ++ w ∧
          (w = [] ∨ w.head? = some ';' ∨ w.head? = some '?') := by
        rcases hprm : p.params with _ | ⟨d, ds⟩
        · refine ⟨Qt, ?_, ?_⟩
          · rw [hU0, hprm, rejoinParams_nil]
          · rcases qtail_shape p.query with h0 | h0
            · rw [hQt]
              exact Or.inl h0
            · rw [hQt]
              exact Or.inr (Or.inr h0)
        · refine ⟨';' :: (d :: ds) ++ Qt, ?_, Or.inr (Or.inl rfl)⟩
          rw [hU0, hprm, rejoinParams_cons _ _ (List.cons_ne_nil d ds)]
          simp [List.append_assoc]
      obtain ⟨w, hweq, hwshape⟩ := hw
      rw [hweq]
      rcases hnogood hs with hp0 | hp0 | ⟨t, hp0⟩
      · rw [hp0, List.nil_append]
        apply notGood_head
        intro c hcd
        rcases hwshape with h0 | h0 | h0
        · rw [h0] at hcd; simp at hcd
        · rw [h0] at hcd; injection hcd with hcd; subst hcd; decide
        · rw [h0] at hcd; injection hcd with hcd; subst hcd; decide
      · apply notGood_head
        intro c hcd
        rcases hpth : p.path with _ | ⟨d, ds⟩
        · rw [hpth] at hp0; simp at hp0
        · rw [hpth, List.cons_append, List.head?_cons] at hcd
          injection hcd with hcd
          rw [hpth, List.head?_cons] at hp0
          injection hp0 with hp0
          rw [← hcd, hp0]
          decide
      · exact notGood_extend p.path t w hp0 hwshape
    · rcases hS with hS | ⟨⟨c0, hc0, hc0a⟩, hall⟩
      · exact absurd hS hs
      have : urlunparseList p = p.scheme ++ ':' :: (U0 ++ Qt) := by
        rw [hvform, if_neg hs]
        simp [List.append_assoc]
      rw [this, splitScheme_pos _ _ hs ?_ hall, hSlow]
      intro c hcd
      rw [hcd] at hc0
      injection hc0 with hc0
      rw [← hc0] at hc0a
      exact hc0a
  -- stage 2 : no authority
  have hstage2 : splitNetloc hc (U0 ++ Qt) = some ([], U0 ++ Qt) := by
    apply splitNetloc_no_slashes
    rcases hU0c : U0 with _ | ⟨c1, _ | ⟨c2, t⟩⟩
    · rw [List.nil_append]
      by_cases hq : p.query = []
      · rw [hQt, if_pos hq]
        simp
      · rw [hQt, if_neg hq]
        intro htk
        have h1 := congrArg List.head? htk
        simp at h1
    · rw [List.singleton_append]
      intro htk
      have hb := congrArg List.tail htk
      simp only [List.take_succ_cons, List.take_zero, List.tail_cons] at hb
      by_cases hq : p.query = []
      · rw [hQt, if_pos hq] at hb
        simp at hb
      · rw [hQt, if_neg hq] at hb
        have h1 := congrArg List.head? hb
        simp at h1
    · intro htk
      apply htake
      rw [hU0c]
      simp only [List.cons_append, List.take_succ_cons, List.take_zero] at htk ⊢
      injection htk with ha hb
      injection hb with hb
      rw [ha, hb]
  rw [← hn] at hstage2
  -- stage 3
  have hstage3 : splitSep '#' (U0 ++ Qt) = (U0 ++ Qt, []) := by
    apply splitSep_not_mem
    intro hcm
    rcases List.mem_append.mp hcm with h0 | h0
    · exact (hU0mem _ h0).1 rfl
    · exact hQtmem _ h0 rfl
  -- stage 4
  have hstage4 : splitSep '?' (U0 ++ Qt) = (U0, p.query) := by
    by_cases hq : p.query = []
    · rw [hQt, if_pos hq, List.append_nil, hq]
      exact splitSep_not_mem '?' U0 (fun hm => (hU0mem _ hm).2 rfl)
    · rw [hQt, if_neg hq]
      exact splitSep_pos '?' U0 p.query (fun c hm he => (hU0mem c hm).2 he)
  -- stage 5
  have hstage5 : splitParams p.scheme U0 = (p.path, p.params) := by
    rw [hU0]
    exact splitParams_build _ _ _ hpp
  right
  refine ⟨⟨p.scheme, p.netloc, p.path, p.params, p.query, []⟩, ?_, rfl, ?_⟩
  · exact urlparseList_build hc _ _ _ _ _ _ _ _ _ hclean hstage1 hstage2
      hstage3 hstage4 hstage5
  · rw [urlunparseList_eq _ rfl, hvform]
    have hncond2 : ¬unparseCond ⟨p.scheme, p.netloc, p.path, p.params,
        p.query, []⟩ := by
      rintro (hcond | ⟨hs, hmem, ht⟩)
      · exact hcond hn
      · rcases hsm with h0 | h0
        · exact hs h0
        · exact h0 hmem
    have hbody2 : urlBody ⟨p.scheme, p.netloc, p.path, p.params, p.query, []⟩ =
        U0 := by
      unfold urlBody
      rw [if_neg hncond2]
    rw [hbody2]

lemma reparse_cond_false_slash (hc : List Char → Bool) (p : UrlParts)
    (hfrag : p.fragment = [])
    (hS : p.scheme = [] ∨ ((∃ c, p.scheme.head? = some c ∧ c.isAlpha = true) ∧
      p.scheme.all schemeChar = true))
    (hSlow : p.scheme.map lowerChar = p.scheme)
    (hA : ∀ c ∈ p.path, c ≠ '#' ∧ c ≠ '?')
    (hB : ∀ c ∈ p.params, c ≠ '#' ∧ c ≠ '?')
    (hQ : ∀ c ∈ p.query, c ≠ '#')
    (hpp : ppInv p.scheme p.path p.params)
    (hclean : urlsplitClean (urlunparseList p) = urlunparseList p)
    (hn : p.netloc = [])
    (hncond : ¬unparseCond p)
    (htake : (rejoinParams p.path p.params).take 2 = ['/', '/'])
    (hh3 : ∀ rest, (splitScheme (urlunparseList p)).2 = '/' :: '/' :: rest →
      ∃ c, rest.head? = some c ∧ delim3 c = false) :
    urlparseList hc (urlunparseList p) = none ∨
      ∃ p₂ : UrlParts, urlparseList hc (urlunparseList p) = some p₂ ∧
        p₂.query = p.query ∧
        urlunparseList { p₂ with query := p.query, fragment := [] } =
          urlunparseList p := by
  have hveq := urlunparseList_eq p hfrag
  set U0 := rejoinParams p.path p.params with hU0
  have hbody : urlBody p = U0 := by
    unfold urlBody
    rw [if_neg hncond]
  set Qt := (if p.query = [] then [] else '?' :: p.query) with hQt
  have hvform : urlunparseList p =
      (if p.scheme = [] then U0 else p.scheme ++ ':' :: U0) ++ Qt := by
    rw [hveq, hbody]
  have hU0mem : ∀ c ∈ U0, c ≠ '#' ∧ c ≠ '?' := by
    intro c hcm
    rcases mem_rejoinParams _ _ _ hcm with h0 | h0 | h0
    · exact hA c h0
    · subst h0; exact ⟨by decide, by decide⟩
    · exact hB c h0
  have hQtmem : ∀ c ∈ Qt, c ≠ '#' := by
    intro c hcm
    rw [hQt] at hcm
    by_cases hq : p.query = []
    · rw [if_pos hq] at hcm; simp at hcm
    · rw [if_neg hq] at hcm
      rcases List.mem_cons.mp hcm with h0 | h0
      · subst h0; decide
      · exact hQ c h0
  -- decompose the doubled slash
  rcases hU0c : U0 with _ | ⟨c1, _ | ⟨c2, t⟩⟩
  · rw [hU0c] at htake; simp at htake
  · rw [hU0c] at htake; simp at htake
  have hc1 : c1 = '/' := by
    rw [hU0c] at htake
    have := congrArg List.head? htake
    simpa using this
  have hc2 : c2 = '/' := by
    rw [hU0c] at htake
    have := congrArg (fun l => l.tail.head?) htake
    simpa using this
  subst hc1; subst hc2
  -- stage 1
  have hstage1 : splitScheme (urlunparseList p) =
      (p.scheme, U0 ++ Qt) := by
    by_cases hs : p.scheme = []
    · rw [hvform, if_pos hs, hs]
      apply splitScheme_neg
      apply notGood_head
      intro c hcd
      rw [hU0c, List.cons_append, List.head?_cons] at hcd
      injection hcd with hcd
      subst hcd
      decide
    · rcases hS with hS | ⟨⟨c0, hc0, hc0a⟩, hall⟩
      · exact absurd hS hs
      have : urlunparseList p = p.scheme ++ ':' :: (U0 ++ Qt) := by
        rw [hvform, if_neg hs]
        simp [List.append_assoc]
      rw [this, splitScheme_pos _ _ hs ?_ hall, hSlow]
      intro c hcd
      rw [hcd] at hc0
      injection hc0 with hc0
      rw [← hc0] at hc0a
      exact hc0a
  -- the remainder after the double slash must start with a non-delimiter
  have hrest : U0 ++ Qt = '/' :: '/' :: (t ++ Qt) := by
    rw [hU0c]
    rfl
  obtain ⟨c, hchead, hcdelim⟩ := hh3 (t ++ Qt) (by rw [hstage1, hrest])
  have ht : ∃ t', t = c :: t' := by
    rcases htc : t with _ | ⟨d, t'⟩
    · exfalso
      rw [htc, List.nil_append] at hchead
      by_cases hq : p.query = []
      · rw [hQt, if_pos hq] at hchead
        simp at hchead
      · rw [hQt, if_neg hq] at hchead
        injection hchead with hchead
        rw [← hchead] at hcdelim
        exact absurd hcdelim (by decide)
    · rw [htc, List.cons_append, List.head?_cons] at hchead
      injection hchead with hchead
      rw [← hchead]
      exact ⟨t', rfl⟩
  obtain ⟨t', htc⟩ := ht
  -- netloc and remainder of the reparse
  set M := t.takeWhile (fun c => !(delim3 c)) with hM
  set w := t.dropWhile (fun c => !(delim3 c)) with hw
  have hMw : t = M ++ w := by
    rw [hM, hw, List.takeWhile_append_dropWhile]
  have hMne : M ≠ [] := by
    rw [hM, htc, List.takeWhile_cons, if_pos (by rw [hcdelim]; rfl)]
    simp
  have hMnd : ∀ d ∈ M, delim3 d = false := by
    intro d hd
    have := mem_takeWhile_sat _ _ _ (hM ▸ hd)
    simpa using this
  have hwshape : w = [] ∨ ∃ d, w.head? = some d ∧ delim3 d = true := by
    rcases hwc : w with _ | ⟨d, ds⟩
    · exact Or.inl rfl
    · right
      refine ⟨d, rfl, ?_⟩
      have := dropWhile_head_false _ t d ds (by rw [← hw]; exact hwc)
      simpa using this
  have htmem : ∀ d ∈ t, d ≠ '#' ∧ d ≠ '?' := by
    intro d hd
    apply hU0mem
    rw [hU0c]
    exact List.mem_cons_of_mem _ (List.mem_cons_of_mem _ hd)
  have hwQshape : w ++ Qt = [] ∨
      ∃ d, (w ++ Qt).head? = some d ∧ delim3 d = true := by
    rcases hwshape with h0 | ⟨d, hd1, hd2⟩
    · rw [h0, List.nil_append]
      by_cases hq : p.query = []
      · rw [hQt, if_pos hq]
        exact Or.inl rfl
      · rw [hQt, if_neg hq]
        exact Or.inr ⟨'?', rfl, by decide⟩
    · right
      refine ⟨d, ?_, hd2⟩
      rw [head?_append_left _ _ ?_, hd1]
      intro hnil
      rw [hnil] at hd1
      simp at hd1
  -- stage 2 with the host checks of the new netloc
  by_cases hok : (M.contains '[' != M.contains ']') = false ∧ hc M = true
  swap
  · left
    apply urlparseList_buildFail hc _ p.scheme _ hclean
    · rw [hstage1, hrest, hMw, List.append_assoc]
    · apply splitNetloc_pos_fail hc _ _ hMnd hwQshape
      by_cases hbr : (M.contains '[' != M.contains ']') = true
      · exact Or.inl hbr
      · right
        simp only [Bool.not_eq_true] at hbr
        rcases hhcv : hc M with _ | _
        · rfl
        · exact absurd ⟨hbr, hhcv⟩ hok
  have hstage1' : splitScheme (urlunparseList p) =
      (p.scheme, '/' :: '/' :: (M ++ (w ++ Qt))) := by
    rw [hstage1, hrest, hMw, List.append_assoc]
  have hstage2 : splitNetloc hc ('/' :: '/' :: (M ++ (w ++ Qt))) =
      some (M, w ++ Qt) :=
    splitNetloc_pos hc _ _ hMnd hwQshape hok.1 hok.2
  -- stage 3
  have hstage3 : splitSep '#' (w ++ Qt) = (w ++ Qt, []) := by
    apply splitSep_not_mem
    intro hcm
    rcases List.mem_append.mp hcm with h0 | h0
    · exact (htmem _ (hMw ▸ List.mem_append.mpr (Or.inr h0))).1 rfl
    · exact hQtmem _ h0 rfl
  -- stage 4
  have hwq : '?' ∉ w :=
    fun hm => (htmem _ (hMw ▸ List.mem_append.mpr (Or.inr hm))).2 rfl
  have hstage4 : splitSep '?' (w ++ Qt) = (w, p.query) := by
    by_cases hq : p.query = []
    · rw [hQt, if_pos hq, List.append_nil, hq]
      exact splitSep_not_mem '?' w hwq
    · rw [hQt, if_neg hq]
      exact splitSep_pos '?' w p.query (fun d hm he => (htmem _
        (hMw ▸ List.mem_append.mpr (Or.inr hm))).2 he)
  -- stage 5 : params on a suffix of the original path starting at a slash
  have hwhead : w = [] ∨ w.head? = some '/' := by
    rcases hwshape with h0 | ⟨d, hd1, hd2⟩
    · exact Or.inl h0
    · right
      have hdmem : d ∈ w := head?_mem _ _ hd1
      have hdU : d ≠ '#' ∧ d ≠ '?' :=
        htmem _ (hMw ▸ List.mem_append.mpr (Or.inr hdmem))
      have hd47 : d = '/' := by
        unfold delim3 at hd2
        simp only [Bool.or_eq_true, beq_iff_eq] at hd2
        rcases hd2 with (h1 | h1) | h1
        · exact h1
        · exact absurd h1 hdU.2
        · exact absurd h1 hdU.1
      rw [hd1, hd47]
  have hsuf : rejoinParams p.path p.params = ('/' :: '/' :: M) ++ w := by
    rw [← hU0, hU0c, hMw]
    rfl
  have hstage5 := splitParams_suffix p.scheme p.path p.params _ w hpp hsuf hwhead
  rcases hsp : splitParams p.scheme w with ⟨pth2, prm2⟩
  rw [hsp] at hstage5
  simp only [] at hstage5
  right
  refine ⟨⟨p.scheme, M, pth2, prm2, p.query, []⟩, ?_, rfl, ?_⟩
  · exact urlparseList_build hc _ _ _ _ _ _ _ _ _ hclean hstage1' hstage2
      hstage3 hstage4 hsp
  · rw [urlunparseList_eq _ rfl, hvform]
    have hcond2 : unparseCond ⟨p.scheme, M, pth2, prm2, p.query, []⟩ :=
      Or.inl hMne
    have hbody2 : urlBody ⟨p.scheme, M, pth2, prm2, p.query, []⟩ = U0 := by
      unfold urlBody
      rw [if_pos hcond2]
      simp only []
      rw [hstage5]
      have hsf : slashFix w = w := by
        unfold slashFix
        rcases hwhead with h0 | h0
        · rw [if_neg]
          rintro ⟨hne, -⟩
          exact hne h0
        · rw [if_neg]
          rintro ⟨-, hne⟩
          exact hne h0
      rw [hsf, hU0c, hMw]
    rw [hbody2]

lemma unparse_head_ok (u0 : List Char) (p : UrlParts)
    (hfrag : p.fragment = [])
    (hS : p.scheme = [] ∨ ((∃ c, p.scheme.head? = some c ∧ c.isAlpha = true) ∧
      p.scheme.all schemeChar = true))
    (hpre : p.scheme = [] → p.netloc = [] →
      (p.path = [] ∨ p.path.head? = some '/' ∨
        ∃ t, urlsplitClean u0 = p.path ++ t)) :
    urlunparseList p = [] ∨
      ∃ c r, urlunparseList p = c :: r ∧ isC0OrSpace c = false := by
  rw [urlunparseList_eq p hfrag]
  by_cases hs : p.scheme = []
  swap
  · rw [if_neg hs]
    rcases hS with hS | ⟨⟨c0, hc0, hc0a⟩, -⟩
    · exact absurd hS hs
    rcases hsc : p.scheme with _ | ⟨d, ds⟩
    · exact absurd hsc hs
    rw [hsc, List.head?_cons] at hc0
    injection hc0 with hc0
    subst hc0
    right
    refine ⟨d, _, rfl, ?_⟩
    rw [isAlpha_iff_toNat] at hc0a
    unfold isC0OrSpace
    simp only [decide_eq_false_iff_not, not_le]
    omega
  rw [if_pos hs]
  by_cases hcond : unparseCond p
  · have hb : urlBody p = '/' :: '/' ::
        (p.netloc ++ slashFix (rejoinParams p.path p.params)) := by
      unfold urlBody
      rw [if_pos hcond]
    rw [hb]
    right
    exact ⟨'/', _, rfl, by decide⟩
  · have hb : urlBody p = rejoinParams p.path p.params := by
      unfold urlBody
      rw [if_neg hcond]
    rw [hb]
    have hn : p.netloc = [] := by
      by_contra hne
      exact hcond (Or.inl hne)
    rcases hpc : p.path with _ | ⟨d, ds⟩
    · rcases hbc : p.params with _ | ⟨e, es⟩
      · rw [rejoinParams_nil, List.nil_append]
        by_cases hq : p.query = []
        · rw [if_pos hq]
          exact Or.inl rfl
        · rw [if_neg hq]
          exact Or.inr ⟨'?', _, rfl, by decide⟩
      · rw [rejoinParams_cons _ _ (List.cons_ne_nil e es), List.nil_append]
        exact Or.inr ⟨';', _, rfl, by decide⟩
    · right
      refine ⟨d, _, rfl, ?_⟩
      rcases hpre hs hn with h0 | h0 | ⟨t, h0⟩
      · rw [hpc] at h0
        exact absurd h0 (List.cons_ne_nil d ds)
      · rw [hpc, List.head?_cons] at h0
        injection h0 with h0
        subst h0
        decide
      · rw [hpc, List.cons_append] at h0
        exact urlsplitClean_head u0 d _ h0

/-- C5: idempotence on normalizer outputs, under the hypotheses the
counterexamples force.  `h2` excludes outputs still carrying surrounding
whitespace (exposed when a query or fragment is stripped); `h3` excludes
outputs whose post-scheme remainder starts with `//` followed by a
delimiter or nothing (the slash-collapsing family).  Re-running the
normalizer then either raises (host validation of a shifted authority) or
returns its input unchanged. -/
theorem normalize_idempotent_amended (hostCheck : List Char → Bool) (u v : String)
    (h1 : normalize_url hostCheck u = some v)
    (h2 : pyStrip v = v)
    (h3 : ∀ rest, (splitScheme v.data).2 = '/' :: '/' :: rest →
      ∃ c, rest.head? = some c ∧ delim3 c = false) :
    normalize_url hostCheck v = none ∨ normalize_url hostCheck v = some v := by
  unfold normalize_url at h1
  simp only [] at h1
  rcases hp : urlparseList hostCheck (pyStripList (u.data.map lowerChar))
    with _ | p
  · rw [hp] at h1
    simp at h1
  rw [hp] at h1
  simp only [Option.some.injEq] at h1
  have hlowu : ∀ c ∈ pyStripList (u.data.map lowerChar), lowerChar c = c := by
    intro c hcm
    have hm2 := mem_pyStripList _ _ hcm
    rw [List.mem_map] at hm2
    obtain ⟨x, -, hx⟩ := hm2
    rw [← hx]
    exact lowerChar_idem x
  obtain ⟨F1, F2, F3, F4, F5, F6, F7, F8, F9, F10, F11⟩ :=
    urlparseList_facts hostCheck _ p hlowu hp
  have hvdata : urlunparseList ⟨p.scheme, p.netloc, p.path, p.params,
      cleanQuery p.query, []⟩ = v.data := congrArg String.data h1
  have hq'free : ∀ c ∈ cleanQuery p.query, c ≠ '#' := by
    intro c hcm he
    rcases mem_cleanQuery _ _ hcm with h0 | h0
    · rw [he] at h0
      exact absurd h0 (by decide)
    · exact F7 c h0 he
  have hq'idem : cleanQuery (cleanQuery p.query) = cleanQuery p.query :=
    cleanQuery_idem p.query
  have hq'low : ∀ c ∈ cleanQuery p.query,
      lowerChar c = c ∧ unsafeByte c = false := by
    intro c hcm
    rcases mem_cleanQuery _ _ hcm with h0 | h0
    · subst h0
      exact ⟨by decide, by decide⟩
    · exact F9 c (Or.inr (Or.inr (Or.inr (Or.inr h0))))
  have hvchars : ∀ c ∈ v.data, lowerChar c = c ∧ unsafeByte c = false := by
    intro c hcm
    rw [← hvdata] at hcm
    rcases mem_urlunparseList _ rfl c hcm with h0|h0|h0|h0|h0|h0|h0|h0|h0
    · exact F9 c (Or.inl h0)
    · exact F9 c (Or.inr (Or.inl h0))
    · exact F9 c (Or.inr (Or.inr (Or.inl h0)))
    · exact F9 c (Or.inr (Or.inr (Or.inr (Or.inl h0))))
    · exact hq'low c h0
    · subst h0; exact ⟨by decide, by decide⟩
    · subst h0; exact ⟨by decide, by decide⟩
    · subst h0; exact ⟨by decide, by decide⟩
    · subst h0; exact ⟨by decide, by decide⟩
  have hstriplist : pyStripList v.data = v.data := congrArg String.data h2
  have hmaplow : v.data.map lowerChar = v.data :=
    map_id_of_fix _ _ (fun c hcm => (hvchars c hcm).1)
  have hprep : pyStripList (v.data.map lowerChar) = v.data := by
    rw [hmaplow, hstriplist]
  have hheadv := unparse_head_ok (pyStripList (u.data.map lowerChar))
    ⟨p.scheme, p.netloc, p.path, p.params, cleanQuery p.query, []⟩ rfl F1 F11
  rw [hvdata] at hheadv
  have hcleanv : urlsplitClean v.data = v.data :=
    urlsplitClean_fix _ (fun c hcm => (hvchars c hcm).2) hheadv
  have hcleanv' : urlsplitClean (urlunparseList ⟨p.scheme, p.netloc, p.path,
      p.params, cleanQuery p.query, []⟩) = urlunparseList ⟨p.scheme, p.netloc,
      p.path, p.params, cleanQuery p.query, []⟩ := by
    rw [hvdata]
    exact hcleanv
  -- dispatch on the three reconstruction shapes
  have hcase : urlparseList hostCheck (urlunparseList ⟨p.scheme, p.netloc,
      p.path, p.params, cleanQuery p.query, []⟩) = none ∨
      ∃ p₂ : UrlParts, urlparseList hostCheck (urlunparseList ⟨p.scheme,
        p.netloc, p.path, p.params, cleanQuery p.query, []⟩) = some p₂ ∧
        p₂.query = cleanQuery p.query ∧
        urlunparseList { p₂ with query := cleanQuery p.query, fragment := [] } =
          urlunparseList ⟨p.scheme, p.netloc, p.path, p.params,
            cleanQuery p.query, []⟩ := by
    by_cases hcond : unparseCond ⟨p.scheme, p.netloc, p.path, p.params,
        cleanQuery p.query, []⟩
    · exact reparse_cond_true hostCheck ⟨p.scheme, p.netloc, p.path, p.params, cleanQuery p.query, []⟩
        rfl F1 F2 F3 F5 F6 hq'free F8 hcleanv' hcond
    · by_cases htk : (rejoinParams p.path p.params).take 2 = ['/', '/']
      · apply reparse_cond_false_slash hostCheck ⟨p.scheme, p.netloc, p.path, p.params, cleanQuery p.query, []⟩
          rfl F1 F2 F5 F6 hq'free F8 hcleanv' ?_ hcond htk ?_
        · by_contra hne
          exact hcond (Or.inl hne)
        · intro rest hrest
          apply h3
          rw [← hvdata]
          exact hrest
      · have hn : p.netloc = [] := by
          by_contra hne
          exact hcond (Or.inl hne)
        apply reparse_cond_false_noslash hostCheck ⟨p.scheme, p.netloc, p.path, p.params, cleanQuery p.query, []⟩
          rfl F1 F2 F5 F6 hq'free F8 hcleanv' hn ?_ htk ?_
        · by_cases hsch : p.scheme = []
          · exact Or.inl hsch
          · right
            intro hmem
            exact hcond (Or.inr ⟨hsch, hmem, htk⟩)
        · intro hsch
          rcases F11 hsch hn with h0 | h0 | ⟨t, h0⟩
          · exact Or.inl h0
          · exact Or.inr (Or.inl h0)
          · right; right
            refine ⟨t, ?_⟩
            rw [← h0]
            exact F10 hsch
  unfold normalize_url
  simp only []
  rw [hprep]
  rcases hcase with hnone | ⟨p₂, hp₂, hq₂, hun₂⟩
  · left
    rw [← hvdata, hnone]
  · right
    rw [← hvdata, hp₂]
    simp only []
    have hq₂' : cleanQuery p₂.query = cleanQuery p.query := by
      rw [hq₂]
      exact hq'idem
    rw [hq₂', hun₂, hvdata]

/-- A host validator that accepts every netloc; the real
`_check_bracketed_host`/`_checknetloc` checks pass on bracket-free ASCII
hosts such as `a.com`, so this instantiates them faithfully for the
concrete URLs below. -/
def hostAccept : List Char → Bool := fun _ => true

set_option maxRecDepth 4000 in
/-- C5 counterexample: the URL Normalizer is not idempotent for every URL
string.  For `u = "http://a.com/x ?utm_a=1"` the first pass drops the
tracking query but keeps the trailing space of the path, and the second
pass strips that now-trailing space, so `normalize(normalize(u)) ≠
normalize(u)`. -/
theorem normalize_idempotent_claim_cex :
    normalize_url hostAccept "http://a.com/x ?utm_a=1" =
      some "http://a.com/x " ∧
    normalize_url hostAccept "http://a.com/x " = some "http://a.com/x" ∧
    ("http://a.com/x " : String) ≠ "http://a.com/x" := by
  refine ⟨?_, ?_, ?_⟩ <;> decide

set_option maxRecDepth 4000 in
theorem normalize_idempotent_amended_witness :
    normalize_url hostAccept "http://ex.com/a?b=2" = none ∨
    normalize_url hostAccept "http://ex.com/a?b=2" = some "http://ex.com/a?b=2" := by
  apply normalize_idempotent_amended hostAccept "HTTP://Ex.com/A?utm_x=1&b=2#frag"
    "http://ex.com/a?b=2" ?_ ?_ ?_
  · decide
  · decide
  · intro rest hrest
    have he : (splitScheme ("http://ex.com/a?b=2" : String).data).2 =
        '/' :: '/' :: ("ex.com/a?b=2" : String).data := by decide
    rw [he] at hrest
    injection hrest with h1 h2
    injection h2 with h3 h4
    rw [← h4]
    exact ⟨'e', by decide, by decide⟩

end SRMRAG
